import Mathlib

/-!
Verification development for the lattice trigram search engine
(crates lattice-core and lattice-types).

Conventions of the embedding:
* Text is modelled as `List Nat` of Unicode scalar values; UTF-8 byte strings
  as `List Nat` of bytes.  Machine integers are `Nat` with explicit `% 2 ^ w`
  at the places where the source casts (`as u32`, `as u8`, wrapping `u64`
  counters).
* `char::to_lowercase` comes from the Rust standard library, not from this
  repository; the normalizer and the engine are therefore parametrised by a
  map `lower : Nat → List Nat` giving the lowercase expansion of each scalar
  value.  Theorems that depend on properties of the real map state them as
  hypotheses that hold for the Unicode lowercase mapping.
* `f32` values are modelled as exact rationals; each primitive operation
  rounds its exact result to 24 bits of precision (round half to even),
  matching IEEE-754 binary32 on the value ranges the engine uses
  (no overflow, no NaN: all intermediate values are small and nonnegative).
-/

/-! ### analyzer/normalizer.rs -/

/-- Byte test from `is_ascii_ws`: space, newline, tab, carriage return. -/
def isWsB (b : Nat) : Bool :=
  b == 32 || b == 10 || b == 9 || b == 13

/-- The 256-entry `LOWERCASE_TABLE` as a function: bytes 0x41..0x5A map to
0x61..0x7A, every other byte maps to itself. -/
def lowtab (b : Nat) : Nat :=
  if 65 ≤ b ∧ b ≤ 90 then b + 32 else b

/-- The explicit character cases of `fold_latin1`, as (scalar value, folded
ASCII letter) pairs, in source order. -/
def foldPairs : List (Nat × Nat) :=
  [(0xC1, 97), (0xC0, 97), (0xC2, 97), (0xC4, 97), (0xC3, 97), (0xC5, 97),
   (0x100, 97), (0x102, 97), (0x104, 97), (0xE1, 97), (0xE0, 97), (0xE2, 97),
   (0xE4, 97), (0xE3, 97), (0xE5, 97), (0x101, 97), (0x103, 97), (0x105, 97),
   (0xC7, 99), (0x106, 99), (0x10C, 99), (0x108, 99), (0x10A, 99), (0xE7, 99),
   (0x107, 99), (0x10D, 99), (0x109, 99), (0x10B, 99),
   (0xD0, 100), (0xF0, 100), (0x110, 100), (0x111, 100),
   (0xC9, 101), (0xC8, 101), (0xCA, 101), (0xCB, 101), (0x112, 101),
   (0x114, 101), (0x116, 101), (0x118, 101), (0x11A, 101), (0xE9, 101),
   (0xE8, 101), (0xEA, 101), (0xEB, 101), (0x113, 101), (0x115, 101),
   (0x117, 101), (0x119, 101), (0x11B, 101),
   (0xCD, 105), (0xCC, 105), (0xCE, 105), (0xCF, 105), (0x12A, 105),
   (0x12C, 105), (0x12E, 105), (0x130, 105), (0xED, 105), (0xEC, 105),
   (0xEE, 105), (0xEF, 105), (0x12B, 105), (0x12D, 105), (0x12F, 105),
   (0x131, 105),
   (0xD1, 110), (0x143, 110), (0x147, 110), (0x145, 110), (0xF1, 110),
   (0x144, 110), (0x148, 110), (0x146, 110),
   (0xD3, 111), (0xD2, 111), (0xD4, 111), (0xD6, 111), (0xD5, 111),
   (0x14C, 111), (0x14E, 111), (0x150, 111), (0xF3, 111), (0xF2, 111),
   (0xF4, 111), (0xF6, 111), (0xF5, 111), (0x14D, 111), (0x14F, 111),
   (0x151, 111),
   (0xDA, 117), (0xD9, 117), (0xDB, 117), (0xDC, 117), (0x16A, 117),
   (0x16C, 117), (0x16E, 117), (0x170, 117), (0x172, 117), (0xFA, 117),
   (0xF9, 117), (0xFB, 117), (0xFC, 117), (0x16B, 117), (0x16D, 117),
   (0x16F, 117), (0x171, 117), (0x173, 117),
   (0xDD, 121), (0x178, 121), (0xFD, 121), (0xFF, 121),
   (0x15A, 115), (0x160, 115), (0x15E, 115), (0x15B, 115), (0x161, 115),
   (0x15F, 115),
   (0x179, 122), (0x17D, 122), (0x17B, 122), (0x17A, 122), (0x17E, 122),
   (0x17C, 122),
   (0xDF, 115),
   (0x141, 108), (0x142, 108),
   (0xC6, 97), (0xE6, 97),
   (0x152, 111), (0x153, 111)]

/-- `fold_latin1`: combining marks U+0300..U+036F fold to NUL (which the
caller discards); the listed Latin letters fold to their base ASCII letter;
everything else is returned unchanged. -/
def fold_latin1 (c : Nat) : Nat :=
  if 0x300 ≤ c ∧ c ≤ 0x36F then 0
  else (foldPairs.lookup c).getD c

/-- One input scalar value of `TextNormalizer::normalize_into`.  The source
processes ASCII bytes (scalar values below 128) through the table/whitespace
branch — the SIMD blocks, the leading ASCII loop and the inner ASCII loop all
perform exactly this per-byte action — and each non-ASCII character through
`to_lowercase` (plus `fold_latin1` when `strip` is set, discarding NUL).
State: (bytes written so far, `prev_space`). -/
def emitStep (strip : Bool) (a : List Nat × Bool) (l : Nat) :
    List Nat × Bool :=
  let f := if strip then fold_latin1 l else l
  if strip && f == 0 then a else (a.1 ++ [f], false)

def normStep (strip : Bool) (lower : Nat → List Nat) (acc : List Nat × Bool)
    (c : Nat) : List Nat × Bool :=
  if c < 128 then
    if isWsB c then (if acc.2 then acc else (acc.1 ++ [32], true))
    else (acc.1 ++ [lowtab c], false)
  else
    (lower c).foldl (emitStep strip) acc

/-- `TextNormalizer::normalize_into` (output written into a cleared buffer):
fold `normStep` over the input, then drop the single trailing space when
`prev_space` is set and something was written. -/
def normalize_into (strip : Bool) (lower : Nat → List Nat) (input : List Nat) :
    List Nat :=
  let r := input.foldl (normStep strip lower) ([], false)
  if r.2 && !r.1.isEmpty then r.1.dropLast else r.1

/-- `NormalizerConfig` (its only field). -/
structure NormalizerConfig where
  strip_diacritics : Bool
deriving DecidableEq

/-- `impl Default for NormalizerConfig`. -/
def NormalizerConfig.default : NormalizerConfig :=
  { strip_diacritics := false }

/-! ### UTF-8 encoding (Rust `str::as_bytes` on our scalar-value strings) -/

/-- UTF-8 encoding of one Unicode scalar value. -/
def utf8Char (c : Nat) : List Nat :=
  if c < 128 then [c]
  else if c < 2048 then [192 + c / 64, 128 + c % 64]
  else if c < 65536 then [224 + c / 4096, 128 + c / 64 % 64, 128 + c % 64]
  else [240 + c / 262144, 128 + c / 4096 % 64, 128 + c / 64 % 64, 128 + c % 64]

/-- UTF-8 encoding of a string of scalar values. -/
def utf8 (s : List Nat) : List Nat :=
  s.flatMap utf8Char

/-! ### lattice-types: trigrams, search config, results, errors -/

/-- `Trigram::from_bytes`: `(b0 << 16) | (b1 << 8) | b2` for bytes. -/
def packTri (b0 b1 b2 : Nat) : Nat :=
  b0 * 65536 + b1 * 256 + b2

/-- `extract_trigrams` over a byte string: one packed trigram per 3-byte
sliding window; nothing for strings shorter than 3 bytes. -/
def windows3 (bytes : List Nat) : List Nat :=
  (List.range (bytes.length - 2)).map fun i =>
    packTri (bytes.getD i 0) (bytes.getD (i + 1) 0) (bytes.getD (i + 2) 0)

/-- `SearchConfig`; `minOverlap` is the field `min_overlap` ratio
(an f32 value, held as an exact rational). -/
structure SearchConfig where
  minOverlap : ℚ
  enable_fuzzy : Bool
  max_edit_distance : Nat
deriving DecidableEq

/-- The f32 literal 0.3 (the default overlap ratio), exactly. -/
def ratioDefault : ℚ := 5033165 / 2 ^ 24

/-- `impl Default for SearchConfig`. -/
def SearchConfig.default : SearchConfig :=
  { minOverlap := ratioDefault, enable_fuzzy := true, max_edit_distance := 2 }

/-- `SearchResult` (score an f32, modelled as its exact rational value). -/
structure SearchResult where
  doc : Nat
  score : ℚ
deriving DecidableEq

/-- `DocumentError` (payload sizes kept for `TooLarge`/`TooShort`). -/
inductive DocumentError where
  | TooLarge : Nat → Nat → DocumentError
  | TooShort : Nat → Nat → DocumentError
  | InvalidInput : DocumentError
deriving DecidableEq

/-! ### Claim C9 -/

/-- Engine normalizer configuration used by `Lattice::new`: the default
`NormalizerConfig` (the struct literal in `Lattice::new` takes the
normalizer built from the default configuration). -/
def latticeNewStrip : Bool :=
  NormalizerConfig.default.strip_diacritics

/-! ### Claim C7: idempotence of the normalizer -/

/-- Properties of one scalar value in the image of the lowercase map:
never ASCII whitespace, never an ASCII uppercase letter, and itself a fixed
point of the map when non-ASCII.  These hold for every output character of
Unicode `char::to_lowercase`. -/
def EmitOK (lower : Nat → List Nat) (l : Nat) : Prop :=
  isWsB l = false ∧ ¬(65 ≤ l ∧ l ≤ 90) ∧ (128 ≤ l → lower l = [l])

/-- The hypotheses on the lowercase map under which the normalizer is
idempotent; Unicode's lowercase mapping satisfies them. -/
def LowerOK (lower : Nat → List Nat) : Prop :=
  ∀ c, 128 ≤ c → ∀ l ∈ lower c, EmitOK lower l

/-- A scalar value that the normalizer maps to itself when it reappears in
its own output. -/
def Stable (strip : Bool) (lower : Nat → List Nat) (c : Nat) : Prop :=
  if c < 128 then lowtab c = c ∧ (isWsB c = true → c = 32)
  else lower c = [c] ∧ (strip = true → fold_latin1 c = c)

/-- Shape of a normalizer output: stable characters, no two adjacent
spaces, no trailing space. -/
def GoodOut (strip : Bool) (lower : Nat → List Nat) (l : List Nat) : Prop :=
  (∀ c ∈ l, Stable strip lower c) ∧
  l.Chain' (fun p q => ¬(p = 32 ∧ q = 32)) ∧
  l.getLast? ≠ some 32

/-- Invariant of the write state during one normalization pass. -/
def WriteInv (strip : Bool) (lower : Nat → List Nat) (a : List Nat × Bool) :
    Prop :=
  (∀ c ∈ a.1, Stable strip lower c) ∧
  a.1.Chain' (fun p q => ¬(p = 32 ∧ q = 32)) ∧
  (a.2 = true ↔ a.1.getLast? = some 32)

/-- Final slot of one pass over an already-good string. -/
def lastSpace (prev : Bool) (l : List Nat) : Bool :=
  match l.getLast? with
  | some c => c == 32
  | none => prev

namespace Eng

/-! ### arena.rs -/

/-- `DocSpan`: byte offset and length of one document inside the arena
buffer (`len` is a u16 in the source, hence the 65535 cap in `push`). -/
structure DocSpan where
  off : Nat
  len : Nat
deriving DecidableEq

/-- `Arena`: the contiguous byte buffer plus the span table.  The bump head
always equals `buffer.length` (the source keeps `head = buffer.len()` via
`set_len`), so it is not stored separately. -/
structure Arena where
  buffer : List Nat
  spans : List DocSpan
deriving DecidableEq

/-- `Arena::push`: reject byte strings longer than `u16::MAX`, otherwise
append the bytes at the head and record the span.  The returned document id
is `spans.len() as u32` and the recorded offset is `offset as u32`
(arena.rs:146), hence the two `% 2 ^ 32`; the recorded length is
`len as u16`, which the guard keeps below `2 ^ 16`, so that cast is the
identity here. -/
def Arena.push (a : Arena) (bytes : List Nat) : Option (Nat × Arena) :=
  if bytes.length > 65535 then none
  else some (a.spans.length % 2 ^ 32,
    { buffer := a.buffer ++ bytes,
      spans := a.spans ++
        [{ off := a.buffer.length % 2 ^ 32, len := bytes.length }] })

/-- `Arena::get`: slice the buffer at the recorded span. -/
def Arena.get (a : Arena) (i : Nat) : Option (List Nat) :=
  (a.spans.get? i).map fun s => (a.buffer.drop s.off).take s.len

/-! ### index/types.rs -/

def MAX_QUERY_TRIGRAMS : Nat := 30

def PREFIX_BONUS : Nat := 2

def MAX_CANDIDATES : Nat := 100000

def MAX_QUERY_LENGTH : Nat := 1000

def MAX_DOCUMENT_LENGTH : Nat := 65535

def MAX_SEED_POSTING_LIST : Nat := 100000

def RADIX_SORT_THRESHOLD : Nat := 512

/-- `PostingBlock`: trigram plus the (offset, length) range of its posting
list inside the flat postings vector. -/
structure PostingBlock where
  trigram : Nat
  off : Nat
  len : Nat
deriving DecidableEq

/-- `Candidate`: document id and accumulated match weight. -/
structure Candidate where
  doc : Nat
  matches' : Nat
deriving DecidableEq

/-- `TempTrigramEntry`: one uncommitted (trigram, doc id) tuple. -/
structure TempTrigramEntry where
  trigram : Nat
  doc : Nat
deriving DecidableEq

/-- `QueryTrigram`: resolved posting range plus the position bonus. -/
structure QueryTrigram where
  off : Nat
  len : Nat
  bonus : Nat
deriving DecidableEq

/-- The engine state.  The reusable scratch buffers of the source
(`norm_buf`, `query_buf`, `candidates`, `results`) are cleared at the start
of every use and carry no information between calls, so they are not part of
the state; `normStrip` is the normalizer's `strip_diacritics` flag. -/
structure Lattice where
  blocks : List PostingBlock
  postings : List Nat
  documents : Arena
  doc_lengths : List Nat
  normStrip : Bool
  config : SearchConfig
  temp_trigrams : List TempTrigramEntry
  needs_rebuild : Bool
  query_count : Nat
  documents_added : Nat
deriving DecidableEq

/-- `Lattice::new`. -/
def Lattice.new : Lattice :=
  { blocks := [], postings := [], documents := { buffer := [], spans := [] },
    doc_lengths := [], normStrip := NormalizerConfig.default.strip_diacritics,
    config := SearchConfig.default, temp_trigrams := [], needs_rebuild := false,
    query_count := 0, documents_added := 0 }

/-- `Lattice::with_config`. -/
def Lattice.with_config (cfg : SearchConfig) : Lattice :=
  { Lattice.new with config := cfg }

/-! ### index/api.rs -/

/-- Byte predicate of `contains_invalid_controls`:
`0x00..=0x08 | 0x0B | 0x0C | 0x0E..=0x1F | 0x7F`. -/
def invalidControlByte (b : Nat) : Bool :=
  b ≤ 8 || b == 11 || b == 12 || (14 ≤ b && b ≤ 31) || b == 127

/-- `contains_invalid_controls` over the UTF-8 bytes of the input. -/
def contains_invalid_controls (bytes : List Nat) : Bool :=
  bytes.any invalidControlByte

/-- `Lattice::add`.  Validation first (pre-normalization byte length, then
control bytes); on success normalize, store the normalized bytes in the
arena (which enforces its own 65535-byte cap on the normalized length),
record the document length, extract trigrams into the delta buffer when the
normalized text has at least 3 bytes, and mark the index dirty.  The failure
paths of the source touch only the scratch normalization buffer, so they
return the state unchanged. -/
def Lattice.add (lower : Nat → List Nat) (st : Lattice) (content : List Nat) :
    (DocumentError ⊕ Nat) × Lattice :=
  if (utf8 content).length > MAX_DOCUMENT_LENGTH then
    (.inl (.TooLarge (utf8 content).length MAX_DOCUMENT_LENGTH), st)
  else if contains_invalid_controls (utf8 content) then
    (.inl .InvalidInput, st)
  else
    match st.documents.push (utf8 (normalize_into st.normStrip lower content)) with
    | none =>
      (.inl (.TooLarge
        (utf8 (normalize_into st.normStrip lower content)).length
        MAX_DOCUMENT_LENGTH), st)
    | some (doc_id, ar) =>
      (.inr doc_id,
        { st with
          documents := ar,
          doc_lengths := st.doc_lengths ++
            [(utf8 (normalize_into st.normStrip lower content)).length],
          documents_added := (st.documents_added + 1) % 2 ^ 64,
          temp_trigrams := st.temp_trigrams ++
            (if 3 ≤ (utf8 (normalize_into st.normStrip lower content)).length
             then (windows3 (utf8 (normalize_into st.normStrip lower content))).map
               fun t => ({ trigram := t, doc := doc_id } : TempTrigramEntry)
             else []),
          needs_rebuild := st.needs_rebuild ||
            3 ≤ (utf8 (normalize_into st.normStrip lower content)).length })

/-- Lowercase map used by the C8 counterexample: U+0130 (LATIN CAPITAL
LETTER I WITH DOT ABOVE) expands to "i" followed by U+0307 COMBINING DOT
ABOVE, exactly as `char::to_lowercase` does; every other scalar value maps
to itself. -/
def lowerIdot (c : Nat) : List Nat :=
  if c = 0x130 then [0x69, 0x307] else [c]

/-! ### index/builder.rs — sorting the delta buffer -/

/-- The comparator of `sort_trigrams`' comparison branch:
`(trigram, doc_id)` lexicographically. -/
def entryLe (a b : TempTrigramEntry) : Prop :=
  a.trigram < b.trigram ∨ (a.trigram = b.trigram ∧ a.doc ≤ b.doc)

instance : DecidableRel entryLe := fun a b => by
  unfold entryLe
  exact inferInstance

instance : IsTotal TempTrigramEntry entryLe :=
  ⟨fun a b => by unfold entryLe; omega⟩

instance : IsTrans TempTrigramEntry entryLe :=
  ⟨fun a b c h₁ h₂ => by unfold entryLe at *; omega⟩

instance : IsAntisymm TempTrigramEntry entryLe :=
  ⟨fun a b h₁ h₂ => by
    obtain ⟨ta, da⟩ := a
    obtain ⟨tb, db⟩ := b
    unfold entryLe at *
    simp_all
    omega⟩

/-- One stable counting pass of the radix sort (`radix_pass`): distribute
into the 256 buckets by the key byte, preserving order inside each bucket —
exactly what the histogram/offset/scatter loop computes. -/
def radix_pass (key : TempTrigramEntry → Nat) (l : List TempTrigramEntry) :
    List TempTrigramEntry :=
  (List.range 256).flatMap fun k => l.filter fun e => key e = k

/-- Radix key functions: `e.doc_id as u8`, `(e.doc_id >> 8) as u8`, ...,
`(e.trigram >> 16) as u8`. -/
def kd0 (e : TempTrigramEntry) : Nat := e.doc % 256

def kd1 (e : TempTrigramEntry) : Nat := e.doc / 2 ^ 8 % 256

def kd2 (e : TempTrigramEntry) : Nat := e.doc / 2 ^ 16 % 256

def kd3 (e : TempTrigramEntry) : Nat := e.doc / 2 ^ 24 % 256

def kt0 (e : TempTrigramEntry) : Nat := e.trigram % 256

def kt1 (e : TempTrigramEntry) : Nat := e.trigram / 2 ^ 8 % 256

def kt2 (e : TempTrigramEntry) : Nat := e.trigram / 2 ^ 16 % 256

/-- `Lattice::sort_trigrams`: comparison sort below the radix threshold,
otherwise the 7-pass LSD radix sort (doc id bytes least significant first,
then the three trigram bytes).  `sort_unstable_by` returns some permutation
sorted by the comparator; since the comparator is a total order that is
antisymmetric on the entry values, that permutation is unique, and we model
it with a concrete sort. -/
def sort_trigrams (l : List TempTrigramEntry) : List TempTrigramEntry :=
  if l.length < RADIX_SORT_THRESHOLD then l.insertionSort entryLe
  else
    radix_pass kt2 (radix_pass kt1 (radix_pass kt0 (radix_pass kd3
      (radix_pass kd2 (radix_pass kd1 (radix_pass kd0 l))))))

/-! ### index/builder.rs — building blocks from the sorted delta -/

/-- The loop of `build_blocks_from_sorted`.  State: current trigram, block
offset, block length and last pushed doc id.  A change of trigram closes the
current block and opens a new one whose first entry is always pushed; equal
consecutive doc ids inside a run are deduplicated.  `current_offset` and
`current_len` are `u32` in the source (builder.rs:112-113), so the updates
`current_offset += current_len` (builder.rs:126) and `current_len += 1`
(builder.rs:134) wrap at `2 ^ 32`. -/
def bbGo (cur_t cur_off cur_len : Nat) (last : Option Nat) :
    List TempTrigramEntry → List PostingBlock × List Nat
  | [] => ([⟨cur_t, cur_off, cur_len⟩], [])
  | e :: rest =>
    if e.trigram ≠ cur_t then
      let r := bbGo e.trigram ((cur_off + cur_len) % 2 ^ 32) 1 (some e.doc) rest
      (⟨cur_t, cur_off, cur_len⟩ :: r.1, e.doc :: r.2)
    else if last ≠ some e.doc then
      let r := bbGo cur_t cur_off ((cur_len + 1) % 2 ^ 32) (some e.doc) rest
      (r.1, e.doc :: r.2)
    else bbGo cur_t cur_off cur_len last rest

/-- `Lattice::build_blocks_from_sorted`. -/
def build_blocks_from_sorted (entries : List TempTrigramEntry) :
    List PostingBlock × List Nat :=
  match entries with
  | [] => ([], [])
  | e :: _ => bbGo e.trigram 0 0 none entries

/-! ### index/builder.rs — merging committed and delta indexes -/

/-- `Lattice::block_postings`: the slice of the postings vector a block
refers to (total rendering of the panicking slice). -/
def block_postings (b : PostingBlock) (postings : List Nat) : List Nat :=
  (postings.drop b.off).take b.len

/-- `Lattice::merge_sorted_dedup`: two-way merge of sorted lists, keeping a
single copy of ids present in both. -/
def merge_sorted_dedup : List Nat → List Nat → List Nat
  | [], b => b
  | a :: as', [] => a :: as'
  | a :: as', b :: bs =>
    if a < b then a :: merge_sorted_dedup as' (b :: bs)
    else if b < a then b :: merge_sorted_dedup (a :: as') bs
    else a :: merge_sorted_dedup as' bs
termination_by a b => a.length + b.length

/-- The merge-join loop of `Lattice::merge_indexes`; `outLen` is
`out_postings.len()` (a `usize`) at the time each block is pushed.  The
offset each block records is `out_postings.len() as u32` (builder.rs:186,
229), hence `outLen % 2 ^ 32`; the merged-block length is computed by `u32`
subtraction of the two casts (builder.rs:188), which equals
`merged.length % 2 ^ 32`. -/
def miGo : List PostingBlock → List PostingBlock → List Nat → List Nat → Nat →
    List PostingBlock × List Nat
  | [], [], _, _, _ => ([], [])
  | a :: as', [], ap, bp, outLen =>
    let sl := block_postings a ap
    let r := miGo as' [] ap bp (outLen + sl.length)
    (⟨a.trigram, outLen % 2 ^ 32, a.len⟩ :: r.1, sl ++ r.2)
  | [], b :: bs, ap, bp, outLen =>
    let sl := block_postings b bp
    let r := miGo [] bs ap bp (outLen + sl.length)
    (⟨b.trigram, outLen % 2 ^ 32, b.len⟩ :: r.1, sl ++ r.2)
  | a :: as', b :: bs, ap, bp, outLen =>
    if a.trigram < b.trigram then
      let sl := block_postings a ap
      let r := miGo as' (b :: bs) ap bp (outLen + sl.length)
      (⟨a.trigram, outLen % 2 ^ 32, a.len⟩ :: r.1, sl ++ r.2)
    else if b.trigram < a.trigram then
      let sl := block_postings b bp
      let r := miGo (a :: as') bs ap bp (outLen + sl.length)
      (⟨b.trigram, outLen % 2 ^ 32, b.len⟩ :: r.1, sl ++ r.2)
    else
      let ms := merge_sorted_dedup (block_postings a ap) (block_postings b bp)
      let r := miGo as' bs ap bp (outLen + ms.length)
      (⟨a.trigram, outLen % 2 ^ 32, ms.length % 2 ^ 32⟩ :: r.1, ms ++ r.2)
termination_by a b => a.length + b.length

/-- `Lattice::merge_indexes`. -/
def merge_indexes (ab : List PostingBlock) (ap : List Nat)
    (bb : List PostingBlock) (bp : List Nat) : List PostingBlock × List Nat :=
  miGo ab bb ap bp 0

/-- `Lattice::rebuild_index`: nothing to do for an empty delta; cold build
when no blocks are committed yet; otherwise build the delta blocks and
merge-join them with the committed ones.  Clears the delta and the dirty
flag. -/
def Lattice.rebuild_index (st : Lattice) : Lattice :=
  if st.temp_trigrams = [] then { st with needs_rebuild := false }
  else
    let sorted := sort_trigrams st.temp_trigrams
    if st.blocks = [] then
      let r := build_blocks_from_sorted sorted
      { st with blocks := r.1, postings := r.2,
                temp_trigrams := [], needs_rebuild := false }
    else
      let d := build_blocks_from_sorted sorted
      let m := merge_indexes st.blocks st.postings d.1 d.2
      { st with blocks := m.1, postings := m.2,
                temp_trigrams := [], needs_rebuild := false }

/-! ### f32 model (exact rationals, rounded to 24-bit precision) -/

/-- Round a rational to an integer, half to even. -/
def rhe (x : ℚ) : ℤ :=
  let f := ⌊x⌋
  let r := x - f
  if r < 1 / 2 then f
  else if 1 / 2 < r then f + 1
  else if f % 2 = 0 then f else f + 1

/-- Smallest `t` with `|q| < 2 ^ t` (for `q ≠ 0`), computed from the bit
sizes of numerator and denominator. -/
def clog2 (q : ℚ) : ℤ :=
  let t0 : ℤ := (q.num.natAbs.size : ℤ) - (q.den.size : ℤ) + 1
  if |q| < 2 ^ (t0 - 1) then t0 - 1 else t0

/-- Round an exact rational to the nearest f32 value (round half to even,
exponent clamped at the subnormal range; overflow cannot occur on the value
ranges the engine computes with). -/
def roundF32 (q : ℚ) : ℚ :=
  if q = 0 then 0
  else
    let s : ℚ := if q < 0 then -1 else 1
    let e : ℤ := max (clog2 q - 24) (-149)
    s * (rhe (|q| / 2 ^ e) : ℚ) * 2 ^ e

/-- f32 multiplication of exactly-represented operands. -/
def mulF32 (a b : ℚ) : ℚ := roundF32 (a * b)

/-- f32 addition of exactly-represented operands. -/
def addF32 (a b : ℚ) : ℚ := roundF32 (a + b)

/-- f32 division (the engine never divides by zero: its denominators are
at least 1). -/
def divF32 (a b : ℚ) : ℚ := if b = 0 then 0 else roundF32 (a / b)

/-- Nearest integer to `√x` (for `x ≥ 0`), half to even. -/
def rsqrt (x : ℚ) : Nat :=
  let m := Nat.sqrt ⌊x⌋.toNat
  let mid : ℚ := (m : ℚ) * m + m + 1 / 4
  if x < mid then m
  else if mid < x then m + 1
  else if m % 2 = 0 then m else m + 1

/-- Correctly rounded f32 square root. -/
def sqrtF32 (q : ℚ) : ℚ :=
  if q ≤ 0 then 0
  else
    let t := clog2 q
    let c : ℤ := if t % 2 = 0 then t / 2 else (t + 1) / 2
    let e : ℤ := max (c - 24) (-149)
    (rsqrt (q / 2 ^ (2 * e)) : ℚ) * 2 ^ e

/-- The threshold split of `search`:
`((total as f32 * min_overlap_ratio).ceil().max(1.0) as usize).min(total)`. -/
def required_end (total : Nat) (r : ℚ) : Nat :=
  (max ⌈roundF32 ((total : ℚ) * r)⌉ 1).toNat.min total

/-! ### index/scoring.rs -/

/-- `Lattice::compute_score_fast` (all arithmetic in f32; the operands
`doc_len`, `matches` and `max(total, 1)` are small integers, hence exact). -/
def compute_score_fast (doc_lengths : List Nat) (doc matches'' total : Nat) : ℚ :=
  let dl := doc_lengths.getD doc 0
  let lf : ℚ := if 0 < dl then divF32 100 (addF32 1 (sqrtF32 (dl : ℚ))) else 100
  let mr := divF32 (matches'' : ℚ) ((max total 1 : Nat) : ℚ)
  mulF32 (mulF32 mr mr) lf

/-! ### index/search.rs -/

/-- The loop of `slice::binary_search_by_key` on the block table, with a
fuel argument for termination (`blocks.length + 1` suffices). -/
def binSearchGo (bs : List PostingBlock) (t : Nat) :
    Nat → Nat → Nat → Option Nat
  | _, _, 0 => none
  | left, right, fuel + 1 =>
    if left < right then
      let mid := left + (right - left) / 2
      let bt := (bs.getD mid ⟨0, 0, 0⟩).trigram
      if bt < t then binSearchGo bs t (mid + 1) right fuel
      else if t < bt then binSearchGo bs t left mid fuel
      else some mid
    else none

/-- `Lattice::find_block`. -/
def find_block (bs : List PostingBlock) (t : Nat) : Option Nat :=
  binSearchGo bs t 0 bs.length (bs.length + 1)

/-- Posting-range slice `&postings[off .. off + len]` (total rendering). -/
def sliceP (postings : List Nat) (off len : Nat) : List Nat :=
  (postings.drop off).take len

/-- Trigram resolution of `search` (its first loop): for each query window
position `i` below `min(len − 2, 30)`, a prefix bonus of 2 for `i < 3` and 1
otherwise, retained only when the block table contains the trigram. -/
def queryTrigrams (st : Lattice) (qb : List Nat) : List QueryTrigram :=
  let maxT := min (qb.length - 2) MAX_QUERY_TRIGRAMS
  (List.range maxT).filterMap fun i =>
    (find_block st.blocks
        (packTri (qb.getD i 0) (qb.getD (i + 1) 0) (qb.getD (i + 2) 0))).map
      fun idx =>
        let b := st.blocks.getD idx ⟨0, 0, 0⟩
        { off := b.off, len := b.len,
          bonus := if i < 3 then PREFIX_BONUS else 1 }

/-- Sort key of `sort_unstable_by_key(|qt| qt.len)`.  The source's unstable
sort only guarantees some permutation ordered by the key; the model renders
it as the stable insertion sort, one such permutation.  When the keys are
pairwise distinct every key-ordered permutation is that one
(`qt_sorted_unique`), so under a distinct-lengths hypothesis the rendering
is exact; with ties the order of equal-length entries is a model choice the
code does not make. -/
def qtLe (a b : QueryTrigram) : Prop := a.len ≤ b.len

instance : DecidableRel qtLe := fun a b => by
  unfold qtLe
  exact inferInstance

instance : IsTotal QueryTrigram qtLe :=
  ⟨fun a b => by unfold qtLe; omega⟩

instance : IsTrans QueryTrigram qtLe :=
  ⟨fun a b c h₁ h₂ => by unfold qtLe at *; omega⟩

/-- `Lattice::hard_intersect`: linear merge-join dropping candidates absent
from the posting list and adding the bonus to the survivors. -/
def hard_intersect (bonus : Nat) : List Candidate → List Nat → List Candidate
  | [], _ => []
  | c :: cs, ps =>
    match ps.dropWhile (· < c.doc) with
    | [] => hard_intersect bonus cs []
    | p :: rest =>
      if p = c.doc then
        ⟨c.doc, c.matches' + bonus⟩ :: hard_intersect bonus cs rest
      else hard_intersect bonus cs (p :: rest)

/-- `Lattice::soft_merge`: same scan, but candidates are never dropped —
only matching ones gain the bonus. -/
def soft_merge (bonus : Nat) : List Candidate → List Nat → List Candidate
  | [], _ => []
  | c :: cs, ps =>
    match ps.dropWhile (· < c.doc) with
    | [] => c :: soft_merge bonus cs []
    | p :: rest =>
      if p = c.doc then
        ⟨c.doc, c.matches' + bonus⟩ :: soft_merge bonus cs rest
      else c :: soft_merge bonus cs (p :: rest)

/-- Result order of the final sort: the source comparator is
`b.score.partial_cmp(&a.score)` — descending score only (the doc-id
tiebreak of `impl Ord for SearchResult` is not consulted by `search`).  The
source sorts with `sort_unstable_by`, which fixes only the score order; the
model's stable insertion sort is one of the permutations it allows, and the
order of equal-score results is a model choice the code does not make. -/
def resLe (a b : SearchResult) : Prop := b.score ≤ a.score

instance : DecidableRel resLe := fun a b => by
  unfold resLe
  exact inferInstance

instance : IsTotal SearchResult resLe :=
  ⟨fun a b => by unfold resLe; exact le_total a.score b.score |>.symm⟩

instance : IsTrans SearchResult resLe :=
  ⟨fun a b c h₁ h₂ => by unfold resLe at *; exact le_trans h₂ h₁⟩

/-- The result computation of `Lattice::search`, after the rebuild decision:
oversized or too-short queries return empty; resolve and sort the query
trigrams; guard the seed list; seed the candidates, hard-intersect positions
`[1, required_end)`, soft-merge the rest (the source's early return on an
empty candidate set yields the same value: every later phase maps the empty
set to itself and the result is empty); score; `select_nth + truncate` keeps
the `limit` greatest results (rendered as sort-then-take), then the final
sort orders by descending score. -/
def seedCands (postings : List Nat) (qt0 : QueryTrigram) : List Candidate :=
  (sliceP postings qt0.off qt0.len).map
    fun d => ({ doc := d, matches' := qt0.bonus } : Candidate)

def hardPhase (postings : List Nat) (L : List QueryTrigram)
    (cs : List Candidate) : List Candidate :=
  L.foldl
    (fun cs qt => hard_intersect qt.bonus cs (sliceP postings qt.off qt.len))
    cs

def softPhase (postings : List Nat) (L : List QueryTrigram)
    (cs : List Candidate) : List Candidate :=
  L.foldl
    (fun cs qt => soft_merge qt.bonus cs (sliceP postings qt.off qt.len))
    cs

def scoreCands (doc_lengths : List Nat) (total : Nat) (cs : List Candidate) :
    List SearchResult :=
  cs.map fun c =>
    ({ doc := c.doc,
       score := compute_score_fast doc_lengths c.doc c.matches' total }
      : SearchResult)

/-- `select_nth_unstable + truncate`, rendered as sort-then-take (a
permutation holding `limit` greatest elements under `resLe`; which
equal-score elements survive at the cut is a model choice the code does not
make — theorems that depend on the kept contents only take the
no-truncation branch, on which the rendering is the identity). -/
def truncTop (limit : Nat) (rs : List SearchResult) : List SearchResult :=
  if rs.length > limit then (rs.insertionSort resLe).take limit else rs

/-- The candidate/scoring pipeline of `Lattice::search`, for the resolved
query trigram buffer. -/
def searchCore (postings doc_lengths : List Nat) (ratio : ℚ)
    (qts : List QueryTrigram) (limit : Nat) : List SearchResult :=
  let sorted := qts.insertionSort qtLe
  let qt0 := sorted.getD 0 ⟨0, 0, 0⟩
  if qt0.len > MAX_SEED_POSTING_LIST then []
  else if qt0.len > MAX_CANDIDATES then []
  else
    let rEnd := required_end sorted.length ratio
    (truncTop limit (scoreCands doc_lengths sorted.length
      (softPhase postings (sorted.drop rEnd)
        (hardPhase postings ((sorted.drop 1).take (rEnd - 1))
          (seedCands postings qt0))))).insertionSort resLe

def searchResults (lower : Nat → List Nat) (st : Lattice)
    (query : List Nat) (limit : Nat) : List SearchResult :=
  if (utf8 query).length > MAX_QUERY_LENGTH then []
  else
    let qb := utf8 (normalize_into st.normStrip lower query)
    if qb.length < 3 then []
    else
      let qts := queryTrigrams st qb
      if qts = [] then []
      else searchCore st.postings st.doc_lengths st.config.minOverlap qts limit

/-- `Lattice::search`.  Bump the query counter; empty index or zero limit
return immediately (before the rebuild); rebuild if dirty; then compute the
results on the (possibly rebuilt) state. -/
def Lattice.search (lower : Nat → List Nat) (st0 : Lattice)
    (query : List Nat) (limit : Nat) : List SearchResult × Lattice :=
  let st1 := { st0 with query_count := (st0.query_count + 1) % 2 ^ 64 }
  if st1.documents.spans.length = 0 ∨ limit = 0 then ([], st1)
  else
    let st := if st1.needs_rebuild then st1.rebuild_index else st1
    (searchResults lower st query limit, st)

/-! ### Reachable engine states -/

/-- States reachable from the constructors through `add` and `search`
(`lower` is fixed along the trace: it models the one lowercase mapping of
the standard library). -/
inductive Reachable (lower : Nat → List Nat) : Lattice → Prop where
  | new : Reachable lower Lattice.new
  | withConfig (cfg : SearchConfig) : Reachable lower (Lattice.with_config cfg)
  | add (st : Lattice) (c : List Nat) : Reachable lower st →
      Reachable lower (st.add lower c).2
  | search (st : Lattice) (q : List Nat) (lim : Nat) : Reachable lower st →
      Reachable lower (st.search lower q lim).2

/-- The engine state of the C6 counterexample: add "cdef", then run a search
(on a query with no indexed trigrams) so that the index is committed.  The
block table then contains exactly the trigrams "cde" and "def". -/
def c6state : Lattice :=
  (((Lattice.new.add (fun c => [c]) [99, 100, 101, 102]).2).search
    (fun c => [c]) [120, 120, 120] 1).2

/-- Lexicographic refinement by a byte key. -/
def lexKey (key : TempTrigramEntry → Nat)
    (R : TempTrigramEntry → TempTrigramEntry → Prop) :
    TempTrigramEntry → TempTrigramEntry → Prop :=
  fun a b => key a < key b ∨ (key a = key b ∧ R a b)

/-- The order established by the seven radix passes. -/
def lex7 : TempTrigramEntry → TempTrigramEntry → Prop :=
  lexKey kt2 (lexKey kt1 (lexKey kt0 (lexKey kd3 (lexKey kd2 (lexKey kd1
    (lexKey kd0 (fun _ _ => True)))))))

/-- The radix branch of `sort_trigrams`. -/
def radix7 (l : List TempTrigramEntry) : List TempTrigramEntry :=
  radix_pass kt2 (radix_pass kt1 (radix_pass kt0 (radix_pass kd3
    (radix_pass kd2 (radix_pass kd1 (radix_pass kd0 l))))))

/-! ### Canonical index layout: blocks as an association of trigram to
posting slice, with contiguous offsets -/

/-- Offsets of the block list are consecutive from `start` and the ranges
cover the postings vector up to `total`. -/
def Contig : List PostingBlock → Nat → Nat → Prop
  | [], start, total => start = total
  | b :: bs, start, total => b.off = start ∧ Contig bs (start + b.len) total

/-- View of a (blocks, postings) pair as trigram/posting-list pairs. -/
def toAssoc (bs : List PostingBlock) (ps : List Nat) : List (Nat × List Nat) :=
  bs.map fun b => (b.trigram, block_postings b ps)

/-- Membership of a (trigram, doc) pair in the associative view. -/
def AMem (A : List (Nat × List Nat)) (t d : Nat) : Prop :=
  ∃ p ∈ A, p.1 = t ∧ d ∈ p.2

/-- Well-formed associative view: strictly ascending trigrams, and each
posting list strictly ascending and nonempty. -/
def AssocOK (A : List (Nat × List Nat)) : Prop :=
  A.Pairwise (fun p q => p.1 < q.1) ∧
  ∀ p ∈ A, p.2.Pairwise (fun x y => x < y) ∧ p.2 ≠ []

/-- Per-block well-formedness with respect to the full postings vector. -/
def BlockOut (bs : List PostingBlock) (full : List Nat) : Prop :=
  ∀ b ∈ bs, (block_postings b full).Pairwise (fun x y => x < y) ∧
    (block_postings b full).length = b.len ∧ 0 < b.len

/-! ### Engine state invariant -/

/-- The lowercase map yields Unicode scalar values (`char` in the source:
every `char` is below 0x110000). -/
def ValidLower (lower : Nat → List Nat) : Prop :=
  ∀ c, ∀ x ∈ lower c, x < 1114112

/-- A concrete lowercase map for ground evaluations: the identity on scalar
values (total rendering). -/
def idLower (c : Nat) : List Nat := [c % 1114112]

instance (A : List (Nat × List Nat)) (t d : Nat) : Decidable (AMem A t d) := by
  unfold AMem
  exact List.decidableBEx _ A

/-- `(t, d)` is one of the trigram/doc-id pairs generated by the stored
documents (doc ids as pushed: index mod 2^32). -/
def DocTri (st : Lattice) (t d : Nat) : Prop :=
  ∃ i, i < st.documents.spans.length ∧ d = i % 2 ^ 32 ∧
    ∃ bytes, st.documents.get i = some bytes ∧ t ∈ windows3 bytes

/-- The engine invariant.  Unconditionally: the buffer holds bytes, delta
entries are bounded, and a clean index has an empty delta.  The structural
facts hold while the arena buffer is shorter than `2 ^ 32` bytes — the
regime in which every `u32` cast the engine performs (span offsets in
`Arena::push`, block offsets and lengths in the builder and the merge) is
value-preserving.  The buffer only grows, and the posting and delta counts
never exceed the stored byte count (each stored document of `n` bytes
contributes at most `n − 2` committed postings plus delta entries), so the
bound also caps every offset the index ever wrote.  Beyond `2 ^ 32` bytes
the casts truncate and the block table no longer addresses the postings
vector. -/
def StateOK (st : Lattice) : Prop :=
  (∀ b ∈ st.documents.buffer, b < 256) ∧
  (∀ e ∈ st.temp_trigrams, e.trigram < 2 ^ 24 ∧ e.doc < 2 ^ 32) ∧
  (st.needs_rebuild = false → st.temp_trigrams = []) ∧
  (st.documents.buffer.length < 2 ^ 32 →
    Contig st.blocks 0 st.postings.length ∧
    st.blocks.Pairwise (fun x y => x.trigram < y.trigram) ∧
    BlockOut st.blocks st.postings ∧
    (∀ s ∈ st.documents.spans, s.off + s.len ≤ st.documents.buffer.length) ∧
    st.postings.length + st.temp_trigrams.length ≤
      st.documents.buffer.length ∧
    (∀ t d, (AMem (toAssoc st.blocks st.postings) t d ∨
      (⟨t, d⟩ : TempTrigramEntry) ∈ st.temp_trigrams) ↔ DocTri st t d))

/-- The concatenation of all (trigram, doc id) entries of every stored
document, as the spec's cold rebuild describes it (doc ids as pushed:
index mod 2^32). -/
def allEntries (st : Lattice) : List TempTrigramEntry :=
  (List.range st.documents.spans.length).flatMap fun i =>
    (windows3 ((st.documents.get i).getD [])).map fun t =>
      (⟨t, i % 2 ^ 32⟩ : TempTrigramEntry)

/-- Document-id ascending candidate buffers. -/
def DocAsc (cs : List Candidate) : Prop :=
  cs.Pairwise (fun a b => a.doc < b.doc)

/-- The combined order property the final results satisfy: weakly
descending score, and equal scores in ascending doc-id order. -/
def ResOrd (rs : List SearchResult) : Prop :=
  rs.Pairwise (fun a b => b.score ≤ a.score ∧ (a.score ≤ b.score → a.doc < b.doc))

/-- The number of documents in the most selective retained posting list
that also occur in each of the remaining `required_end - 1` most selective
retained lists — the corrected result count. -/
def selectiveCount (postings : List Nat) (ratio : ℚ)
    (qts : List QueryTrigram) : Nat :=
  let sorted := qts.insertionSort qtLe
  let qt0 := sorted.getD 0 ⟨0, 0, 0⟩
  let rEnd := required_end sorted.length ratio
  ((sliceP postings qt0.off qt0.len).filter (fun d =>
    ((sorted.drop 1).take (rEnd - 1)).all
      (fun qt => decide (d ∈ sliceP postings qt.off qt.len)))).length

/-- A concrete five-document corpus: "abcdef", "cdef", "def", "cde",
"bcd". -/
def exDocs : List (List Nat) :=
  [[97, 98, 99, 100, 101, 102], [99, 100, 101, 102], [100, 101, 102],
    [99, 100, 101], [98, 99, 100]]

/-- The engine after adding the five documents of `exDocs`. -/
def exState : Lattice :=
  (((((Lattice.new.add idLower [97, 98, 99, 100, 101, 102]).2.add idLower
    [99, 100, 101, 102]).2.add idLower [100, 101, 102]).2.add idLower
    [99, 100, 101]).2.add idLower [98, 99, 100]).2

/-- `exState` after one (too-short) search, which rebuilds the index. -/
def exClean : Lattice := (exState.search idLower [97] 1).2

/-- A four-document suffix corpus: "abcdef", "bcdef", "cdef", "def".  For
the query "abcdef" the four retained posting lists have the pairwise
distinct lengths 1, 2, 3, 4, so the key of the source's unstable
length-sort has no ties there. -/
def exDocs2 : List (List Nat) :=
  [[97, 98, 99, 100, 101, 102], [98, 99, 100, 101, 102],
    [99, 100, 101, 102], [100, 101, 102]]

/-- The engine after adding the four documents of `exDocs2`. -/
def exState2 : Lattice :=
  ((((Lattice.new.add idLower [97, 98, 99, 100, 101, 102]).2.add idLower
    [98, 99, 100, 101, 102]).2.add idLower [99, 100, 101, 102]).2.add idLower
    [100, 101, 102]).2

/-- `exState2` after one (too-short) search, which rebuilds the index. -/
def exClean2 : Lattice := (exState2.search idLower [97] 1).2

end Eng

/-- C9 counterexample: the claim asserts that `strip_diacritics` defaults to
true; in the source `impl Default for NormalizerConfig` sets it to false, so
the claim is false. -/
theorem c9_counterexample :
    NormalizerConfig.default.strip_diacritics = false := by
  rfl

/-- C9 amended: `strip_diacritics` defaults to false and the engine built by
`Lattice::new` uses that default; there is no `collapse_whitespaces` option —
whitespace collapsing is unconditional, i.e. it happens for every
configuration (illustrated on the byte string "a␣␣b", which normalizes to
"a␣b" for both values of the strip flag and any lowercase map). -/
theorem c9_amended :
    NormalizerConfig.default.strip_diacritics = false ∧
    latticeNewStrip = false ∧
    (∀ (strip : Bool) (lower : Nat → List Nat),
      normalize_into strip lower [97, 32, 32, 98] = [97, 32, 98]) := by
  refine ⟨rfl, rfl, fun strip lower => ?_⟩
  simp [normalize_into, normStep, emitStep, isWsB, lowtab]

/-- C9 witness: the amended statement applied at the configuration
`strip = true` with the identity-style lowercase map. -/
theorem c9_witness :
    normalize_into true (fun c => [c]) [97, 32, 32, 98] = [97, 32, 98] :=
  c9_amended.2.2 true (fun c => [c])

theorem lookup_mem : ∀ (ps : List (Nat × Nat)) (a b : Nat),
    ps.lookup a = some b → (a, b) ∈ ps := by
  intro ps
  induction ps with
  | nil => simp [List.lookup]
  | cons p rest ih =>
    intro a b h
    obtain ⟨k, v⟩ := p
    rw [List.lookup] at h
    cases hk : a == k with
    | true =>
      rw [hk] at h
      simp at h
      have hak : a = k := by simpa using hk
      simp [hak, h]
    | false =>
      rw [hk] at h
      simp at h
      exact List.mem_cons_of_mem _ (ih a b h)

set_option maxRecDepth 65536 in
theorem foldPairs_values : ∀ p ∈ foldPairs, 97 ≤ p.2 ∧ p.2 ≤ 122 := by
  decide

theorem fold_cases (l : Nat) :
    fold_latin1 l = l ∨ fold_latin1 l = 0 ∨
      (97 ≤ fold_latin1 l ∧ fold_latin1 l ≤ 122) := by
  unfold fold_latin1
  split
  · right
    left
    rfl
  · rcases h : foldPairs.lookup l with _ | v
    · simp
    · right
      right
      have := foldPairs_values (l, v) (lookup_mem foldPairs l v h)
      simpa using this

theorem emitStep_false (a : List Nat × Bool) (l : Nat) :
    emitStep false a l = (a.1 ++ [l], false) := by
  simp [emitStep]

theorem emitStep_true_zero (a : List Nat × Bool) (l : Nat)
    (hf : fold_latin1 l = 0) : emitStep true a l = a := by
  simp [emitStep, hf]

theorem emitStep_true_nz (a : List Nat × Bool) (l : Nat)
    (hf : fold_latin1 l ≠ 0) :
    emitStep true a l = (a.1 ++ [fold_latin1 l], false) := by
  simp [emitStep, hf]

theorem lowtab_idem (c : Nat) : lowtab (lowtab c) = lowtab c := by
  unfold lowtab
  by_cases h : 65 ≤ c ∧ c ≤ 90
  · rw [if_pos h, if_neg (by omega)]
  · rw [if_neg h, if_neg h]

theorem lowtab_not_ws (c : Nat) (hw : isWsB c = false) :
    isWsB (lowtab c) = false := by
  unfold lowtab
  by_cases h : 65 ≤ c ∧ c ≤ 90
  · rw [if_pos h]
    unfold isWsB
    simp
    omega
  · rw [if_neg h]
    exact hw

theorem lowtab_ne_32 (c : Nat) (hw : isWsB c = false) : lowtab c ≠ 32 := by
  intro h
  have h2 := lowtab_not_ws c hw
  rw [h] at h2
  unfold isWsB at h2
  simp at h2

theorem lowtab_lt (c : Nat) (h : c < 128) : lowtab c < 128 := by
  unfold lowtab
  split <;> omega

theorem stable_lowtab (strip : Bool) (lower : Nat → List Nat) (c : Nat)
    (hc : c < 128) (hw : isWsB c = false) : Stable strip lower (lowtab c) := by
  unfold Stable
  rw [if_pos (lowtab_lt c hc)]
  refine ⟨lowtab_idem c, fun hws => ?_⟩
  rw [lowtab_not_ws c hw] at hws
  cases hws

theorem inv_push_nonspace (strip : Bool) (lower : Nat → List Nat)
    (a : List Nat × Bool) (x : Nat) (hI : WriteInv strip lower a)
    (hst : Stable strip lower x) (hx : x ≠ 32) :
    WriteInv strip lower (a.1 ++ [x], false) := by
  obtain ⟨hS, hC, hP⟩ := hI
  refine ⟨?_, ?_, ?_⟩
  · intro c hc
    rcases List.mem_append.1 hc with h | h
    · exact hS c h
    · simp at h
      subst h
      exact hst
  · rw [List.chain'_append]
    refine ⟨hC, List.chain'_singleton x, ?_⟩
    intro p hp q hq
    simp at hq
    subst hq
    exact fun ⟨_, h32⟩ => hx h32
  · simp [List.getLast?_concat]
    exact fun h => hx h

theorem inv_push_space (strip : Bool) (lower : Nat → List Nat)
    (a : List Nat × Bool) (hI : WriteInv strip lower a) (h2 : a.2 = false) :
    WriteInv strip lower (a.1 ++ [32], true) := by
  obtain ⟨hS, hC, hP⟩ := hI
  have hlast : a.1.getLast? ≠ some 32 := fun h => by
    rw [hP.2 h] at h2
    exact Bool.noConfusion h2
  refine ⟨?_, ?_, ?_⟩
  · intro c hc
    rcases List.mem_append.1 hc with h | h
    · exact hS c h
    · simp at h
      subst h
      unfold Stable lowtab isWsB
      norm_num
  · rw [List.chain'_append]
    refine ⟨hC, List.chain'_singleton 32, ?_⟩
    intro p hp q hq
    simp at hq
    subst hq
    rintro ⟨hp32, -⟩
    refine hlast ?_
    rw [← hp32]
    exact Option.mem_def.mp hp
  · simp [List.getLast?_concat]

theorem stable_of_emitok (strip : Bool) (lower : Nat → List Nat) (l : Nat)
    (h : EmitOK lower l) (hfold : strip = true → fold_latin1 l = l) :
    Stable strip lower l := by
  obtain ⟨hw, hu, hl⟩ := h
  unfold Stable
  by_cases hc : l < 128
  · rw [if_pos hc]
    constructor
    · unfold lowtab
      rw [if_neg hu]
    · intro hws
      rw [hws] at hw
      exact absurd hw (by simp)
  · rw [if_neg hc]
    exact ⟨hl (by omega), hfold⟩

theorem stable_letter (strip : Bool) (lower : Nat → List Nat) (f : Nat)
    (h97 : 97 ≤ f) (h122 : f ≤ 122) : Stable strip lower f := by
  unfold Stable
  rw [if_pos (by omega)]
  constructor
  · unfold lowtab
    rw [if_neg (by omega)]
  · intro hws
    unfold isWsB at hws
    simp at hws
    omega

theorem not_ws_of_emitok (lower : Nat → List Nat) (l : Nat)
    (h : EmitOK lower l) : l ≠ 32 := by
  intro h32
  subst h32
  have h1 := h.1
  unfold isWsB at h1
  simp at h1

/-- The inner loop over the lowercase expansion of one non-ASCII character
preserves the invariant. -/
theorem inv_emitFold (strip : Bool) (lower : Nat → List Nat) :
    ∀ (els : List Nat) (a : List Nat × Bool),
      (∀ l ∈ els, EmitOK lower l) → WriteInv strip lower a →
      WriteInv strip lower (els.foldl (emitStep strip) a) := by
  intro els
  induction els with
  | nil => intro a _ hI; exact hI
  | cons l rest ih =>
    intro a hok hI
    rw [List.foldl_cons]
    refine ih _ (fun x hx => hok x (List.mem_cons_of_mem l hx)) ?_
    have hE := hok l (List.mem_cons_self l rest)
    cases strip with
    | false =>
      rw [emitStep_false]
      exact inv_push_nonspace false lower a l hI
        (stable_of_emitok false lower l hE (by simp))
        (not_ws_of_emitok lower l hE)
    | true =>
      by_cases hf : fold_latin1 l = 0
      · rw [emitStep_true_zero a l hf]
        exact hI
      · rw [emitStep_true_nz a l hf]
        rcases fold_cases l with h | h | h
        · rw [h]
          exact inv_push_nonspace true lower a l hI
            (stable_of_emitok true lower l hE (fun _ => h))
            (not_ws_of_emitok lower l hE)
        · exact absurd h hf
        · exact inv_push_nonspace true lower a (fold_latin1 l) hI
            (stable_letter true lower _ h.1 h.2) (by omega)

/-- One normalization step preserves the invariant. -/
theorem inv_normStep (strip : Bool) (lower : Nat → List Nat)
    (hlow : LowerOK lower) (a : List Nat × Bool) (c : Nat)
    (hI : WriteInv strip lower a) :
    WriteInv strip lower (normStep strip lower a c) := by
  unfold normStep
  by_cases hc : c < 128
  · rw [if_pos hc]
    by_cases hw : isWsB c = true
    · rw [if_pos hw]
      cases h2 : a.2 with
      | true => simpa [h2] using hI
      | false =>
        simp only [h2, Bool.false_eq_true, if_neg, ite_false]
        exact inv_push_space strip lower a hI h2
    · rw [if_neg hw]
      have hw' : isWsB c = false := by
        cases h : isWsB c
        · rfl
        · exact absurd h hw
      exact inv_push_nonspace strip lower a (lowtab c) hI
        (stable_lowtab strip lower c hc hw') (lowtab_ne_32 c hw')
  · rw [if_neg hc]
    exact inv_emitFold strip lower (lower c) a
      (fun l hl => hlow c (by omega) l hl) hI

theorem inv_foldl (strip : Bool) (lower : Nat → List Nat)
    (hlow : LowerOK lower) :
    ∀ (l : List Nat) (a : List Nat × Bool), WriteInv strip lower a →
      WriteInv strip lower (l.foldl (normStep strip lower) a) := by
  intro l
  induction l with
  | nil => intro a hI; exact hI
  | cons c cs ih =>
    intro a hI
    rw [List.foldl_cons]
    exact ih _ (inv_normStep strip lower hlow a c hI)

/-- The output of one normalization pass has the good shape. -/
theorem normalize_good (strip : Bool) (lower : Nat → List Nat)
    (hlow : LowerOK lower) (input : List Nat) :
    GoodOut strip lower (normalize_into strip lower input) := by
  have hI0 : WriteInv strip lower (([] : List Nat), false) := by
    refine ⟨by simp, List.chain'_nil, by simp⟩
  have hI := inv_foldl strip lower hlow input (([] : List Nat), false) hI0
  unfold normalize_into
  obtain ⟨hS, hC, hP⟩ := hI
  set r := input.foldl (normStep strip lower) ([], false) with hr
  by_cases hcond : (r.2 && !r.1.isEmpty) = true
  · rw [if_pos hcond]
    have h2 : r.2 = true := by
      cases h : r.2
      · rw [h] at hcond; simp at hcond
      · rfl
    have hlast : r.1.getLast? = some 32 := hP.1 h2
    have hsplit : r.1 = r.1.dropLast ++ [32] := by
      obtain ⟨l', hl'⟩ := List.getLast?_eq_some_iff.1 hlast
      conv_lhs => rw [hl']
      rw [hl', List.dropLast_concat]
    refine ⟨?_, ?_, ?_⟩
    · intro c hc
      exact hS c (by rw [hsplit]; exact List.mem_append_left _ hc)
    · have hCC := hC
      rw [hsplit, List.chain'_append] at hCC
      exact hCC.1
    · intro habs
      have hCC := hC
      rw [hsplit, List.chain'_append] at hCC
      have hrel := hCC.2.2
      exact hrel 32 (by rw [habs]; rfl) 32 (by simp) ⟨rfl, rfl⟩
  · rw [if_neg hcond]
    refine ⟨hS, hC, ?_⟩
    intro habs
    have h2 : r.2 = true := hP.2 habs
    have hne : r.1 ≠ [] := by
      intro he
      rw [he] at habs
      simp at habs
    refine hcond ?_
    rw [h2]
    simpa using hne

theorem lastSpace_cons (prev : Bool) (c : Nat) (cs : List Nat) :
    lastSpace prev (c :: cs) = lastSpace (c == 32) cs := by
  cases cs with
  | nil => rfl
  | cons d ds =>
    unfold lastSpace
    rw [List.getLast?_cons_cons]
    rcases h : (d :: ds).getLast? with _ | x
    · rw [List.getLast?_eq_none_iff] at h
      cases h
    · rfl

/-- A pass over a good string copies it verbatim. -/
theorem foldl_stable (strip : Bool) (lower : Nat → List Nat) :
    ∀ (l : List Nat) (out : List Nat) (prev : Bool),
      (∀ c ∈ l, Stable strip lower c) →
      l.Chain' (fun p q => ¬(p = 32 ∧ q = 32)) →
      (prev = true → l.head? ≠ some 32) →
      l.foldl (normStep strip lower) (out, prev) =
        (out ++ l, lastSpace prev l) := by
  intro l
  induction l with
  | nil => intro out prev _ _ _; simp [lastSpace]
  | cons c cs ih =>
    intro out prev hS hC hH
    have hstc := hS c (List.mem_cons_self c cs)
    have hstep : normStep strip lower (out, prev) c = (out ++ [c], c == 32) := by
      unfold normStep
      unfold Stable at hstc
      by_cases hc : c < 128
      · rw [if_pos hc]
        rw [if_pos hc] at hstc
        by_cases hw : isWsB c = true
        · rw [if_pos hw]
          have hc32 : c = 32 := hstc.2 hw
          subst hc32
          cases prev with
          | true =>
            exfalso
            exact hH rfl (by simp)
          | false => simp
        · rw [if_neg hw]
          rw [hstc.1]
          have hne : (c == 32) = false := by
            simp
            intro h32
            rw [h32] at hw
            exact hw rfl
          rw [hne]
      · rw [if_neg hc]
        rw [if_neg hc] at hstc
        rw [hstc.1, List.foldl_cons, List.foldl_nil]
        have hc32 : (c == 32) = false := by
          simp
          omega
        cases strip with
        | false =>
          rw [emitStep_false, hc32]
        | true =>
          have hfix := hstc.2 rfl
          rw [emitStep_true_nz (out, prev) c (by omega), hfix, hc32]
    rw [List.foldl_cons, hstep]
    rw [ih (out ++ [c]) (c == 32) (fun x hx => hS x (List.mem_cons_of_mem c hx))
      hC.tail ?_]
    · rw [List.append_assoc, List.singleton_append, lastSpace_cons]
    · intro h32 hhead
      have hcc : (c : Nat) = 32 := by simpa using h32
      cases cs with
      | nil => simp at hhead
      | cons d ds =>
        have hd : d = 32 := by simpa using hhead
        rw [List.chain'_cons] at hC
        exact hC.1 ⟨hcc, hd⟩

/-- Normalizing a good string returns it unchanged. -/
theorem normalize_fix (strip : Bool) (lower : Nat → List Nat) (l : List Nat)
    (h : GoodOut strip lower l) : normalize_into strip lower l = l := by
  obtain ⟨hS, hC, hL⟩ := h
  unfold normalize_into
  rw [foldl_stable strip lower l [] false hS hC (by simp)]
  have hls : lastSpace false l = false := by
    unfold lastSpace
    rcases hg : l.getLast? with _ | c
    · rfl
    · simp
      intro hc
      rw [hc] at hg
      exact hL hg
  rw [hls]
  simp

/-- C7: for every configuration and every input, normalizing the
normalizer's output reproduces it byte for byte, given the properties
`LowerOK` of the lowercase map (which hold for Unicode lowercasing: it
never produces ASCII uppercase or whitespace, and is idempotent on its own
non-ASCII outputs). -/
theorem c7_normalize_idempotent (strip : Bool) (lower : Nat → List Nat)
    (hlow : LowerOK lower) (input : List Nat) :
    normalize_into strip lower (normalize_into strip lower input) =
      normalize_into strip lower input :=
  normalize_fix strip lower _ (normalize_good strip lower hlow input)

/-- C7 witness: the identity-style lowercase map satisfies `LowerOK`, and
idempotence holds at the sample input " HÉllo  WÖrld " (strip enabled). -/
theorem c7_witness :
    LowerOK (fun c => [c]) ∧
    normalize_into true (fun c => [c])
        (normalize_into true (fun c => [c])
          [32, 72, 0xC9, 108, 108, 111, 32, 32, 87, 0xD6, 114, 108, 100, 32]) =
      normalize_into true (fun c => [c])
        [32, 72, 0xC9, 108, 108, 111, 32, 32, 87, 0xD6, 114, 108, 100, 32] := by
  have hlow : LowerOK (fun c => [c]) := by
    intro c hc l hl
    simp at hl
    subst hl
    refine ⟨?_, by omega, fun _ => rfl⟩
    unfold isWsB
    simp
    omega
  exact ⟨hlow, c7_normalize_idempotent true (fun c => [c]) hlow _⟩

namespace Eng

/-! ### Claim C8 -/

/-- C8 amended: `add` returns `TooLarge` iff the pre-normalization byte
length exceeds 65535 or (the input passes the control-byte check and) the
post-normalization byte length exceeds 65535 (the arena's u16 cap — the
normalizer can expand text, e.g. U+0130 lowercases to two characters);
`InvalidInput` iff the length is within bounds and some byte is an invalid
control; `Ok` otherwise. -/
theorem c8_amended (lower : Nat → List Nat) (st : Lattice) (content : List Nat) :
    ((∃ s m, (st.add lower content).1 = .inl (.TooLarge s m)) ↔
      (MAX_DOCUMENT_LENGTH < (utf8 content).length ∨
        (contains_invalid_controls (utf8 content) = false ∧
          MAX_DOCUMENT_LENGTH <
            (utf8 (normalize_into st.normStrip lower content)).length))) ∧
    ((st.add lower content).1 = .inl .InvalidInput ↔
      ((utf8 content).length ≤ MAX_DOCUMENT_LENGTH ∧
        contains_invalid_controls (utf8 content) = true)) ∧
    ((∃ d, (st.add lower content).1 = .inr d) ↔
      ((utf8 content).length ≤ MAX_DOCUMENT_LENGTH ∧
        contains_invalid_controls (utf8 content) = false ∧
        (utf8 (normalize_into st.normStrip lower content)).length ≤
          MAX_DOCUMENT_LENGTH)) := by
  simp only [Lattice.add, Arena.push, MAX_DOCUMENT_LENGTH, gt_iff_lt]
  by_cases h1 : 65535 < (utf8 content).length
  · simp only [if_pos h1]
    constructor
    · simp
      omega
    constructor
    · simp
      omega
    · simp
      omega
  · rw [if_neg h1]
    by_cases h2 : contains_invalid_controls (utf8 content) = true
    · rw [if_pos h2]
      refine ⟨?_, ?_, ?_⟩
      · simp [h2] <;> omega
      · simp [h2] <;> omega
      · simp [h2] <;> omega
    · rw [if_neg h2]
      by_cases h3 : 65535 < (utf8 (normalize_into st.normStrip lower content)).length
      · rw [if_pos h3]
        refine ⟨?_, ?_, ?_⟩
        · simp [h2] <;> omega
        · simp [h2] <;> omega
        · simp [h2] <;> omega
      · rw [if_neg h3]
        refine ⟨?_, ?_, ?_⟩
        · simp [h2] <;> omega
        · simp [h2] <;> omega
        · simp [h2] <;> omega

theorem utf8_replicate_length (c n : Nat) :
    (utf8 (List.replicate n c)).length = n * (utf8Char c).length := by
  induction n with
  | zero => simp [utf8]
  | succ k ih =>
    rw [List.replicate_succ]
    have : utf8 (c :: List.replicate k c) = utf8Char c ++ utf8 (List.replicate k c) := by
      simp [utf8]
    rw [this, List.length_append, ih, Nat.succ_mul]
    omega

theorem utf8_append (l₁ l₂ : List Nat) : utf8 (l₁ ++ l₂) = utf8 l₁ ++ utf8 l₂ := by
  simp [utf8]

theorem invalid_utf8_replicate_x130 (n : Nat) :
    contains_invalid_controls (utf8 (List.replicate n 0x130)) = false := by
  induction n with
  | zero => simp [utf8, contains_invalid_controls]
  | succ k ih =>
    rw [List.replicate_succ]
    have : utf8 (0x130 :: List.replicate k 0x130) =
        utf8Char 0x130 ++ utf8 (List.replicate k 0x130) := by
      simp [utf8]
    simp only [contains_invalid_controls, this, List.any_append] at *
    rw [ih]
    decide

theorem foldl_normStep_Idot (n : Nat) (out : List Nat) :
    (List.replicate n 0x130).foldl (normStep false lowerIdot) (out, false) =
      (out ++ (List.replicate n ([0x69, 0x307] : List Nat)).flatten, false) := by
  induction n generalizing out with
  | zero => simp
  | succ k ih =>
    rw [List.replicate_succ, List.foldl_cons]
    have hstep : normStep false lowerIdot (out, false) 0x130 =
        (out ++ [0x69, 0x307], false) := by
      simp [normStep, emitStep, lowerIdot]
    rw [hstep, ih, List.replicate_succ, List.flatten_cons]
    simp

theorem utf8_flatten_pair_length (n : Nat) :
    (utf8 ((List.replicate n ([0x69, 0x307] : List Nat)).flatten)).length = 3 * n := by
  induction n with
  | zero => simp [utf8]
  | succ k ih =>
    rw [List.replicate_succ, List.flatten_cons, utf8_append]
    rw [List.length_append, ih]
    have : (utf8 [0x69, 0x307]).length = 3 := by decide
    rw [this]
    omega

theorem normalize_into_of_foldl_false (strip : Bool) (lower : Nat → List Nat)
    (input out : List Nat)
    (h : input.foldl (normStep strip lower) ([], false) = (out, false)) :
    normalize_into strip lower input = out := by
  unfold normalize_into
  rw [h]
  simp

theorem normalize_Idot (n : Nat) :
    normalize_into false lowerIdot (List.replicate n 0x130) =
      (List.replicate n ([0x69, 0x307] : List Nat)).flatten := by
  apply normalize_into_of_foldl_false
  rw [foldl_normStep_Idot, List.nil_append]

/-- C8 counterexample: the claim says `add` returns `TooLarge` if and only
if the pre-normalization byte length exceeds 65535.  A string of 21846
copies of U+0130 is 43692 bytes before normalization (within bounds), but
lowercasing expands each copy to 3 bytes, so the normalized text is 65538
bytes, the arena rejects it, and `add` returns `TooLarge` anyway. -/
theorem add_toolarge_of_norm (lower : Nat → List Nat) (st : Lattice)
    (content : List Nat)
    (h1 : (utf8 content).length ≤ 65535)
    (h2 : contains_invalid_controls (utf8 content) = false)
    (h3 : 65535 < (utf8 (normalize_into st.normStrip lower content)).length) :
    (st.add lower content).1 = .inl (.TooLarge
      (utf8 (normalize_into st.normStrip lower content)).length 65535) := by
  simp only [Lattice.add, Arena.push, MAX_DOCUMENT_LENGTH, gt_iff_lt]
  rw [if_neg (by omega), if_neg (by simp [h2]), if_pos h3]

/-- C8 counterexample: the claim says `add` returns `TooLarge` if and only
if the pre-normalization byte length exceeds 65535.  A string of 21846
copies of U+0130 is 43692 bytes before normalization (within bounds), but
lowercasing expands each copy to 3 bytes, so the normalized text is 65538
bytes, the arena rejects it, and `add` returns `TooLarge` anyway. -/
theorem c8_counterexample :
    (utf8 (List.replicate 21846 0x130)).length ≤ 65535 ∧
    (Lattice.new.add lowerIdot (List.replicate 21846 0x130)).1 =
      .inl (.TooLarge 65538 65535) := by
  have hlen : (utf8 (List.replicate 21846 0x130)).length = 43692 := by
    rw [utf8_replicate_length]
    norm_num [utf8Char]
  have hinv := invalid_utf8_replicate_x130 21846
  have hstrip : Lattice.new.normStrip = false := rfl
  have hnb : (utf8 (normalize_into Lattice.new.normStrip lowerIdot
      (List.replicate 21846 0x130))).length = 65538 := by
    rw [hstrip, normalize_Idot, utf8_flatten_pair_length]
  refine ⟨by omega, ?_⟩
  rw [add_toolarge_of_norm lowerIdot Lattice.new (List.replicate 21846 0x130)
    (by omega) hinv (by omega), hnb]

set_option maxRecDepth 8192 in
/-- C8 witness: the amended characterization evaluated at the empty engine
on the two-byte ASCII document "hi", which is accepted. -/
theorem c8_witness :
    ∃ d, (Lattice.new.add (fun c => [c]) [104, 105]).1 = .inr d :=
  (c8_amended (fun c => [c]) Lattice.new [104, 105]).2.2.mpr (by decide)

/-! ### Claim C10 -/

/-- C10: whenever `add` returns an error, the observable engine state is
unchanged — same stored documents (count and `get` on every id), same
document lengths, same delta buffer, same dirty flag, same documents-added
counter.  In the source the two validation failures return before any
engine field is touched, and the arena-cap failure path has only written the
scratch normalization buffer. -/
theorem c10_add_error_preserves_state (lower : Nat → List Nat) (st : Lattice)
    (content : List Nat) (e : DocumentError)
    (h : (st.add lower content).1 = .inl e) :
    (st.add lower content).2.documents.spans.length =
        st.documents.spans.length ∧
    (∀ i, (st.add lower content).2.documents.get i = st.documents.get i) ∧
    (st.add lower content).2.doc_lengths = st.doc_lengths ∧
    (st.add lower content).2.temp_trigrams = st.temp_trigrams ∧
    (st.add lower content).2.needs_rebuild = st.needs_rebuild ∧
    (st.add lower content).2.documents_added = st.documents_added := by
  have key : (st.add lower content).2 = st := by
    simp only [Lattice.add] at h ⊢
    by_cases h1 : (utf8 content).length > MAX_DOCUMENT_LENGTH
    · rw [if_pos h1]
    · rw [if_neg h1] at h ⊢
      by_cases h2 : contains_invalid_controls (utf8 content) = true
      · rw [if_pos h2]
      · rw [if_neg h2] at h ⊢
        rcases hp : st.documents.push
            (utf8 (normalize_into st.normStrip lower content)) with _ | p
        · rfl
        · obtain ⟨d, ar⟩ := p
          rw [hp] at h
          simp at h
  rw [key]
  exact ⟨rfl, fun i => rfl, rfl, rfl, rfl, rfl⟩

set_option maxRecDepth 8192 in
/-- C10 witness: adding a document containing a NUL byte to the fresh
engine fails with `InvalidInput` and leaves every observable component in
place. -/
theorem c10_witness :
    (Lattice.new.add (fun c => [c]) [0, 97]).1 = .inl .InvalidInput ∧
    (Lattice.new.add (fun c => [c]) [0, 97]).2.doc_lengths =
      Lattice.new.doc_lengths :=
  ⟨by decide,
   (c10_add_error_preserves_state (fun c => [c]) Lattice.new [0, 97]
      .InvalidInput (by decide)).2.2.1⟩

/-! ### Claim C6 -/

theorem filterMap_opt_const {α β : Type} (o : α → Option β) (σ : α → Nat)
    (l : List α) :
    l.filterMap (fun a => (o a).map fun _ => σ a) =
      (l.filter fun a => (o a).isSome).map σ := by
  induction l with
  | nil => rfl
  | cons a as ih =>
    rcases ho : o a with _ | b <;>
      simp [List.filterMap_cons, List.filter_cons, ho, ih]

/-- C6 amended: the prefix bonus of a retained query trigram is decided by
its window position in the query — 2 for the first three window positions,
1 for the rest — not by its rank among the retained trigrams: the bonus
list of the retained trigrams equals the position-based bonus over the
retained window positions. -/
theorem c6_amended (st : Lattice) (qb : List Nat) :
    (queryTrigrams st qb).map (fun q => q.bonus) =
      ((List.range (min (qb.length - 2) MAX_QUERY_TRIGRAMS)).filter
        (fun i => (find_block st.blocks
          (packTri (qb.getD i 0) (qb.getD (i + 1) 0) (qb.getD (i + 2) 0))).isSome)).map
        (fun i => if i < 3 then PREFIX_BONUS else 1) := by
  unfold queryTrigrams
  rw [List.map_filterMap]
  rw [← filterMap_opt_const
    (fun i => find_block st.blocks
      (packTri (qb.getD i 0) (qb.getD (i + 1) 0) (qb.getD (i + 2) 0)))
    (fun i => if i < 3 then PREFIX_BONUS else 1)]
  congr 1
  funext i
  rcases find_block st.blocks
      (packTri (qb.getD i 0) (qb.getD (i + 1) 0) (qb.getD (i + 2) 0)) with _ | idx <;>
    simp

/-- C6 counterexample: for the query "abcdef" on `c6state`, the window
trigrams "abc" (position 0) and "bcd" (position 1) are not in the index, so
the retained trigrams are "cde" (position 2) and "def" (position 3).  The
claim says the first three retained trigrams all get bonus 2, i.e. the
bonus list should be [2, 2]; the code assigns bonuses by query position,
producing [2, 1]. -/
theorem c6_counterexample :
    (queryTrigrams c6state
        (utf8 (normalize_into c6state.normStrip (fun c => [c])
          [97, 98, 99, 100, 101, 102]))).map (fun q => q.bonus) = [2, 1] ∧
    ¬ (∀ j, j < min 3 (queryTrigrams c6state
        (utf8 (normalize_into c6state.normStrip (fun c => [c])
          [97, 98, 99, 100, 101, 102]))).length →
      ((queryTrigrams c6state
        (utf8 (normalize_into c6state.normStrip (fun c => [c])
          [97, 98, 99, 100, 101, 102]))).getD j ⟨0, 0, 0⟩).bonus =
        PREFIX_BONUS) := by
  constructor
  · decide
  · intro h
    have := h 1 (by decide)
    revert this
    decide

/-! ### Correctness of the delta sort: the radix passes implement the
comparison order, so both branches of `sort_trigrams` agree -/

theorem pairwise_true {α : Type} (l : List α) :
    l.Pairwise (fun _ _ => True) := by
  induction l with
  | nil => exact List.Pairwise.nil
  | cons a l ih => exact List.Pairwise.cons (fun _ _ => trivial) ih

theorem count_buckets (key : TempTrigramEntry → Nat)
    (l : List TempTrigramEntry) (a : TempTrigramEntry) :
    ∀ ks : List Nat, ks.Nodup →
      (ks.flatMap fun k => l.filter fun e => key e = k).count a =
        if key a ∈ ks then l.count a else 0 := by
  intro ks
  induction ks with
  | nil => simp
  | cons k ks ih =>
    intro hnd
    rw [List.flatMap_cons, List.count_append]
    rw [List.nodup_cons] at hnd
    rw [ih hnd.2]
    by_cases hk : key a = k
    · have h1 : List.count a (l.filter fun e => key e = k) = l.count a :=
        List.count_filter (by simp [hk])
      have h2 : key a ∉ ks := by rw [hk]; exact hnd.1
      simp [h1, hk, h2]
      intro hmem
      exact absurd hmem hnd.1
    · have h1 : List.count a (l.filter fun e => key e = k) = 0 := by
        rw [List.count_eq_zero]
        intro hmem
        rw [List.mem_filter] at hmem
        exact hk (by simpa using hmem.2)
      simp [h1, hk]

theorem radix_pass_perm (key : TempTrigramEntry → Nat)
    (l : List TempTrigramEntry) (hb : ∀ e ∈ l, key e < 256) :
    (radix_pass key l).Perm l := by
  rw [List.perm_iff_count]
  intro a
  unfold radix_pass
  rw [count_buckets key l a (List.range 256) (List.nodup_range 256)]
  by_cases ha : a ∈ l
  · rw [if_pos (by rw [List.mem_range]; exact hb a ha)]
  · simp [List.count_eq_zero_of_not_mem ha]

theorem radix_pass_sorted (key : TempTrigramEntry → Nat)
    (R : TempTrigramEntry → TempTrigramEntry → Prop)
    (l : List TempTrigramEntry) (hR : l.Pairwise R) :
    (radix_pass key l).Pairwise (lexKey key R) := by
  unfold radix_pass
  rw [List.flatMap_def, List.pairwise_flatten]
  constructor
  · intro lb hlb
    rw [List.mem_map] at hlb
    obtain ⟨k, hk, rfl⟩ := hlb
    refine List.Pairwise.imp_of_mem ?_ (hR.filter _)
    intro a b ha hb' hab
    right
    have hka : key a = k := by simpa using (List.mem_filter.1 ha).2
    have hkb : key b = k := by simpa using (List.mem_filter.1 hb').2
    exact ⟨by rw [hka, hkb], hab⟩
  · rw [List.pairwise_map]
    refine List.Pairwise.imp_of_mem ?_ (List.pairwise_lt_range 256)
    intro k₁ k₂ hk₁ hk₂ hklt x hx y hy
    left
    have hkx : key x = k₁ := by simpa using (List.mem_filter.1 hx).2
    have hky : key y = k₂ := by simpa using (List.mem_filter.1 hy).2
    rw [hkx, hky]
    exact hklt

theorem lex7_implies_entryLe (a b : TempTrigramEntry)
    (hat : a.trigram < 2 ^ 24) (had : a.doc < 2 ^ 32)
    (hbt : b.trigram < 2 ^ 24) (hbd : b.doc < 2 ^ 32)
    (h : lex7 a b) : entryLe a b := by
  unfold lex7 lexKey kt2 kt1 kt0 kd3 kd2 kd1 kd0 at h
  unfold entryLe
  omega

theorem radix7_perm (l : List TempTrigramEntry) : (radix7 l).Perm l := by
  unfold radix7
  have h : ∀ (key : TempTrigramEntry → Nat), (∀ e, key e < 256) →
      ∀ m : List TempTrigramEntry, (radix_pass key m).Perm m :=
    fun key hk m => radix_pass_perm key m fun e _ => hk e
  have hd0 : ∀ e : TempTrigramEntry, kd0 e < 256 := fun e => Nat.mod_lt _ (by norm_num)
  have hd1 : ∀ e : TempTrigramEntry, kd1 e < 256 := fun e => Nat.mod_lt _ (by norm_num)
  have hd2 : ∀ e : TempTrigramEntry, kd2 e < 256 := fun e => Nat.mod_lt _ (by norm_num)
  have hd3 : ∀ e : TempTrigramEntry, kd3 e < 256 := fun e => Nat.mod_lt _ (by norm_num)
  have ht0 : ∀ e : TempTrigramEntry, kt0 e < 256 := fun e => Nat.mod_lt _ (by norm_num)
  have ht1 : ∀ e : TempTrigramEntry, kt1 e < 256 := fun e => Nat.mod_lt _ (by norm_num)
  have ht2 : ∀ e : TempTrigramEntry, kt2 e < 256 := fun e => Nat.mod_lt _ (by norm_num)
  exact (h kt2 ht2 _).trans ((h kt1 ht1 _).trans ((h kt0 ht0 _).trans
    ((h kd3 hd3 _).trans ((h kd2 hd2 _).trans ((h kd1 hd1 _).trans
      (h kd0 hd0 l))))))

theorem radix7_sorted (l : List TempTrigramEntry) :
    (radix7 l).Pairwise lex7 := by
  unfold radix7 lex7
  exact radix_pass_sorted kt2 _ _ (radix_pass_sorted kt1 _ _
    (radix_pass_sorted kt0 _ _ (radix_pass_sorted kd3 _ _
      (radix_pass_sorted kd2 _ _ (radix_pass_sorted kd1 _ _
        (radix_pass_sorted kd0 _ _ (pairwise_true l)))))))

/-- Both branches of `sort_trigrams` compute the unique sorted permutation
of the delta (entry bounds hold for every entry the engine creates). -/
theorem sort_trigrams_eq (l : List TempTrigramEntry)
    (hb : ∀ e ∈ l, e.trigram < 2 ^ 24 ∧ e.doc < 2 ^ 32) :
    sort_trigrams l = l.insertionSort entryLe := by
  unfold sort_trigrams
  split
  · rfl
  · have hperm : (radix7 l).Perm l := radix7_perm l
    have hsorted : (radix7 l).Pairwise entryLe := by
      refine List.Pairwise.imp_of_mem ?_ (radix7_sorted l)
      intro a b ha hb'
      have hma := hb a (hperm.mem_iff.1 ha)
      have hmb := hb b (hperm.mem_iff.1 hb')
      exact lex7_implies_entryLe a b hma.1 hma.2 hmb.1 hmb.2
    exact List.eq_of_perm_of_sorted
      (hperm.trans (List.perm_insertionSort entryLe l).symm)
      hsorted (List.sorted_insertionSort entryLe l)

theorem sort_trigrams_perm (l : List TempTrigramEntry)
    (hb : ∀ e ∈ l, e.trigram < 2 ^ 24 ∧ e.doc < 2 ^ 32) :
    (sort_trigrams l).Perm l := by
  rw [sort_trigrams_eq l hb]
  exact List.perm_insertionSort entryLe l

theorem sort_trigrams_sorted (l : List TempTrigramEntry)
    (hb : ∀ e ∈ l, e.trigram < 2 ^ 24 ∧ e.doc < 2 ^ 32) :
    (sort_trigrams l).Pairwise entryLe := by
  rw [sort_trigrams_eq l hb]
  exact List.sorted_insertionSort entryLe l

theorem amem_nil (t d : Nat) : ¬ AMem [] t d := by
  simp [AMem]

theorem amem_cons (t0 : Nat) (ds : List Nat) (A : List (Nat × List Nat))
    (t d : Nat) :
    AMem ((t0, ds) :: A) t d ↔ (t0 = t ∧ d ∈ ds) ∨ AMem A t d := by
  unfold AMem
  constructor
  · rintro ⟨p, hp, h1, h2⟩
    rcases List.mem_cons.1 hp with h3 | hp'
    · subst h3
      exact Or.inl ⟨h1, h2⟩
    · exact Or.inr ⟨p, hp', h1, h2⟩
  · rintro (⟨h1, h2⟩ | ⟨p, hp, h1, h2⟩)
    · exact ⟨(t0, ds), List.mem_cons_self _ _, h1, h2⟩
    · exact ⟨p, List.mem_cons_of_mem _ hp, h1, h2⟩

theorem getLast?_mem' {α : Type} : ∀ (l : List α) (x : α),
    l.getLast? = some x → x ∈ l := by
  intro l
  induction l with
  | nil => intro x h; cases h
  | cons a m ih =>
    intro x h
    cases m with
    | nil =>
      simp at h
      simp [h]
    | cons b mm =>
      rw [List.getLast?_cons_cons] at h
      exact List.mem_cons_of_mem a (ih x h)

theorem sorted_le_getLast : ∀ (l : List Nat), l.Pairwise (fun x y => x < y) →
    ∀ x, l.getLast? = some x → ∀ d ∈ l, d ≤ x := by
  intro l
  induction l with
  | nil => intro _ x h; cases h
  | cons a m ih =>
    intro hs x h d hd
    cases m with
    | nil =>
      simp at h hd
      omega
    | cons b mm =>
      rw [List.getLast?_cons_cons] at h
      rcases List.mem_cons.1 hd with h1 | h1
      · subst h1
        have hx := getLast?_mem' (b :: mm) x h
        have hlt := (List.pairwise_cons.1 hs).1 x hx
        omega
      · exact ih (List.pairwise_cons.1 hs).2 x h d h1

theorem strict_asc_nodup (l : List Nat) (h : l.Pairwise (fun x y => x < y)) :
    l.Nodup :=
  h.imp fun hlt => Nat.ne_of_lt hlt

theorem strict_asc_ext (l₁ l₂ : List Nat)
    (h₁ : l₁.Pairwise (fun x y => x < y))
    (h₂ : l₂.Pairwise (fun x y => x < y))
    (hm : ∀ d, d ∈ l₁ ↔ d ∈ l₂) : l₁ = l₂ := by
  haveI : IsAntisymm Nat (fun x y => x < y) :=
    ⟨fun a b hab hba => absurd hab (by omega)⟩
  have hperm : l₁.Perm l₂ :=
    (List.perm_ext_iff_of_nodup (strict_asc_nodup l₁ h₁)
      (strict_asc_nodup l₂ h₂)).2 hm
  exact List.eq_of_perm_of_sorted hperm h₁ h₂

/-- A well-formed associative view is determined by its membership
relation. -/
theorem assoc_unique : ∀ (A B : List (Nat × List Nat)), AssocOK A →
    AssocOK B → (∀ t d, AMem A t d ↔ AMem B t d) → A = B := by
  intro A
  induction A with
  | nil =>
    intro B hA hB hm
    cases B with
    | nil => rfl
    | cons q B' =>
      exfalso
      obtain ⟨tq, dsq⟩ := q
      have hq := hB.2 (tq, dsq) (List.mem_cons_self _ _)
      obtain ⟨d, hd⟩ := List.exists_mem_of_ne_nil _ hq.2
      have hmem : AMem ((tq, dsq) :: B') tq d :=
        ⟨(tq, dsq), List.mem_cons_self _ _, rfl, hd⟩
      exact amem_nil tq d ((hm tq d).2 hmem)
  | cons p A' ih =>
    intro B hA hB hm
    obtain ⟨tp, dsp⟩ := p
    cases B with
    | nil =>
      exfalso
      have hp := hA.2 (tp, dsp) (List.mem_cons_self _ _)
      obtain ⟨d, hd⟩ := List.exists_mem_of_ne_nil _ hp.2
      have hmem : AMem ((tp, dsp) :: A') tp d :=
        ⟨(tp, dsp), List.mem_cons_self _ _, rfl, hd⟩
      exact amem_nil tp d ((hm tp d).1 hmem)
    | cons q B' =>
      obtain ⟨tq, dsq⟩ := q
      have hpOK := hA.2 (tp, dsp) (List.mem_cons_self _ _)
      have hqOK := hB.2 (tq, dsq) (List.mem_cons_self _ _)
      have hApw := (List.pairwise_cons.1 hA.1)
      have hBpw := (List.pairwise_cons.1 hB.1)
      -- the head trigrams agree
      have htpq : tp = tq := by
        obtain ⟨da, hda⟩ := List.exists_mem_of_ne_nil _ hpOK.2
        obtain ⟨db, hdb⟩ := List.exists_mem_of_ne_nil _ hqOK.2
        have h1 : AMem ((tq, dsq) :: B') tp da :=
          (hm tp da).1 ⟨(tp, dsp), List.mem_cons_self _ _, rfl, hda⟩
        have h2 : AMem ((tp, dsp) :: A') tq db :=
          (hm tq db).2 ⟨(tq, dsq), List.mem_cons_self _ _, rfl, hdb⟩
      -- from h1: tq = tp or tq < tp
        have hle1 : tq ≤ tp := by
          obtain ⟨p', hp', hp1, -⟩ := h1
          rcases List.mem_cons.1 hp' with h3 | h3
          · subst h3
            simp at hp1
            omega
          · have := hBpw.1 p' h3
            simp at this
            omega
        have hle2 : tp ≤ tq := by
          obtain ⟨p', hp', hp1, -⟩ := h2
          rcases List.mem_cons.1 hp' with h3 | h3
          · subst h3
            simp at hp1
            omega
          · have := hApw.1 p' h3
            simp at this
            omega
        omega
      subst htpq
      -- the head posting lists agree
      have hds : dsp = dsq := by
        refine strict_asc_ext dsp dsq hpOK.1 hqOK.1 fun d => ?_
        constructor
        · intro hd
          have h1 := (hm tp d).1 ⟨(tp, dsp), List.mem_cons_self _ _, rfl, hd⟩
          obtain ⟨p', hp', hp1, hp2⟩ := h1
          rcases List.mem_cons.1 hp' with h3 | h3
          · subst h3
            simpa using hp2
          · have := hBpw.1 p' h3
            simp at this hp1
            omega
        · intro hd
          have h1 := (hm tp d).2 ⟨(tp, dsq), List.mem_cons_self _ _, rfl, hd⟩
          obtain ⟨p', hp', hp1, hp2⟩ := h1
          rcases List.mem_cons.1 hp' with h3 | h3
          · subst h3
            simpa using hp2
          · have := hApw.1 p' h3
            simp at this hp1
            omega
      subst hds
      -- the tails agree
      have htails : A' = B' := by
        refine ih B' ⟨hApw.2, fun p hp => hA.2 p (List.mem_cons_of_mem _ hp)⟩
          ⟨hBpw.2, fun p hp => hB.2 p (List.mem_cons_of_mem _ hp)⟩ fun t d => ?_
        constructor
        · rintro ⟨p', hp', h1, h2⟩
          have hlt := hApw.1 p' hp'
          have h3 := (hm t d).1 ⟨p', List.mem_cons_of_mem _ hp', h1, h2⟩
          obtain ⟨p'', hp'', h4, h5⟩ := h3
          rcases List.mem_cons.1 hp'' with h6 | h6
          · subst h6
            simp at h4
            omega
          · exact ⟨p'', h6, h4, h5⟩
        · rintro ⟨p', hp', h1, h2⟩
          have hlt := hBpw.1 p' hp'
          have h3 := (hm t d).2 ⟨p', List.mem_cons_of_mem _ hp', h1, h2⟩
          obtain ⟨p'', hp'', h4, h5⟩ := h3
          rcases List.mem_cons.1 hp'' with h6 | h6
          · subst h6
            simp at h4
            omega
          · exact ⟨p'', h6, h4, h5⟩
      rw [htails]

/-- A contiguous block table determines the postings vector from the
slices. -/
theorem contig_join (ps : List Nat) : ∀ (bs : List PostingBlock) (s : Nat),
    Contig bs s ps.length →
    (∀ b ∈ bs, (block_postings b ps).length = b.len) →
    ps.drop s = (bs.map fun b => block_postings b ps).flatten := by
  intro bs
  induction bs with
  | nil =>
    intro s hc _
    unfold Contig at hc
    rw [hc, List.drop_length]
    simp
  | cons b bs ih =>
    intro s hc hlen
    unfold Contig at hc
    obtain ⟨hoff, hrest⟩ := hc
    have htail := ih (s + b.len) hrest
      (fun x hx => hlen x (List.mem_cons_of_mem _ hx))
    rw [List.map_cons, List.flatten_cons, ← htail]
    unfold block_postings
    rw [hoff]
    rw [← List.drop_drop]
    exact (List.take_append_drop b.len (ps.drop s)).symm

/-- Two canonical indexes with the same associative view are equal as
(blocks, postings) pairs. -/
theorem canonical_eq : ∀ (bs1 : List PostingBlock) (ps1 : List Nat)
    (bs2 : List PostingBlock) (ps2 : List Nat) (s : Nat),
    Contig bs1 s ps1.length → Contig bs2 s ps2.length →
    (∀ b ∈ bs1, (block_postings b ps1).length = b.len) →
    (∀ b ∈ bs2, (block_postings b ps2).length = b.len) →
    toAssoc bs1 ps1 = toAssoc bs2 ps2 →
    bs1 = bs2 := by
  intro bs1
  induction bs1 with
  | nil =>
    intro ps1 bs2 ps2 s _ _ _ _ heq
    cases bs2 with
    | nil => rfl
    | cons b2 t2 => cases heq
  | cons b1 t1 ih =>
    intro ps1 bs2 ps2 s hc1 hc2 hl1 hl2 heq
    cases bs2 with
    | nil => cases heq
    | cons b2 t2 =>
      unfold toAssoc at heq
      rw [List.map_cons, List.map_cons] at heq
      have hhead := List.head_eq_of_cons_eq heq
      have htail := List.tail_eq_of_cons_eq heq
      have htri : b1.trigram = b2.trigram := by
        have := congrArg Prod.fst hhead
        simpa using this
      have hslice : block_postings b1 ps1 = block_postings b2 ps2 := by
        have := congrArg Prod.snd hhead
        simpa using this
      have hlen : b1.len = b2.len := by
        rw [← hl1 b1 (List.mem_cons_self _ _), ← hl2 b2 (List.mem_cons_self _ _),
          hslice]
      unfold Contig at hc1 hc2
      have hoff : b1.off = b2.off := by rw [hc1.1, hc2.1]
      have hb : b1 = b2 := by
        obtain ⟨x1, y1, z1⟩ := b1
        obtain ⟨x2, y2, z2⟩ := b2
        simp at htri hoff hlen
        simp [htri, hoff, hlen]
      rw [hb]
      have hc1' : Contig t1 (s + b2.len) ps1.length := by
        first
        | exact hc1.2
        | { have h := hc1.2
            rw [← hlen]
            exact h }
      have hrec := ih ps1 t2 ps2 (s + b2.len) hc1' hc2.2
        (fun x hx => hl1 x (List.mem_cons_of_mem _ hx))
        (fun x hx => hl2 x (List.mem_cons_of_mem _ hx)) htail
      rw [hrec]

/-! ### Specification of `build_blocks_from_sorted` -/

theorem bbGo_nil (cur_t cur_off cur_len : Nat) (last : Option Nat) :
    bbGo cur_t cur_off cur_len last [] =
      ([⟨cur_t, cur_off, cur_len⟩], []) := rfl

theorem bbGo_new (cur_t cur_off cur_len : Nat) (last : Option Nat)
    (e : TempTrigramEntry) (rest : List TempTrigramEntry)
    (h : e.trigram ≠ cur_t) :
    bbGo cur_t cur_off cur_len last (e :: rest) =
      ((⟨cur_t, cur_off, cur_len⟩ : PostingBlock) ::
        (bbGo e.trigram ((cur_off + cur_len) % 2 ^ 32) 1 (some e.doc) rest).1,
       e.doc ::
        (bbGo e.trigram ((cur_off + cur_len) % 2 ^ 32) 1
          (some e.doc) rest).2) := by
  simp [bbGo, h]

theorem bbGo_push (cur_t cur_off cur_len : Nat) (last : Option Nat)
    (e : TempTrigramEntry) (rest : List TempTrigramEntry)
    (h1 : e.trigram = cur_t) (h2 : last ≠ some e.doc) :
    bbGo cur_t cur_off cur_len last (e :: rest) =
      ((bbGo cur_t cur_off ((cur_len + 1) % 2 ^ 32) (some e.doc) rest).1,
       e.doc ::
        (bbGo cur_t cur_off ((cur_len + 1) % 2 ^ 32) (some e.doc) rest).2) := by
  simp [bbGo, h1, h2]

theorem bbGo_skip (cur_t cur_off cur_len : Nat) (last : Option Nat)
    (e : TempTrigramEntry) (rest : List TempTrigramEntry)
    (h1 : e.trigram = cur_t) (h2 : last = some e.doc) :
    bbGo cur_t cur_off cur_len last (e :: rest) =
      bbGo cur_t cur_off cur_len last rest := by
  simp [bbGo, h1, h2]

theorem bbGo_spec : ∀ (entries : List TempTrigramEntry) (cur_t : Nat)
    (pre0 prev : List Nat) (bs : List PostingBlock) (ps : List Nat),
    entries.Pairwise entryLe →
    (∀ e ∈ entries, cur_t ≤ e.trigram) →
    (∀ e ∈ entries, e.trigram = cur_t → ∀ d ∈ prev, d ≤ e.doc) →
    prev.Pairwise (fun x y => x < y) →
    (prev ≠ [] ∨ ∃ e, entries.head? = some e ∧ e.trigram = cur_t) →
    pre0.length + prev.length + ps.length < 2 ^ 32 →
    bbGo cur_t pre0.length prev.length prev.getLast? entries = (bs, ps) →
    Contig bs pre0.length (pre0 ++ prev ++ ps).length ∧
    bs.Pairwise (fun a b => a.trigram < b.trigram) ∧
    (∀ b ∈ bs, cur_t ≤ b.trigram) ∧
    BlockOut bs (pre0 ++ prev ++ ps) ∧
    (∀ t d, AMem (toAssoc bs (pre0 ++ prev ++ ps)) t d ↔
      (t = cur_t ∧ d ∈ prev) ∨ (⟨t, d⟩ : TempTrigramEntry) ∈ entries) := by
  intro entries
  induction entries with
  | nil =>
    intro cur_t pre0 prev bs ps hsort hge hdoc hprev hne hbnd heq
    rw [bbGo_nil] at heq
    injection heq with h1x h2x
    subst h1x
    subst h2x
    have hprevne : prev ≠ [] := by
      rcases hne with h | ⟨e, he, -⟩
      · exact h
      · cases he
    have hslice : block_postings ⟨cur_t, pre0.length, prev.length⟩
        (pre0 ++ prev ++ []) = prev := by
      unfold block_postings
      simp only [List.append_nil, List.append_assoc]
      rw [List.drop_left, List.take_length]
    refine ⟨?_, ?_, ?_, ?_, ?_⟩
    · exact ⟨rfl, by simp [Contig]⟩
    · exact List.pairwise_singleton _ _
    · intro b hb
      simp at hb
      subst hb
      exact le_refl _
    · intro b hb
      simp at hb
      subst hb
      rw [hslice]
      refine ⟨hprev, rfl, ?_⟩
      simp [List.length_pos, hprevne]
    · intro t d
      have hta : toAssoc [⟨cur_t, pre0.length, prev.length⟩] (pre0 ++ prev ++ []) =
          [(cur_t, prev)] := by
        unfold toAssoc
        rw [List.map_cons, List.map_nil, hslice]
      rw [hta, amem_cons]
      constructor
      · rintro (⟨h1, h2⟩ | h)
        · exact Or.inl ⟨h1.symm, h2⟩
        · exact absurd h (amem_nil t d)
      · rintro (⟨h1, h2⟩ | h)
        · exact Or.inl ⟨h1.symm, h2⟩
        · exact absurd h (List.not_mem_nil _)
  | cons e rest ih =>
    intro cur_t pre0 prev bs ps hsort hge hdoc hprev hne hbnd heq
    have hsr := List.pairwise_cons.1 hsort
    by_cases ht : e.trigram = cur_t
    · by_cases hd : prev.getLast? = some e.doc
      · -- duplicate entry: skipped
        rw [bbGo_skip _ _ _ _ _ _ ht hd] at heq
        have hres := ih cur_t pre0 prev bs ps hsr.2
          (fun x hx => hge x (List.mem_cons_of_mem _ hx))
          (fun x hx => hdoc x (List.mem_cons_of_mem _ hx)) hprev
          (Or.inl (by
            intro habs
            rw [habs] at hd
            cases hd)) hbnd heq
        refine ⟨hres.1, hres.2.1, hres.2.2.1, hres.2.2.2.1, ?_⟩
        intro t d
        rw [hres.2.2.2.2 t d]
        constructor
        · rintro (h | h)
          · exact Or.inl h
          · exact Or.inr (List.mem_cons_of_mem _ h)
        · rintro (h | h)
          · exact Or.inl h
          · rcases List.mem_cons.1 h with h1 | h1
            · left
              have h2 : t = e.trigram ∧ d = e.doc := by
                rw [TempTrigramEntry.mk.injEq] at h1
                exact h1
              refine ⟨by rw [h2.1, ht], ?_⟩
              rw [h2.2]
              exact getLast?_mem' prev e.doc hd
            · exact Or.inr h1
      · -- same trigram, new doc id: pushed
        rw [bbGo_push _ _ _ _ _ _ ht hd] at heq
        rcases hRdef : bbGo cur_t pre0.length ((prev.length + 1) % 2 ^ 32)
            (some e.doc) rest with ⟨bs', ps'⟩
        rw [hRdef] at heq
        injection heq with h1x h2x
        subst h1x
        subst h2x
        have hm1 : (prev.length + 1) % 2 ^ 32 = prev.length + 1 := by
          apply Nat.mod_eq_of_lt
          have hb' := hbnd
          simp only [List.length_cons] at hb'
          omega
        rw [hm1] at hRdef
        have hprevlt : ∀ x ∈ prev, x < e.doc := by
          intro x hx
          rcases hgl : prev.getLast? with _ | y
          · rw [List.getLast?_eq_none_iff] at hgl
            rw [hgl] at hx
            cases hx
          · have h1 := sorted_le_getLast prev hprev y hgl x hx
            have h2 := hdoc e (List.mem_cons_self _ _) ht y (getLast?_mem' prev y hgl)
            have h3 : y ≠ e.doc := by
              intro habs
              rw [habs] at hgl
              exact hd hgl
            omega
        have hprev' : (prev ++ [e.doc]).Pairwise (fun x y => x < y) := by
          rw [List.pairwise_append]
          refine ⟨hprev, List.pairwise_singleton _ _, ?_⟩
          intro x hx y hy
          simp at hy
          subst hy
          exact hprevlt x hx
        have hcall : bbGo cur_t pre0.length (prev ++ [e.doc]).length
            (prev ++ [e.doc]).getLast? rest = (bs', ps') := by
          rw [List.getLast?_concat]
          simpa using hRdef
        have hres := ih cur_t pre0 (prev ++ [e.doc]) bs' ps' hsr.2
          (fun x hx => hge x (List.mem_cons_of_mem _ hx))
          (fun x hx hxt d hdm => by
            rcases List.mem_append.1 hdm with h1 | h1
            · exact hdoc x (List.mem_cons_of_mem _ hx) hxt d h1
            · simp at h1
              subst h1
              have := hsr.1 x hx
              unfold entryLe at this
              rw [hxt, ht] at this
              omega) hprev'
          (Or.inl (by simp))
          (by
            simp only [List.length_append, List.length_cons,
              List.length_nil] at hbnd ⊢
            omega) hcall
        have hfull : pre0 ++ prev ++ (e.doc :: ps') =
            pre0 ++ (prev ++ [e.doc]) ++ ps' := by
          simp
        rw [hfull]
        refine ⟨?_, hres.2.1, hres.2.2.1, hres.2.2.2.1, ?_⟩
        · have h1 := hres.1
          simpa using h1
        · intro t d
          rw [hres.2.2.2.2 t d]
          constructor
          · rintro (⟨h1, h2⟩ | h)
            · rcases List.mem_append.1 h2 with h3 | h3
              · exact Or.inl ⟨h1, h3⟩
              · simp at h3
                subst h3
                right
                have hte : (⟨t, e.doc⟩ : TempTrigramEntry) = e := by
                  rw [TempTrigramEntry.mk.injEq]
                  exact ⟨by rw [h1, ht], rfl⟩
                rw [hte]
                exact List.mem_cons_self _ _
            · exact Or.inr (List.mem_cons_of_mem _ h)
          · rintro (⟨h1, h2⟩ | h)
            · exact Or.inl ⟨h1, List.mem_append_left _ h2⟩
            · rcases List.mem_cons.1 h with h1 | h1
              · rw [TempTrigramEntry.mk.injEq] at h1
                left
                refine ⟨by rw [h1.1, ht], ?_⟩
                rw [h1.2]
                exact List.mem_append_right _ (by simp)
              · exact Or.inr h1
    · -- new trigram: close the current block
      rw [bbGo_new _ _ _ _ _ _ ht] at heq
      rcases hRdef : bbGo e.trigram ((pre0.length + prev.length) % 2 ^ 32) 1
          (some e.doc) rest with ⟨bs', ps'⟩
      rw [hRdef] at heq
      injection heq with h1x h2x
      subst h1x
      subst h2x
      have hm1 : (pre0.length + prev.length) % 2 ^ 32 =
          pre0.length + prev.length := Nat.mod_eq_of_lt (by omega)
      rw [hm1] at hRdef
      have hlt : cur_t < e.trigram := by
        have := hge e (List.mem_cons_self _ _)
        omega
      have hprevne : prev ≠ [] := by
        rcases hne with h | ⟨e', he', ht'⟩
        · exact h
        · exfalso
          simp at he'
          subst he'
          exact ht ht'
      have hcall : bbGo e.trigram (pre0 ++ prev).length ([e.doc] : List Nat).length
          ([e.doc] : List Nat).getLast? rest = (bs', ps') := by
        simpa [List.length_append] using hRdef
      have hres := ih e.trigram (pre0 ++ prev) [e.doc] bs' ps' hsr.2
        (fun x hx => by
          have := hsr.1 x hx
          unfold entryLe at this
          omega)
        (fun x hx hxt d hdm => by
          simp at hdm
          subst hdm
          have := hsr.1 x hx
          unfold entryLe at this
          omega)
        (List.pairwise_singleton _ _) (Or.inl (by simp))
        (by
          simp only [List.length_append, List.length_cons,
            List.length_nil] at hbnd ⊢
          omega) hcall
      have hfull : pre0 ++ prev ++ (e.doc :: ps') =
          (pre0 ++ prev) ++ [e.doc] ++ ps' := by
        simp
      rw [hfull]
      have hheadslice : block_postings ⟨cur_t, pre0.length, prev.length⟩
          ((pre0 ++ prev) ++ [e.doc] ++ ps') = prev := by
        unfold block_postings
        have : (pre0 ++ prev) ++ [e.doc] ++ ps' =
            pre0 ++ (prev ++ ([e.doc] ++ ps')) := by simp
        rw [this, List.drop_left, List.take_left]
      refine ⟨?_, ?_, ?_, ?_, ?_⟩
      · refine ⟨rfl, ?_⟩
        have h1 := hres.1
        have h2 : (pre0 ++ prev).length = pre0.length + prev.length := by simp
        rw [h2] at h1
        convert h1 using 2 <;> simp
      · rw [List.pairwise_cons]
        refine ⟨?_, hres.2.1⟩
        intro b hb
        have := hres.2.2.1 b hb
        show cur_t < b.trigram
        omega
      · intro b hb
        rcases List.mem_cons.1 hb with h1 | h1
        · subst h1
          exact le_refl _
        · have := hres.2.2.1 b h1
          show cur_t ≤ b.trigram
          omega
      · intro b hb
        rcases List.mem_cons.1 hb with h1 | h1
        · subst h1
          rw [hheadslice]
          refine ⟨hprev, rfl, by simp [List.length_pos, hprevne]⟩
        · exact hres.2.2.2.1 b h1
      · intro t d
        unfold toAssoc
        rw [List.map_cons, hheadslice, amem_cons]
        have hih := hres.2.2.2.2 t d
        unfold toAssoc at hih
        rw [hih]
        constructor
        · rintro (⟨h1, h2⟩ | ⟨h1, h2⟩ | h)
          · exact Or.inl ⟨h1.symm, h2⟩
          · simp at h2
            subst h2
            refine Or.inr ?_
            have hte : (⟨t, e.doc⟩ : TempTrigramEntry) = e := by
              rw [TempTrigramEntry.mk.injEq]
              exact ⟨h1, rfl⟩
            rw [hte]
            exact List.mem_cons_self _ _
          · exact Or.inr (List.mem_cons_of_mem _ h)
        · rintro (⟨h1, h2⟩ | h)
          · exact Or.inl ⟨h1.symm, h2⟩
          · rcases List.mem_cons.1 h with h1 | h1
            · rw [TempTrigramEntry.mk.injEq] at h1
              right
              left
              exact ⟨h1.1, by simp [h1.2]⟩
            · right
              right
              exact h1

theorem build_spec (entries : List TempTrigramEntry)
    (hsort : entries.Pairwise entryLe) (bs : List PostingBlock) (ps : List Nat)
    (hbnd : ps.length < 2 ^ 32)
    (heq : build_blocks_from_sorted entries = (bs, ps)) :
    Contig bs 0 ps.length ∧
    bs.Pairwise (fun a b => a.trigram < b.trigram) ∧
    BlockOut bs ps ∧
    (∀ t d, AMem (toAssoc bs ps) t d ↔ (⟨t, d⟩ : TempTrigramEntry) ∈ entries) := by
  cases entries with
  | nil =>
    unfold build_blocks_from_sorted at heq
    injection heq with h1x h2x
    subst h1x
    subst h2x
    refine ⟨rfl, List.Pairwise.nil, ?_, ?_⟩
    · intro b hb
      cases hb
    · intro t d
      constructor
      · intro h
        exact absurd h (amem_nil t d)
      · intro h
        cases h
  | cons e rest =>
    unfold build_blocks_from_sorted at heq
    have hge : ∀ x ∈ e :: rest, e.trigram ≤ x.trigram := by
      intro x hx
      rcases List.mem_cons.1 hx with h | h
      · subst h
        exact le_refl _
      · have := (List.pairwise_cons.1 hsort).1 x h
        unfold entryLe at this
        omega
    have hspec := bbGo_spec (e :: rest) e.trigram [] [] bs ps hsort hge
      (fun x _ _ d hd => absurd hd (List.not_mem_nil d))
      List.Pairwise.nil (Or.inr ⟨e, rfl, rfl⟩) (by simpa using hbnd) heq
    have h1 := hspec.1
    have h4 := hspec.2.2.2.1
    have h5 := hspec.2.2.2.2
    simp only [List.nil_append, List.length_nil] at h1 h4 h5
    refine ⟨h1, hspec.2.1, h4, ?_⟩
    intro t d
    rw [h5 t d]
    simp

theorem bbGo_len_le : ∀ (entries : List TempTrigramEntry)
    (cur_t cur_off cur_len : Nat) (last : Option Nat),
    (bbGo cur_t cur_off cur_len last entries).2.length ≤ entries.length := by
  intro entries
  induction entries with
  | nil =>
    intro cur_t cur_off cur_len last
    rw [bbGo_nil]
    exact Nat.zero_le _
  | cons e rest ih =>
    intro cur_t cur_off cur_len last
    by_cases ht : e.trigram = cur_t
    · by_cases hd : last = some e.doc
      · rw [bbGo_skip _ _ _ _ _ _ ht hd]
        exact le_trans (ih _ _ _ _) (by simp)
      · rw [bbGo_push _ _ _ _ _ _ ht hd]
        have := ih cur_t cur_off ((cur_len + 1) % 2 ^ 32) (some e.doc)
        simp only [List.length_cons]
        omega
    · rw [bbGo_new _ _ _ _ _ _ ht]
      have := ih e.trigram ((cur_off + cur_len) % 2 ^ 32) 1 (some e.doc)
      simp only [List.length_cons]
      omega

theorem build_len_le (entries : List TempTrigramEntry) :
    (build_blocks_from_sorted entries).2.length ≤ entries.length := by
  cases entries with
  | nil => exact Nat.zero_le _
  | cons e rest =>
    show (bbGo e.trigram 0 0 none (e :: rest)).2.length ≤ (e :: rest).length
    exact bbGo_len_le (e :: rest) e.trigram 0 0 none

theorem windows3_length (bytes : List Nat) :
    (windows3 bytes).length = bytes.length - 2 := by
  unfold windows3
  rw [List.length_map, List.length_range]

/-! ### Specification of `merge_sorted_dedup` -/

theorem msd_nil_left (b : List Nat) : merge_sorted_dedup [] b = b := by
  unfold merge_sorted_dedup
  rfl

theorem msd_nil_right (a : Nat) (as2 : List Nat) :
    merge_sorted_dedup (a :: as2) [] = a :: as2 := by
  unfold merge_sorted_dedup
  rfl

theorem msd_cons_lt (a b : Nat) (as2 bs2 : List Nat) (h : a < b) :
    merge_sorted_dedup (a :: as2) (b :: bs2) =
      a :: merge_sorted_dedup as2 (b :: bs2) := by
  rw [merge_sorted_dedup]
  simp [h]

theorem msd_cons_gt (a b : Nat) (as2 bs2 : List Nat) (h : b < a) :
    merge_sorted_dedup (a :: as2) (b :: bs2) =
      b :: merge_sorted_dedup (a :: as2) bs2 := by
  rw [merge_sorted_dedup]
  have h2 : ¬ a < b := by omega
  simp [h, h2]

theorem msd_cons_eq (a : Nat) (as2 bs2 : List Nat) :
    merge_sorted_dedup (a :: as2) (a :: bs2) =
      a :: merge_sorted_dedup as2 bs2 := by
  rw [merge_sorted_dedup]
  simp

theorem msd_spec : ∀ (n : Nat) (a b : List Nat), a.length + b.length ≤ n →
    a.Pairwise (fun x y => x < y) → b.Pairwise (fun x y => x < y) →
    (merge_sorted_dedup a b).Pairwise (fun x y => x < y) ∧
    (∀ d, d ∈ merge_sorted_dedup a b ↔ d ∈ a ∨ d ∈ b) := by
  intro n
  induction n with
  | zero =>
    intro a b hlen ha hb
    have ha0 : a = [] := by
      cases a with
      | nil => rfl
      | cons x xs => simp at hlen
    subst ha0
    rw [msd_nil_left]
    exact ⟨hb, fun d => by simp⟩
  | succ n ih =>
    intro a b hlen ha hb
    cases a with
    | nil =>
      rw [msd_nil_left]
      exact ⟨hb, fun d => by simp⟩
    | cons x xs =>
      cases b with
      | nil =>
        rw [msd_nil_right]
        exact ⟨ha, fun d => by simp⟩
      | cons y ys =>
        have hax := List.pairwise_cons.1 ha
        have hby := List.pairwise_cons.1 hb
        rcases Nat.lt_trichotomy x y with h | h | h
        · rw [msd_cons_lt x y xs ys h]
          have hrec := ih xs (y :: ys) (by simp at hlen ⊢; omega) hax.2 hb
          constructor
          · rw [List.pairwise_cons]
            refine ⟨?_, hrec.1⟩
            intro z hz
            rcases (hrec.2 z).1 hz with h1 | h1
            · exact hax.1 z h1
            · rcases List.mem_cons.1 h1 with h2 | h2
              · omega
              · have := hby.1 z h2
                omega
          · intro d
            simp only [List.mem_cons, hrec.2 d]
            tauto
        · subst h
          rw [msd_cons_eq]
          have hrec := ih xs ys (by simp at hlen ⊢; omega) hax.2 hby.2
          constructor
          · rw [List.pairwise_cons]
            refine ⟨?_, hrec.1⟩
            intro z hz
            rcases (hrec.2 z).1 hz with h1 | h1
            · exact hax.1 z h1
            · exact hby.1 z h1
          · intro d
            simp only [List.mem_cons, hrec.2 d]
            tauto
        · rw [msd_cons_gt x y xs ys h]
          have hrec := ih (x :: xs) ys (by simp at hlen ⊢; omega) ha hby.2
          constructor
          · rw [List.pairwise_cons]
            refine ⟨?_, hrec.1⟩
            intro z hz
            rcases (hrec.2 z).1 hz with h1 | h1
            · rcases List.mem_cons.1 h1 with h2 | h2
              · omega
              · have := hax.1 z h2
                omega
            · exact hby.1 z h1
          · intro d
            simp only [List.mem_cons, hrec.2 d]
            tauto

theorem msd_ne_nil (a b : List Nat) (h : a ≠ [] ∨ b ≠ []) :
    merge_sorted_dedup a b ≠ [] := by
  cases a with
  | nil =>
    rw [msd_nil_left]
    tauto
  | cons x xs =>
    cases b with
    | nil =>
      rw [msd_nil_right]
      simp
    | cons y ys =>
      rcases Nat.lt_trichotomy x y with h1 | h1 | h1
      · rw [msd_cons_lt x y xs ys h1]
        simp
      · subst h1
        rw [msd_cons_eq]
        simp
      · rw [msd_cons_gt x y xs ys h1]
        simp

theorem msd_len_le : ∀ (n : Nat) (a b : List Nat), a.length + b.length ≤ n →
    (merge_sorted_dedup a b).length ≤ a.length + b.length := by
  intro n
  induction n with
  | zero =>
    intro a b hn
    have ha : a = [] := by
      cases a with
      | nil => rfl
      | cons x xs => simp at hn
    subst ha
    rw [msd_nil_left]
    simp
  | succ n ih =>
    intro a b hn
    cases a with
    | nil =>
      rw [msd_nil_left]
      simp
    | cons x xs =>
      cases b with
      | nil =>
        rw [msd_nil_right]
        simp
      | cons y ys =>
        rcases Nat.lt_trichotomy x y with h1 | h1 | h1
        · rw [msd_cons_lt x y xs ys h1]
          have := ih xs (y :: ys) (by simp at hn ⊢; omega)
          simp only [List.length_cons] at this ⊢
          omega
        · subst h1
          rw [msd_cons_eq]
          have := ih xs ys (by simp at hn ⊢; omega)
          simp only [List.length_cons] at this ⊢
          omega
        · rw [msd_cons_gt x y xs ys h1]
          have := ih (x :: xs) ys (by simp at hn ⊢; omega)
          simp only [List.length_cons] at this ⊢
          omega

/-! ### Specification of `merge_indexes` -/

theorem miGo_nil (ap bp : List Nat) (outLen : Nat) :
    miGo [] [] ap bp outLen = ([], []) := by
  rw [miGo]

theorem miGo_left (a : PostingBlock) (as2 : List PostingBlock)
    (ap bp : List Nat) (outLen : Nat) :
    miGo (a :: as2) [] ap bp outLen =
      (⟨a.trigram, outLen % 2 ^ 32, a.len⟩ ::
        (miGo as2 [] ap bp (outLen + (block_postings a ap).length)).1,
       block_postings a ap ++
        (miGo as2 [] ap bp (outLen + (block_postings a ap).length)).2) := by
  rw [miGo]

theorem miGo_right (b : PostingBlock) (bs2 : List PostingBlock)
    (ap bp : List Nat) (outLen : Nat) :
    miGo [] (b :: bs2) ap bp outLen =
      (⟨b.trigram, outLen % 2 ^ 32, b.len⟩ ::
        (miGo [] bs2 ap bp (outLen + (block_postings b bp).length)).1,
       block_postings b bp ++
        (miGo [] bs2 ap bp (outLen + (block_postings b bp).length)).2) := by
  rw [miGo]

theorem miGo_lt (a b : PostingBlock) (as2 bs2 : List PostingBlock)
    (ap bp : List Nat) (outLen : Nat) (h : a.trigram < b.trigram) :
    miGo (a :: as2) (b :: bs2) ap bp outLen =
      (⟨a.trigram, outLen % 2 ^ 32, a.len⟩ ::
        (miGo as2 (b :: bs2) ap bp (outLen + (block_postings a ap).length)).1,
       block_postings a ap ++
        (miGo as2 (b :: bs2) ap bp (outLen + (block_postings a ap).length)).2) := by
  rw [miGo]
  simp [h]

theorem miGo_gt (a b : PostingBlock) (as2 bs2 : List PostingBlock)
    (ap bp : List Nat) (outLen : Nat) (h : b.trigram < a.trigram) :
    miGo (a :: as2) (b :: bs2) ap bp outLen =
      (⟨b.trigram, outLen % 2 ^ 32, b.len⟩ ::
        (miGo (a :: as2) bs2 ap bp (outLen + (block_postings b bp).length)).1,
       block_postings b bp ++
        (miGo (a :: as2) bs2 ap bp (outLen + (block_postings b bp).length)).2) := by
  rw [miGo]
  have h2 : ¬ a.trigram < b.trigram := by omega
  simp [h, h2]

theorem miGo_eq (a b : PostingBlock) (as2 bs2 : List PostingBlock)
    (ap bp : List Nat) (outLen : Nat) (h : a.trigram = b.trigram) :
    miGo (a :: as2) (b :: bs2) ap bp outLen =
      (⟨a.trigram, outLen % 2 ^ 32,
          (merge_sorted_dedup (block_postings a ap)
            (block_postings b bp)).length % 2 ^ 32⟩ ::
        (miGo as2 bs2 ap bp
          (outLen + (merge_sorted_dedup (block_postings a ap)
            (block_postings b bp)).length)).1,
       merge_sorted_dedup (block_postings a ap) (block_postings b bp) ++
        (miGo as2 bs2 ap bp
          (outLen + (merge_sorted_dedup (block_postings a ap)
            (block_postings b bp)).length)).2) := by
  rw [miGo]
  have h1 : ¬ a.trigram < b.trigram := by omega
  have h2 : ¬ b.trigram < a.trigram := by omega
  simp [h1, h2]

theorem miGo_len_le : ∀ (n : Nat) (aL bL : List PostingBlock)
    (ap bp : List Nat) (k : Nat), aL.length + bL.length ≤ n →
    (miGo aL bL ap bp k).2.length ≤
      (aL.map (fun a => (block_postings a ap).length)).sum +
      (bL.map (fun b => (block_postings b bp).length)).sum := by
  intro n
  induction n with
  | zero =>
    intro aL bL ap bp k hn
    have haL : aL = [] := by
      cases aL with
      | nil => rfl
      | cons x xs => simp at hn
    have hbL : bL = [] := by
      cases bL with
      | nil => rfl
      | cons x xs => subst haL; simp at hn
    subst haL
    subst hbL
    rw [miGo_nil]
    simp
  | succ n ih =>
    intro aL bL ap bp k hn
    cases aL with
    | nil =>
      cases bL with
      | nil =>
        rw [miGo_nil]
        simp
      | cons b bs2 =>
        rw [miGo_right]
        dsimp only
        have := ih [] bs2 ap bp (k + (block_postings b bp).length)
          (by simp at hn ⊢; omega)
        simp only [List.map_nil, List.sum_nil, List.map_cons, List.sum_cons,
          List.length_append] at this ⊢
        omega
    | cons a as2 =>
      cases bL with
      | nil =>
        rw [miGo_left]
        dsimp only
        have := ih as2 [] ap bp (k + (block_postings a ap).length)
          (by simp at hn ⊢; omega)
        simp only [List.map_nil, List.sum_nil, List.map_cons, List.sum_cons,
          List.length_append] at this ⊢
        omega
      | cons b bs2 =>
        rcases Nat.lt_trichotomy a.trigram b.trigram with htri | htri | htri
        · rw [miGo_lt a b as2 bs2 ap bp k htri]
          dsimp only
          have := ih as2 (b :: bs2) ap bp (k + (block_postings a ap).length)
            (by simp at hn ⊢; omega)
          simp only [List.map_cons, List.sum_cons,
            List.length_append] at this ⊢
          omega
        · rw [miGo_eq a b as2 bs2 ap bp k htri]
          dsimp only
          have h1 := ih as2 bs2 ap bp
            (k + (merge_sorted_dedup (block_postings a ap)
              (block_postings b bp)).length)
            (by simp at hn ⊢; omega)
          have h2 := msd_len_le
            ((block_postings a ap).length + (block_postings b bp).length)
            (block_postings a ap) (block_postings b bp) le_rfl
          simp only [List.map_cons, List.sum_cons,
            List.length_append] at h1 ⊢
          omega
        · rw [miGo_gt a b as2 bs2 ap bp k htri]
          dsimp only
          have := ih (a :: as2) bs2 ap bp (k + (block_postings b bp).length)
            (by simp at hn ⊢; omega)
          simp only [List.map_cons, List.sum_cons,
            List.length_append] at this ⊢
          omega

theorem contig_sum : ∀ (bs : List PostingBlock) (s t : Nat),
    Contig bs s t → s + (bs.map PostingBlock.len).sum = t := by
  intro bs
  induction bs with
  | nil =>
    intro s t h
    have hst : s = t := h
    simp [hst]
  | cons b bs2 ih =>
    intro s t h
    obtain ⟨h1, h2⟩ := h
    have := ih (s + b.len) t h2
    simp only [List.map_cons, List.sum_cons]
    omega

theorem slice_here (pre sl rest : List Nat) (t len : Nat)
    (hlen : sl.length = len) :
    block_postings ⟨t, pre.length, len⟩ (pre ++ (sl ++ rest)) = sl := by
  show ((pre ++ (sl ++ rest)).drop pre.length).take len = sl
  rw [List.drop_left, ← hlen, List.take_left]

theorem miGo_spec : ∀ (n : Nat) (aL bL : List PostingBlock)
    (ap bp pre : List Nat) (ob : List PostingBlock) (op : List Nat),
    aL.length + bL.length ≤ n →
    aL.Pairwise (fun x y => x.trigram < y.trigram) →
    bL.Pairwise (fun x y => x.trigram < y.trigram) →
    BlockOut aL ap → BlockOut bL bp →
    pre.length + op.length < 2 ^ 32 →
    miGo aL bL ap bp pre.length = (ob, op) →
    Contig ob pre.length (pre ++ op).length ∧
    ob.Pairwise (fun x y => x.trigram < y.trigram) ∧
    (∀ z ∈ ob, ∃ x, (x ∈ aL ∨ x ∈ bL) ∧ x.trigram = z.trigram) ∧
    BlockOut ob (pre ++ op) ∧
    (∀ t d, AMem (toAssoc ob (pre ++ op)) t d ↔
      AMem (toAssoc aL ap) t d ∨ AMem (toAssoc bL bp) t d) := by
  intro n
  induction n with
  | zero =>
    intro aL bL ap bp pre ob op hlen ha hb hba hbb hbnd heq
    have haL : aL = [] := by
      cases aL with
      | nil => rfl
      | cons x xs => simp at hlen
    have hbL : bL = [] := by
      cases bL with
      | nil => rfl
      | cons x xs => subst haL; simp at hlen
    subst haL
    subst hbL
    rw [miGo_nil] at heq
    injection heq with h1x h2x
    subst h1x
    subst h2x
    refine ⟨by simp [Contig], List.Pairwise.nil, ?_, ?_, ?_⟩
    · intro z hz
      cases hz
    · intro z hz
      cases hz
    · intro t d
      constructor
      · intro h
        exact absurd h (amem_nil t d)
      · rintro (h | h) <;> exact absurd h (amem_nil t d)
  | succ n ih =>
    intro aL bL ap bp pre ob op hlen ha hb hba hbb hbnd heq
    cases aL with
    | nil =>
      cases bL with
      | nil =>
        rw [miGo_nil] at heq
        injection heq with h1x h2x
        subst h1x
        subst h2x
        refine ⟨by simp [Contig], List.Pairwise.nil, ?_, ?_, ?_⟩
        · intro z hz
          cases hz
        · intro z hz
          cases hz
        · intro t d
          constructor
          · intro h
            exact absurd h (amem_nil t d)
          · rintro (h | h) <;> exact absurd h (amem_nil t d)
      | cons b bs2 =>
        rw [miGo_right] at heq
        rcases hR : miGo [] bs2 ap bp
            (pre.length + (block_postings b bp).length) with ⟨rb, rp⟩
        rw [hR] at heq
        injection heq with h1x h2x
        subst h1x
        subst h2x
        have hm0 : pre.length % 2 ^ 32 = pre.length :=
          Nat.mod_eq_of_lt (by omega)
        rw [hm0]
        have hout := hbb b (List.mem_cons_self _ _)
        have hR' : miGo [] bs2 ap bp (pre ++ block_postings b bp).length =
            (rb, rp) := by
          simpa using hR
        have hres := ih [] bs2 ap bp (pre ++ block_postings b bp) rb rp
          (by simp at hlen ⊢; omega) List.Pairwise.nil
          (List.pairwise_cons.1 hb).2
          (fun x hx => absurd hx (List.not_mem_nil x))
          (fun x hx => hbb x (List.mem_cons_of_mem _ hx))
          (by simp only [List.length_append] at hbnd ⊢; omega) hR'
        have hre : (pre ++ block_postings b bp) ++ rp =
            pre ++ (block_postings b bp ++ rp) := by simp
        refine ⟨?_, ?_, ?_, ?_, ?_⟩
        · refine ⟨rfl, ?_⟩
          have h1 := hres.1
          rw [hre] at h1
          have h2 : (pre ++ block_postings b bp).length = pre.length + b.len := by
            simp [hout.2.1]
          rw [h2] at h1
          exact h1
        · rw [List.pairwise_cons]
          refine ⟨?_, hres.2.1⟩
          intro z hz
          rcases hres.2.2.1 z hz with ⟨x, hx, hxt⟩
          rcases hx with hx | hx
          · exact absurd hx (List.not_mem_nil x)
          · have := (List.pairwise_cons.1 hb).1 x hx
            show b.trigram < z.trigram
            omega
        · intro z hz
          rcases List.mem_cons.1 hz with h1 | h1
          · exact ⟨b, Or.inr (List.mem_cons_self _ _), by rw [h1]⟩
          · rcases hres.2.2.1 z h1 with ⟨x, hx, hxt⟩
            rcases hx with hx | hx
            · exact absurd hx (List.not_mem_nil x)
            · exact ⟨x, Or.inr (List.mem_cons_of_mem _ hx), hxt⟩
        · intro z hz
          rcases List.mem_cons.1 hz with h1 | h1
          · subst h1
            rw [slice_here pre (block_postings b bp) rp b.trigram b.len hout.2.1]
            exact ⟨hout.1, hout.2.1, hout.2.2⟩
          · have h2 := hres.2.2.2.1 z h1
            rw [hre] at h2
            exact h2
        · intro t d
          have htoa : toAssoc (⟨b.trigram, pre.length, b.len⟩ :: rb)
              (pre ++ (block_postings b bp ++ rp)) =
              (b.trigram, block_postings b bp) ::
                toAssoc rb (pre ++ (block_postings b bp ++ rp)) := by
            unfold toAssoc
            rw [List.map_cons,
              slice_here pre (block_postings b bp) rp b.trigram b.len hout.2.1]
          rw [htoa, amem_cons]
          have hih := hres.2.2.2.2 t d
          rw [hre] at hih
          rw [hih]
          have hrhs : toAssoc (b :: bs2) bp =
              (b.trigram, block_postings b bp) :: toAssoc bs2 bp := by
            unfold toAssoc
            rw [List.map_cons]
          rw [hrhs, amem_cons]
          tauto
    | cons a as2 =>
      cases bL with
      | nil =>
        rw [miGo_left] at heq
        rcases hR : miGo as2 [] ap bp
            (pre.length + (block_postings a ap).length) with ⟨rb, rp⟩
        rw [hR] at heq
        injection heq with h1x h2x
        subst h1x
        subst h2x
        have hm0 : pre.length % 2 ^ 32 = pre.length :=
          Nat.mod_eq_of_lt (by omega)
        rw [hm0]
        have hout := hba a (List.mem_cons_self _ _)
        have hR' : miGo as2 [] ap bp (pre ++ block_postings a ap).length =
            (rb, rp) := by
          simpa using hR
        have hres := ih as2 [] ap bp (pre ++ block_postings a ap) rb rp
          (by simp at hlen ⊢; omega) (List.pairwise_cons.1 ha).2
          List.Pairwise.nil
          (fun x hx => hba x (List.mem_cons_of_mem _ hx))
          (fun x hx => absurd hx (List.not_mem_nil x))
          (by simp only [List.length_append] at hbnd ⊢; omega) hR'
        have hre : (pre ++ block_postings a ap) ++ rp =
            pre ++ (block_postings a ap ++ rp) := by simp
        refine ⟨?_, ?_, ?_, ?_, ?_⟩
        · refine ⟨rfl, ?_⟩
          have h1 := hres.1
          rw [hre] at h1
          have h2 : (pre ++ block_postings a ap).length = pre.length + a.len := by
            simp [hout.2.1]
          rw [h2] at h1
          exact h1
        · rw [List.pairwise_cons]
          refine ⟨?_, hres.2.1⟩
          intro z hz
          rcases hres.2.2.1 z hz with ⟨x, hx, hxt⟩
          rcases hx with hx | hx
          · have := (List.pairwise_cons.1 ha).1 x hx
            show a.trigram < z.trigram
            omega
          · exact absurd hx (List.not_mem_nil x)
        · intro z hz
          rcases List.mem_cons.1 hz with h1 | h1
          · exact ⟨a, Or.inl (List.mem_cons_self _ _), by rw [h1]⟩
          · rcases hres.2.2.1 z h1 with ⟨x, hx, hxt⟩
            rcases hx with hx | hx
            · exact ⟨x, Or.inl (List.mem_cons_of_mem _ hx), hxt⟩
            · exact absurd hx (List.not_mem_nil x)
        · intro z hz
          rcases List.mem_cons.1 hz with h1 | h1
          · subst h1
            rw [slice_here pre (block_postings a ap) rp a.trigram a.len hout.2.1]
            exact ⟨hout.1, hout.2.1, hout.2.2⟩
          · have h2 := hres.2.2.2.1 z h1
            rw [hre] at h2
            exact h2
        · intro t d
          have htoa : toAssoc (⟨a.trigram, pre.length, a.len⟩ :: rb)
              (pre ++ (block_postings a ap ++ rp)) =
              (a.trigram, block_postings a ap) ::
                toAssoc rb (pre ++ (block_postings a ap ++ rp)) := by
            unfold toAssoc
            rw [List.map_cons,
              slice_here pre (block_postings a ap) rp a.trigram a.len hout.2.1]
          rw [htoa, amem_cons]
          have hih := hres.2.2.2.2 t d
          rw [hre] at hih
          rw [hih]
          have hrhs : toAssoc (a :: as2) ap =
              (a.trigram, block_postings a ap) :: toAssoc as2 ap := by
            unfold toAssoc
            rw [List.map_cons]
          rw [hrhs, amem_cons]
          tauto
      | cons b bs2 =>
        rcases Nat.lt_trichotomy a.trigram b.trigram with htri | htri | htri
        · rw [miGo_lt a b as2 bs2 ap bp pre.length htri] at heq
          rcases hR : miGo as2 (b :: bs2) ap bp
              (pre.length + (block_postings a ap).length) with ⟨rb, rp⟩
          rw [hR] at heq
          injection heq with h1x h2x
          subst h1x
          subst h2x
          have hm0 : pre.length % 2 ^ 32 = pre.length :=
            Nat.mod_eq_of_lt (by omega)
          rw [hm0]
          have hout := hba a (List.mem_cons_self _ _)
          have hR' : miGo as2 (b :: bs2) ap bp
              (pre ++ block_postings a ap).length = (rb, rp) := by
            simpa using hR
          have hres := ih as2 (b :: bs2) ap bp (pre ++ block_postings a ap) rb rp
            (by simp at hlen ⊢; omega) (List.pairwise_cons.1 ha).2 hb
            (fun x hx => hba x (List.mem_cons_of_mem _ hx)) hbb
            (by simp only [List.length_append] at hbnd ⊢; omega) hR'
          have hre : (pre ++ block_postings a ap) ++ rp =
              pre ++ (block_postings a ap ++ rp) := by simp
          refine ⟨?_, ?_, ?_, ?_, ?_⟩
          · refine ⟨rfl, ?_⟩
            have h1 := hres.1
            rw [hre] at h1
            have h2 : (pre ++ block_postings a ap).length =
                pre.length + a.len := by
              simp [hout.2.1]
            rw [h2] at h1
            exact h1
          · rw [List.pairwise_cons]
            refine ⟨?_, hres.2.1⟩
            intro z hz
            rcases hres.2.2.1 z hz with ⟨x, hx, hxt⟩
            show a.trigram < z.trigram
            rcases hx with hx | hx
            · have := (List.pairwise_cons.1 ha).1 x hx
              omega
            · rcases List.mem_cons.1 hx with h1 | h1
              · rw [h1] at hxt
                omega
              · have := (List.pairwise_cons.1 hb).1 x h1
                omega
          · intro z hz
            rcases List.mem_cons.1 hz with h1 | h1
            · exact ⟨a, Or.inl (List.mem_cons_self _ _), by rw [h1]⟩
            · rcases hres.2.2.1 z h1 with ⟨x, hx, hxt⟩
              rcases hx with hx | hx
              · exact ⟨x, Or.inl (List.mem_cons_of_mem _ hx), hxt⟩
              · exact ⟨x, Or.inr hx, hxt⟩
          · intro z hz
            rcases List.mem_cons.1 hz with h1 | h1
            · subst h1
              rw [slice_here pre (block_postings a ap) rp a.trigram a.len
                hout.2.1]
              exact ⟨hout.1, hout.2.1, hout.2.2⟩
            · have h2 := hres.2.2.2.1 z h1
              rw [hre] at h2
              exact h2
          · intro t d
            have htoa : toAssoc (⟨a.trigram, pre.length, a.len⟩ :: rb)
                (pre ++ (block_postings a ap ++ rp)) =
                (a.trigram, block_postings a ap) ::
                  toAssoc rb (pre ++ (block_postings a ap ++ rp)) := by
              unfold toAssoc
              rw [List.map_cons,
                slice_here pre (block_postings a ap) rp a.trigram a.len
                  hout.2.1]
            rw [htoa, amem_cons]
            have hih := hres.2.2.2.2 t d
            rw [hre] at hih
            rw [hih]
            have hrhs : toAssoc (a :: as2) ap =
                (a.trigram, block_postings a ap) :: toAssoc as2 ap := by
              unfold toAssoc
              rw [List.map_cons]
            rw [hrhs, amem_cons]
            tauto
        · rw [miGo_eq a b as2 bs2 ap bp pre.length htri] at heq
          rcases hR : miGo as2 bs2 ap bp
              (pre.length + (merge_sorted_dedup (block_postings a ap)
                (block_postings b bp)).length) with ⟨rb, rp⟩
          rw [hR] at heq
          injection heq with h1x h2x
          subst h1x
          subst h2x
          have hm0 : pre.length % 2 ^ 32 = pre.length :=
            Nat.mod_eq_of_lt (by omega)
          have hm2 : (merge_sorted_dedup (block_postings a ap)
              (block_postings b bp)).length % 2 ^ 32 =
              (merge_sorted_dedup (block_postings a ap)
                (block_postings b bp)).length := by
            apply Nat.mod_eq_of_lt
            have hb' := hbnd
            simp only [List.length_append] at hb'
            omega
          rw [hm0, hm2]
          have houta := hba a (List.mem_cons_self _ _)
          have houtb := hbb b (List.mem_cons_self _ _)
          have hmsd := msd_spec
            ((block_postings a ap).length + (block_postings b bp).length)
            (block_postings a ap) (block_postings b bp) le_rfl houta.1 houtb.1
          have hmsne : merge_sorted_dedup (block_postings a ap)
              (block_postings b bp) ≠ [] := by
            refine msd_ne_nil _ _ (Or.inl ?_)
            intro habs
            have := houta.2.1
            rw [habs] at this
            simp at this
            omega
          have hR' : miGo as2 bs2 ap bp
              (pre ++ merge_sorted_dedup (block_postings a ap)
                (block_postings b bp)).length = (rb, rp) := by
            simpa using hR
          have hres := ih as2 bs2 ap bp
            (pre ++ merge_sorted_dedup (block_postings a ap)
              (block_postings b bp)) rb rp
            (by simp at hlen ⊢; omega) (List.pairwise_cons.1 ha).2
            (List.pairwise_cons.1 hb).2
            (fun x hx => hba x (List.mem_cons_of_mem _ hx))
            (fun x hx => hbb x (List.mem_cons_of_mem _ hx))
            (by simp only [List.length_append] at hbnd ⊢; omega) hR'
          have hre : (pre ++ merge_sorted_dedup (block_postings a ap)
              (block_postings b bp)) ++ rp =
              pre ++ (merge_sorted_dedup (block_postings a ap)
                (block_postings b bp) ++ rp) := by simp
          refine ⟨?_, ?_, ?_, ?_, ?_⟩
          · refine ⟨rfl, ?_⟩
            have h1 := hres.1
            rw [hre] at h1
            have h2 : (pre ++ merge_sorted_dedup (block_postings a ap)
                (block_postings b bp)).length =
                pre.length + (merge_sorted_dedup (block_postings a ap)
                  (block_postings b bp)).length := by
              simp
            rw [h2] at h1
            exact h1
          · rw [List.pairwise_cons]
            refine ⟨?_, hres.2.1⟩
            intro z hz
            rcases hres.2.2.1 z hz with ⟨x, hx, hxt⟩
            show a.trigram < z.trigram
            rcases hx with hx | hx
            · have := (List.pairwise_cons.1 ha).1 x hx
              omega
            · have := (List.pairwise_cons.1 hb).1 x hx
              omega
          · intro z hz
            rcases List.mem_cons.1 hz with h1 | h1
            · exact ⟨a, Or.inl (List.mem_cons_self _ _), by rw [h1]⟩
            · rcases hres.2.2.1 z h1 with ⟨x, hx, hxt⟩
              rcases hx with hx | hx
              · exact ⟨x, Or.inl (List.mem_cons_of_mem _ hx), hxt⟩
              · exact ⟨x, Or.inr (List.mem_cons_of_mem _ hx), hxt⟩
          · intro z hz
            rcases List.mem_cons.1 hz with h1 | h1
            · subst h1
              rw [slice_here pre (merge_sorted_dedup (block_postings a ap)
                (block_postings b bp)) rp a.trigram _ rfl]
              refine ⟨hmsd.1, rfl, ?_⟩
              exact List.length_pos.2 hmsne
            · have h2 := hres.2.2.2.1 z h1
              rw [hre] at h2
              exact h2
          · intro t d
            have htoa : toAssoc (⟨a.trigram, pre.length,
                (merge_sorted_dedup (block_postings a ap)
                  (block_postings b bp)).length⟩ :: rb)
                (pre ++ (merge_sorted_dedup (block_postings a ap)
                  (block_postings b bp) ++ rp)) =
                (a.trigram, merge_sorted_dedup (block_postings a ap)
                  (block_postings b bp)) ::
                  toAssoc rb (pre ++ (merge_sorted_dedup (block_postings a ap)
                    (block_postings b bp) ++ rp)) := by
              unfold toAssoc
              rw [List.map_cons,
                slice_here pre (merge_sorted_dedup (block_postings a ap)
                  (block_postings b bp)) rp a.trigram _ rfl]
            rw [htoa, amem_cons]
            have hih := hres.2.2.2.2 t d
            rw [hre] at hih
            rw [hih]
            have hrhsa : toAssoc (a :: as2) ap =
                (a.trigram, block_postings a ap) :: toAssoc as2 ap := by
              unfold toAssoc
              rw [List.map_cons]
            have hrhsb : toAssoc (b :: bs2) bp =
                (b.trigram, block_postings b bp) :: toAssoc bs2 bp := by
              unfold toAssoc
              rw [List.map_cons]
            rw [hrhsa, hrhsb, amem_cons, amem_cons]
            constructor
            · rintro (⟨h1, h2⟩ | (h | h))
              · rcases (hmsd.2 d).1 h2 with h3 | h3
                · exact Or.inl (Or.inl ⟨h1, h3⟩)
                · refine Or.inr (Or.inl ⟨?_, h3⟩)
                  rw [← htri]
                  exact h1
              · exact Or.inl (Or.inr h)
              · exact Or.inr (Or.inr h)
            · rintro ((⟨h1, h2⟩ | h) | (⟨h1, h2⟩ | h))
              · exact Or.inl ⟨h1, (hmsd.2 d).2 (Or.inl h2)⟩
              · exact Or.inr (Or.inl h)
              · refine Or.inl ⟨?_, (hmsd.2 d).2 (Or.inr h2)⟩
                rw [htri]
                exact h1
              · exact Or.inr (Or.inr h)
        · rw [miGo_gt a b as2 bs2 ap bp pre.length htri] at heq
          rcases hR : miGo (a :: as2) bs2 ap bp
              (pre.length + (block_postings b bp).length) with ⟨rb, rp⟩
          rw [hR] at heq
          injection heq with h1x h2x
          subst h1x
          subst h2x
          have hm0 : pre.length % 2 ^ 32 = pre.length :=
            Nat.mod_eq_of_lt (by omega)
          rw [hm0]
          have hout := hbb b (List.mem_cons_self _ _)
          have hR' : miGo (a :: as2) bs2 ap bp
              (pre ++ block_postings b bp).length = (rb, rp) := by
            simpa using hR
          have hres := ih (a :: as2) bs2 ap bp (pre ++ block_postings b bp) rb rp
            (by simp at hlen ⊢; omega) ha (List.pairwise_cons.1 hb).2 hba
            (fun x hx => hbb x (List.mem_cons_of_mem _ hx))
            (by simp only [List.length_append] at hbnd ⊢; omega) hR'
          have hre : (pre ++ block_postings b bp) ++ rp =
              pre ++ (block_postings b bp ++ rp) := by simp
          refine ⟨?_, ?_, ?_, ?_, ?_⟩
          · refine ⟨rfl, ?_⟩
            have h1 := hres.1
            rw [hre] at h1
            have h2 : (pre ++ block_postings b bp).length =
                pre.length + b.len := by
              simp [hout.2.1]
            rw [h2] at h1
            exact h1
          · rw [List.pairwise_cons]
            refine ⟨?_, hres.2.1⟩
            intro z hz
            rcases hres.2.2.1 z hz with ⟨x, hx, hxt⟩
            show b.trigram < z.trigram
            rcases hx with hx | hx
            · rcases List.mem_cons.1 hx with h1 | h1
              · rw [h1] at hxt
                omega
              · have := (List.pairwise_cons.1 ha).1 x h1
                omega
            · have := (List.pairwise_cons.1 hb).1 x hx
              omega
          · intro z hz
            rcases List.mem_cons.1 hz with h1 | h1
            · exact ⟨b, Or.inr (List.mem_cons_self _ _), by rw [h1]⟩
            · rcases hres.2.2.1 z h1 with ⟨x, hx, hxt⟩
              rcases hx with hx | hx
              · exact ⟨x, Or.inl hx, hxt⟩
              · exact ⟨x, Or.inr (List.mem_cons_of_mem _ hx), hxt⟩
          · intro z hz
            rcases List.mem_cons.1 hz with h1 | h1
            · subst h1
              rw [slice_here pre (block_postings b bp) rp b.trigram b.len
                hout.2.1]
              exact ⟨hout.1, hout.2.1, hout.2.2⟩
            · have h2 := hres.2.2.2.1 z h1
              rw [hre] at h2
              exact h2
          · intro t d
            have htoa : toAssoc (⟨b.trigram, pre.length, b.len⟩ :: rb)
                (pre ++ (block_postings b bp ++ rp)) =
                (b.trigram, block_postings b bp) ::
                  toAssoc rb (pre ++ (block_postings b bp ++ rp)) := by
              unfold toAssoc
              rw [List.map_cons,
                slice_here pre (block_postings b bp) rp b.trigram b.len
                  hout.2.1]
            rw [htoa, amem_cons]
            have hih := hres.2.2.2.2 t d
            rw [hre] at hih
            rw [hih]
            have hrhs : toAssoc (b :: bs2) bp =
                (b.trigram, block_postings b bp) :: toAssoc bs2 bp := by
              unfold toAssoc
              rw [List.map_cons]
            rw [hrhs, amem_cons]
            tauto

theorem idLower_valid : ValidLower idLower := by
  intro c x hx
  simp [idLower] at hx
  omega

theorem utf8Char_lt (c : Nat) (h : c < 1114112) : ∀ b ∈ utf8Char c, b < 256 := by
  intro b hb
  unfold utf8Char at hb
  split at hb
  · simp at hb
    omega
  · split at hb
    · simp at hb
      rcases hb with hb | hb <;> omega
    · split at hb
      · simp at hb
        rcases hb with hb | hb | hb <;> omega
      · simp at hb
        rcases hb with hb | hb | hb | hb <;> omega

theorem utf8_lt (s : List Nat) (h : ∀ c ∈ s, c < 1114112) :
    ∀ b ∈ utf8 s, b < 256 := by
  intro b hb
  unfold utf8 at hb
  rw [List.mem_flatMap] at hb
  obtain ⟨c, hc, hbc⟩ := hb
  exact utf8Char_lt c (h c hc) b hbc

theorem fold_lt (l : Nat) (h : l < 1114112) : fold_latin1 l < 1114112 := by
  rcases fold_cases l with h1 | h1 | h1 <;> omega

theorem emitStep_scalars (strip : Bool) (acc : List Nat × Bool) (l : Nat)
    (hacc : ∀ c ∈ acc.1, c < 1114112) (hl : l < 1114112) :
    ∀ c ∈ (emitStep strip acc l).1, c < 1114112 := by
  intro c hc
  cases strip with
  | false =>
    simp [emitStep] at hc
    rcases hc with hc | hc
    · exact hacc c hc
    · omega
  | true =>
    by_cases h0 : fold_latin1 l = 0
    · simp [emitStep, h0] at hc
      exact hacc c hc
    · simp [emitStep, h0] at hc
      rcases hc with hc | hc
      · exact hacc c hc
      · have := fold_lt l hl
        omega

theorem foldl_emit_scalars (strip : Bool) : ∀ (ls : List Nat)
    (acc : List Nat × Bool), (∀ c ∈ acc.1, c < 1114112) →
    (∀ l ∈ ls, l < 1114112) →
    ∀ c ∈ (ls.foldl (emitStep strip) acc).1, c < 1114112 := by
  intro ls
  induction ls with
  | nil =>
    intro acc hacc _
    simpa using hacc
  | cons l ls ih =>
    intro acc hacc hls
    rw [List.foldl_cons]
    exact ih (emitStep strip acc l)
      (emitStep_scalars strip acc l hacc (hls l (List.mem_cons_self _ _)))
      (fun x hx => hls x (List.mem_cons_of_mem _ hx))

theorem normStep_scalars (strip : Bool) (lower : Nat → List Nat)
    (hlow : ValidLower lower) (acc : List Nat × Bool) (c : Nat)
    (hacc : ∀ x ∈ acc.1, x < 1114112) :
    ∀ x ∈ (normStep strip lower acc c).1, x < 1114112 := by
  intro x hx
  unfold normStep at hx
  split at hx
  · split at hx
    · split at hx
      · exact hacc x hx
      · simp at hx
        rcases hx with hx | hx
        · exact hacc x hx
        · omega
    · simp at hx
      rcases hx with hx | hx
      · exact hacc x hx
      · have := lowtab_lt c (by omega)
        omega
  · exact foldl_emit_scalars strip (lower c) acc hacc
      (fun l hl => hlow c l hl) x hx

theorem foldl_norm_scalars (strip : Bool) (lower : Nat → List Nat)
    (hlow : ValidLower lower) : ∀ (inp : List Nat) (acc : List Nat × Bool),
    (∀ x ∈ acc.1, x < 1114112) →
    ∀ x ∈ (inp.foldl (normStep strip lower) acc).1, x < 1114112 := by
  intro inp
  induction inp with
  | nil =>
    intro acc hacc
    simpa using hacc
  | cons c cs ih =>
    intro acc hacc
    rw [List.foldl_cons]
    exact ih (normStep strip lower acc c) (normStep_scalars strip lower hlow acc c hacc)

theorem norm_scalars (strip : Bool) (lower : Nat → List Nat)
    (hlow : ValidLower lower) (input : List Nat) :
    ∀ x ∈ normalize_into strip lower input, x < 1114112 := by
  intro x hx
  have hall := foldl_norm_scalars strip lower hlow input (([] : List Nat), false)
    (by simp)
  unfold normalize_into at hx
  dsimp only at hx
  split at hx
  · exact hall x ((List.dropLast_sublist _).subset hx)
  · exact hall x hx

theorem norm_bytes_lt (strip : Bool) (lower : Nat → List Nat)
    (hlow : ValidLower lower) (input : List Nat) :
    ∀ b ∈ utf8 (normalize_into strip lower input), b < 256 :=
  utf8_lt _ (norm_scalars strip lower hlow input)

theorem windows3_lt (bytes : List Nat) (h : ∀ b ∈ bytes, b < 256) :
    ∀ t ∈ windows3 bytes, t < 2 ^ 24 := by
  intro t ht
  unfold windows3 at ht
  rw [List.mem_map] at ht
  obtain ⟨i, hi, hti⟩ := ht
  rw [List.mem_range] at hi
  subst hti
  have h0 : bytes.getD i 0 < 256 := by
    rw [List.getD_eq_getElem bytes 0 (by omega)]
    exact h _ (List.getElem_mem _)
  have h1 : bytes.getD (i + 1) 0 < 256 := by
    rw [List.getD_eq_getElem bytes 0 (by omega)]
    exact h _ (List.getElem_mem _)
  have h2 : bytes.getD (i + 2) 0 < 256 := by
    rw [List.getD_eq_getElem bytes 0 (by omega)]
    exact h _ (List.getElem_mem _)
  unfold packTri
  omega

theorem windows3_short (bytes : List Nat) (h : bytes.length < 3) :
    windows3 bytes = [] := by
  unfold windows3
  have : bytes.length - 2 = 0 := by omega
  rw [this]
  rfl

theorem take_drop_append (l ext : List Nat) (off len : Nat)
    (h : off + len ≤ l.length) :
    ((l ++ ext).drop off).take len = (l.drop off).take len := by
  rw [List.drop_append_of_le_length (by omega),
    List.take_append_of_le_length (by simp; omega)]

theorem push_eq (a : Arena) (bytes : List Nat) (id : Nat) (ar : Arena)
    (hp : a.push bytes = some (id, ar)) :
    bytes.length ≤ 65535 ∧ id = a.spans.length % 2 ^ 32 ∧
    ar = ⟨a.buffer ++ bytes,
      a.spans ++ [⟨a.buffer.length % 2 ^ 32, bytes.length⟩]⟩ := by
  unfold Arena.push at hp
  by_cases hlen : bytes.length > 65535
  · rw [if_pos hlen] at hp
    cases hp
  · rw [if_neg hlen] at hp
    injection hp with h1
    injection h1 with h2 h3
    exact ⟨by omega, h2.symm, h3.symm⟩

theorem get_append_old (buf ext : List Nat) (spans : List DocSpan)
    (snew : DocSpan) (i : Nat)
    (hok : ∀ s ∈ spans, s.off + s.len ≤ buf.length) (hi : i < spans.length) :
    Arena.get ⟨buf ++ ext, spans ++ [snew]⟩ i = Arena.get ⟨buf, spans⟩ i := by
  unfold Arena.get
  show ((spans ++ [snew]).get? i).map _ = (spans.get? i).map _
  rw [List.get?_append hi]
  cases hs : spans.get? i with
  | none => rfl
  | some s =>
    simp only [Option.map_some']
    congr 1
    exact take_drop_append buf ext s.off s.len (hok s (List.get?_mem hs))

theorem get_push_new (buf ext : List Nat) (spans : List DocSpan)
    (hb : buf.length < 2 ^ 32) :
    Arena.get ⟨buf ++ ext, spans ++ [⟨buf.length % 2 ^ 32, ext.length⟩]⟩
      spans.length = some ext := by
  have hm : buf.length % 2 ^ 32 = buf.length := Nat.mod_eq_of_lt hb
  rw [hm]
  unfold Arena.get
  show ((spans ++ [(⟨buf.length, ext.length⟩ : DocSpan)]).get?
    spans.length).map _ = _
  rw [List.get?_concat_length]
  simp only [Option.map_some']
  rw [List.drop_left, List.take_length]

theorem get_some_of_lt (a : Arena) (i : Nat) (h : i < a.spans.length) :
    ∃ bytes, a.get i = some bytes ∧
      (∀ b ∈ bytes, b ∈ a.buffer) := by
  unfold Arena.get
  rw [List.get?_eq_get h]
  refine ⟨_, rfl, ?_⟩
  intro b hb
  exact List.drop_subset _ _ (List.take_subset _ _ hb)

theorem add_success_ok (lower : Nat → List Nat) (st : Lattice)
    (hok : StateOK st) (nb : List Nat) (hnb : ∀ b ∈ nb, b < 256) :
    StateOK { st with
      documents := ⟨st.documents.buffer ++ nb,
        st.documents.spans ++
          [⟨st.documents.buffer.length % 2 ^ 32, nb.length⟩]⟩,
      doc_lengths := st.doc_lengths ++ [nb.length],
      documents_added := (st.documents_added + 1) % 2 ^ 64,
      temp_trigrams := st.temp_trigrams ++
        (if 3 ≤ nb.length then (windows3 nb).map
          (fun t => (⟨t, st.documents.spans.length % 2 ^ 32⟩ : TempTrigramEntry))
         else []),
      needs_rebuild := st.needs_rebuild || 3 ≤ nb.length } := by
  refine ⟨?_, ?_, ?_, ?_⟩
  · intro b hb
    rcases List.mem_append.1 hb with h | h
    · exact hok.1 b h
    · exact hnb b h
  · intro e he
    rcases List.mem_append.1 he with h | h
    · exact hok.2.1 e h
    · by_cases h3 : 3 ≤ nb.length
      · rw [if_pos h3] at h
        rw [List.mem_map] at h
        obtain ⟨t, ht, heq⟩ := h
        subst heq
        refine ⟨windows3_lt nb hnb t ht, ?_⟩
        show st.documents.spans.length % 2 ^ 32 < 2 ^ 32
        exact Nat.mod_lt _ (by norm_num)
      · rw [if_neg h3] at h
        cases h
  · intro hfl
    have hfl' : st.needs_rebuild = false ∧ ¬ 3 ≤ nb.length := by
      have : (st.needs_rebuild || decide (3 ≤ nb.length)) = false := hfl
      simp at this
      exact ⟨this.1, by omega⟩
    show st.temp_trigrams ++ _ = []
    rw [hok.2.2.1 hfl'.1, if_neg hfl'.2]
    rfl
  · intro hbuf
    have hbuf' : st.documents.buffer.length + nb.length < 2 ^ 32 := by
      have := hbuf
      simp only [List.length_append] at this
      exact this
    have hbuf0 : st.documents.buffer.length < 2 ^ 32 := by omega
    obtain ⟨hC, hPW, hBO, hSp, hSz, hMem⟩ := hok.2.2.2 hbuf0
    have hmod : st.documents.buffer.length % 2 ^ 32 =
        st.documents.buffer.length := Nat.mod_eq_of_lt hbuf0
    have hgetold : ∀ i, i < st.documents.spans.length →
        Arena.get ⟨st.documents.buffer ++ nb,
          st.documents.spans ++
            [⟨st.documents.buffer.length % 2 ^ 32, nb.length⟩]⟩ i =
        st.documents.get i := by
      intro i hi
      refine get_append_old st.documents.buffer nb st.documents.spans
        ⟨st.documents.buffer.length % 2 ^ 32, nb.length⟩ i hSp hi
    have hgetnew : Arena.get ⟨st.documents.buffer ++ nb,
        st.documents.spans ++
          [⟨st.documents.buffer.length % 2 ^ 32, nb.length⟩]⟩
        st.documents.spans.length = some nb :=
      get_push_new st.documents.buffer nb st.documents.spans hbuf0
    refine ⟨hC, hPW, hBO, ?_, ?_, ?_⟩
    · intro s hs
      rcases List.mem_append.1 hs with h | h
      · have := hSp s h
        simp only [List.length_append]
        omega
      · simp at h
        subst h
        show st.documents.buffer.length % 2 ^ 32 + nb.length ≤
          (st.documents.buffer ++ nb).length
        rw [hmod, List.length_append]
    · show st.postings.length + (st.temp_trigrams ++ _).length ≤
        (st.documents.buffer ++ nb).length
      by_cases h3 : 3 ≤ nb.length
      · rw [if_pos h3]
        simp only [List.length_append, List.length_map, windows3_length]
        omega
      · rw [if_neg h3]
        simp only [List.length_append, List.length_nil]
        omega
    · intro t d
      constructor
      · rintro (hA | hT)
        · obtain ⟨i, hi, hdi, bytes, hbg, htw⟩ := (hMem t d).1 (Or.inl hA)
          refine ⟨i, by simp; omega, hdi, bytes, ?_, htw⟩
          rw [hgetold i hi]
          exact hbg
        · rcases List.mem_append.1 hT with h | h
          · obtain ⟨i, hi, hdi, bytes, hbg, htw⟩ := (hMem t d).1 (Or.inr h)
            refine ⟨i, by simp; omega, hdi, bytes, ?_, htw⟩
            rw [hgetold i hi]
            exact hbg
          · by_cases h3 : 3 ≤ nb.length
            · rw [if_pos h3] at h
              rw [List.mem_map] at h
              obtain ⟨t', ht', heq⟩ := h
              have h1 : t' = t := congrArg TempTrigramEntry.trigram heq
              have h2 : st.documents.spans.length % 2 ^ 32 = d :=
                congrArg TempTrigramEntry.doc heq
              subst h1
              refine ⟨st.documents.spans.length, by simp, h2.symm, nb, ?_, ht'⟩
              exact hgetnew
            · rw [if_neg h3] at h
              cases h
      · rintro ⟨i, hi, hdi, bytes, hbg, htw⟩
        have hi' : i < st.documents.spans.length + 1 := by
          simpa using hi
        by_cases hilt : i < st.documents.spans.length
        · rw [hgetold i hilt] at hbg
          rcases (hMem t d).2 ⟨i, hilt, hdi, bytes, hbg, htw⟩ with h | h
          · exact Or.inl h
          · exact Or.inr (List.mem_append_left _ h)
        · have hieq : i = st.documents.spans.length := by omega
          subst hieq
          rw [hgetnew] at hbg
          injection hbg with hbb
          subst hbb
          refine Or.inr (List.mem_append_right _ ?_)
          have h3 : 3 ≤ nb.length := by
            by_contra hc
            rw [windows3_short nb (by omega)] at htw
            cases htw
          rw [if_pos h3, List.mem_map]
          refine ⟨t, htw, ?_⟩
          rw [hdi]

theorem add_ok (lower : Nat → List Nat) (hlow : ValidLower lower)
    (st : Lattice) (hok : StateOK st) (content : List Nat) :
    StateOK (st.add lower content).2 := by
  unfold Lattice.add
  by_cases h1 : (utf8 content).length > MAX_DOCUMENT_LENGTH
  · rw [if_pos h1]
    exact hok
  · rw [if_neg h1]
    by_cases h2 : contains_invalid_controls (utf8 content) = true
    · rw [if_pos h2]
      exact hok
    · rw [if_neg h2]
      cases hp : st.documents.push
          (utf8 (normalize_into st.normStrip lower content)) with
      | none =>
        exact hok
      | some pr =>
        obtain ⟨doc_id, ar⟩ := pr
        obtain ⟨hblen, hid, har⟩ := push_eq _ _ _ _ hp
        subst har
        subst hid
        exact add_success_ok lower st hok
          (utf8 (normalize_into st.normStrip lower content))
          (norm_bytes_lt st.normStrip lower hlow content)

theorem assocok_of (bs : List PostingBlock) (ps : List Nat)
    (hpw : bs.Pairwise (fun x y => x.trigram < y.trigram))
    (hbo : BlockOut bs ps) : AssocOK (toAssoc bs ps) := by
  constructor
  · unfold toAssoc
    rw [List.pairwise_map]
    exact hpw
  · intro p hp
    unfold toAssoc at hp
    rw [List.mem_map] at hp
    obtain ⟨b, hb, heq⟩ := hp
    subst heq
    have h := hbo b hb
    refine ⟨h.1, ?_⟩
    intro habs
    have habs' : block_postings b ps = [] := habs
    have h2 := h.2.1
    rw [habs'] at h2
    simp at h2
    have := h.2.2
    omega

theorem rebuild_ok (st : Lattice) (hok : StateOK st) :
    StateOK st.rebuild_index := by
  unfold Lattice.rebuild_index
  by_cases h1 : st.temp_trigrams = []
  · rw [if_pos h1]
    refine ⟨hok.1, hok.2.1, fun _ => h1, ?_⟩
    intro hbuf
    exact hok.2.2.2 hbuf
  · rw [if_neg h1]
    dsimp only
    have hbounds := hok.2.1
    rcases hB : build_blocks_from_sorted (sort_trigrams st.temp_trigrams)
      with ⟨db, dp⟩
    have hdple : dp.length ≤ st.temp_trigrams.length := by
      have h := build_len_le (sort_trigrams st.temp_trigrams)
      rw [hB] at h
      calc dp.length ≤ (sort_trigrams st.temp_trigrams).length := h
        _ = st.temp_trigrams.length :=
          (sort_trigrams_perm _ hbounds).length_eq
    by_cases h2 : st.blocks = []
    · rw [if_pos h2]
      refine ⟨hok.1, ?_, fun _ => rfl, ?_⟩
      · intro e he
        cases he
      · intro hbuf
        have hbuf' : st.documents.buffer.length < 2 ^ 32 := hbuf
        obtain ⟨hC, hPW, hBO, hSp, hSz, hMem⟩ := hok.2.2.2 hbuf'
        have hdp : dp.length < 2 ^ 32 := by omega
        have hbuild := build_spec _ (sort_trigrams_sorted _ hbounds) db dp
          hdp hB
        have hmemtemp : ∀ t d, AMem (toAssoc db dp) t d ↔
            (⟨t, d⟩ : TempTrigramEntry) ∈ st.temp_trigrams := by
          intro t d
          rw [hbuild.2.2.2 t d]
          exact (sort_trigrams_perm _ hbounds).mem_iff
        refine ⟨hbuild.1, hbuild.2.1, hbuild.2.2.1, hSp, ?_, ?_⟩
        · show dp.length + ([] : List TempTrigramEntry).length ≤
            st.documents.buffer.length
          simp only [List.length_nil]
          omega
        · intro t d
          have hnil : toAssoc st.blocks st.postings = [] := by
            rw [h2]
            rfl
          constructor
          · rintro (hA | hT)
            · exact (hMem t d).1 (Or.inr ((hmemtemp t d).1 hA))
            · cases hT
          · intro hD
            rcases (hMem t d).2 hD with hA | hT
            · rw [hnil] at hA
              exact absurd hA (amem_nil t d)
            · exact Or.inl ((hmemtemp t d).2 hT)
    · rw [if_neg h2]
      dsimp only
      rcases hM : merge_indexes st.blocks st.postings db dp with ⟨mb, mp⟩
      dsimp only
      refine ⟨hok.1, ?_, fun _ => rfl, ?_⟩
      · intro e he
        cases he
      · intro hbuf
        have hbuf' : st.documents.buffer.length < 2 ^ 32 := hbuf
        obtain ⟨hC, hPW, hBO, hSp, hSz, hMem⟩ := hok.2.2.2 hbuf'
        have hdp : dp.length < 2 ^ 32 := by omega
        have hbuild := build_spec _ (sort_trigrams_sorted _ hbounds) db dp
          hdp hB
        have hmemtemp : ∀ t d, AMem (toAssoc db dp) t d ↔
            (⟨t, d⟩ : TempTrigramEntry) ∈ st.temp_trigrams := by
          intro t d
          rw [hbuild.2.2.2 t d]
          exact (sort_trigrams_perm _ hbounds).mem_iff
        have hM' : miGo st.blocks db st.postings dp 0 = (mb, mp) := hM
        have hsuma : (st.blocks.map
            (fun a => (block_postings a st.postings).length)).sum =
            st.postings.length := by
          have he : st.blocks.map
              (fun a => (block_postings a st.postings).length) =
              st.blocks.map PostingBlock.len :=
            List.map_congr_left (fun a ha => (hBO a ha).2.1)
          rw [he]
          have := contig_sum st.blocks 0 st.postings.length hC
          omega
        have hsumb : (db.map (fun b => (block_postings b dp).length)).sum =
            dp.length := by
          have he : db.map (fun b => (block_postings b dp).length) =
              db.map PostingBlock.len :=
            List.map_congr_left (fun b hb => (hbuild.2.2.1 b hb).2.1)
          rw [he]
          have := contig_sum db 0 dp.length hbuild.1
          omega
        have hmple : mp.length ≤ st.postings.length + dp.length := by
          have h := miGo_len_le (st.blocks.length + db.length) st.blocks db
            st.postings dp 0 le_rfl
          rw [hM'] at h
          rw [hsuma, hsumb] at h
          exact h
        have hmp : mp.length < 2 ^ 32 := by omega
        have hmi := miGo_spec (st.blocks.length + db.length) st.blocks db
          st.postings dp [] mb mp le_rfl hPW hbuild.2.1 hBO
          hbuild.2.2.1 (by simpa using hmp) hM
        have hc := hmi.1
        have hbo := hmi.2.2.2.1
        have hmem := hmi.2.2.2.2
        simp only [List.nil_append, List.length_nil] at hc hbo hmem
        refine ⟨hc, hmi.2.1, hbo, hSp, ?_, ?_⟩
        · show mp.length + ([] : List TempTrigramEntry).length ≤
            st.documents.buffer.length
          simp only [List.length_nil]
          omega
        · intro t d
          constructor
          · rintro (hA | hT)
            · rcases (hmem t d).1 hA with h | h
              · exact (hMem t d).1 (Or.inl h)
              · exact (hMem t d).1 (Or.inr ((hmemtemp t d).1 h))
            · cases hT
          · intro hD
            rcases (hMem t d).2 hD with hA | hT
            · exact Or.inl ((hmem t d).2 (Or.inl hA))
            · exact Or.inl ((hmem t d).2 (Or.inr ((hmemtemp t d).2 hT)))

theorem search_state (lower : Nat → List Nat) (st0 : Lattice) (q : List Nat)
    (lim : Nat) :
    (st0.search lower q lim).2 =
      { st0 with query_count := (st0.query_count + 1) % 2 ^ 64 } ∨
    (st0.search lower q lim).2 =
      { st0 with query_count := (st0.query_count + 1) % 2 ^ 64 }.rebuild_index := by
  unfold Lattice.search
  dsimp only
  split
  · left
    rfl
  · by_cases hnr : ({ st0 with query_count := (st0.query_count + 1) % 2 ^ 64 } :
        Lattice).needs_rebuild = true
    · rw [if_pos hnr]
      right
      rfl
    · rw [if_neg hnr]
      left
      rfl

theorem search_ok (lower : Nat → List Nat) (st : Lattice) (hok : StateOK st)
    (q : List Nat) (lim : Nat) : StateOK (st.search lower q lim).2 := by
  have hst1 : StateOK { st with query_count := (st.query_count + 1) % 2 ^ 64 } :=
    ⟨hok.1, hok.2.1, hok.2.2.1, hok.2.2.2⟩
  rcases search_state lower st q lim with h | h
  · rw [h]
    exact hst1
  · rw [h]
    exact rebuild_ok _ hst1

theorem reachable_ok (lower : Nat → List Nat) (hlow : ValidLower lower)
    (st : Lattice) (hr : Reachable lower st) : StateOK st := by
  induction hr with
  | new =>
    refine ⟨?_, ?_, fun _ => rfl, ?_⟩
    · intro b hb
      cases hb
    · intro e he
      cases he
    · intro hbuf
      refine ⟨rfl, List.Pairwise.nil, ?_, ?_, ?_, ?_⟩
      · intro b hb
        cases hb
      · intro s hs
        cases hs
      · exact Nat.le_refl 0
      · intro t d
        constructor
        · rintro (h | h)
          · exact absurd h (amem_nil t d)
          · cases h
        · rintro ⟨i, hi, -⟩
          have hz : Lattice.new.documents.spans.length = 0 := rfl
          omega
  | withConfig cfg =>
    refine ⟨?_, ?_, fun _ => rfl, ?_⟩
    · intro b hb
      cases hb
    · intro e he
      cases he
    · intro hbuf
      refine ⟨rfl, List.Pairwise.nil, ?_, ?_, ?_, ?_⟩
      · intro b hb
        cases hb
      · intro s hs
        cases hs
      · exact Nat.le_refl 0
      · intro t d
        constructor
        · rintro (h | h)
          · exact absurd h (amem_nil t d)
          · cases h
        · rintro ⟨i, hi, -⟩
          have hz : (Lattice.with_config cfg).documents.spans.length = 0 := rfl
          omega
  | add st' c hr' ih => exact add_ok lower hlow st' ih c
  | search st' q' lim' hr' ih => exact search_ok lower st' ih q' lim'

/-- C4: after any sequence of `add` and `search` calls (from either
constructor, any lowercase map yielding scalar values) in which the arena
stays below `2 ^ 32` bytes — the regime where the builder's `u32` offsets
are value-preserving — the block table is strictly ascending by trigram,
its ranges are contiguous from offset 0 and cover the postings vector, and
every posting list is strictly ascending (of the recorded length). -/
theorem c4_invariants (lower : Nat → List Nat) (st : Lattice)
    (hlow : ValidLower lower) (hr : Reachable lower st)
    (hbuf : st.documents.buffer.length < 2 ^ 32) :
    Contig st.blocks 0 st.postings.length ∧
    st.blocks.Pairwise (fun x y => x.trigram < y.trigram) ∧
    ∀ b ∈ st.blocks,
      (block_postings b st.postings).Pairwise (fun x y => x < y) ∧
      (block_postings b st.postings).length = b.len := by
  have h := (reachable_ok lower hlow st hr).2.2.2 hbuf
  exact ⟨h.1, h.2.1, fun b hb => ⟨(h.2.2.1 b hb).1, (h.2.2.1 b hb).2.1⟩⟩

/-- C4 witness: the invariants at the concrete state reached by adding one
document and searching once (which rebuilds the index). -/
theorem c4_witness :
    ValidLower idLower ∧
    Reachable idLower
      ((Lattice.new.add idLower [97, 98, 99]).2.search idLower
        [97, 98, 99] 10).2 ∧
    ((Lattice.new.add idLower [97, 98, 99]).2.search idLower
        [97, 98, 99] 10).2.documents.buffer.length < 2 ^ 32 ∧
    (Contig ((Lattice.new.add idLower [97, 98, 99]).2.search idLower
          [97, 98, 99] 10).2.blocks 0
        ((Lattice.new.add idLower [97, 98, 99]).2.search idLower
          [97, 98, 99] 10).2.postings.length ∧
      ((Lattice.new.add idLower [97, 98, 99]).2.search idLower
          [97, 98, 99] 10).2.blocks.Pairwise
        (fun x y => x.trigram < y.trigram) ∧
      ∀ b ∈ ((Lattice.new.add idLower [97, 98, 99]).2.search idLower
          [97, 98, 99] 10).2.blocks,
        (block_postings b ((Lattice.new.add idLower [97, 98, 99]).2.search
            idLower [97, 98, 99] 10).2.postings).Pairwise (fun x y => x < y) ∧
        (block_postings b ((Lattice.new.add idLower [97, 98, 99]).2.search
            idLower [97, 98, 99] 10).2.postings).length = b.len) :=
  ⟨idLower_valid, Reachable.search _ _ _ (Reachable.add _ _ Reachable.new),
    by decide,
    c4_invariants idLower _ idLower_valid
      (Reachable.search _ _ _ (Reachable.add _ _ Reachable.new))
      (by decide)⟩

/-- C1 amended: in a reachable state whose index is clean
(`needs_rebuild = false`, which `search` only guarantees when it does not
return before the rebuild — a nonzero limit and a nonempty index), with at
most 2^32 stored documents and with the arena below `2 ^ 32` bytes (so the
`u32` span offsets and block offsets the engine stores are
value-preserving), a trigram `t` carries doc id `d` in its posting list iff
`t` occurs as a 3-byte window of document `d`'s stored normalized bytes. -/
theorem c1_amended (lower : Nat → List Nat) (st : Lattice)
    (hlow : ValidLower lower) (hr : Reachable lower st)
    (hnr : st.needs_rebuild = false)
    (hcount : st.documents.spans.length ≤ 2 ^ 32)
    (hbuf : st.documents.buffer.length < 2 ^ 32) :
    ∀ t d, AMem (toAssoc st.blocks st.postings) t d ↔
      ∃ bytes, st.documents.get d = some bytes ∧ t ∈ windows3 bytes := by
  have h := reachable_ok lower hlow st hr
  have htemp := h.2.2.1 hnr
  intro t d
  have hp := (h.2.2.2 hbuf).2.2.2.2.2 t d
  rw [htemp] at hp
  constructor
  · intro hA
    obtain ⟨i, hi, hdi, bytes, hb, ht⟩ := hp.1 (Or.inl hA)
    have hmod : i % 2 ^ 32 = i := Nat.mod_eq_of_lt (by omega)
    rw [hdi, hmod]
    exact ⟨bytes, hb, ht⟩
  · rintro ⟨bytes, hb, ht⟩
    have hd : d < st.documents.spans.length := by
      unfold Arena.get at hb
      cases hsp : st.documents.spans.get? d with
      | none =>
        rw [hsp] at hb
        cases hb
      | some s =>
        obtain ⟨hlen, -⟩ := List.get?_eq_some.1 hsp
        exact hlen
    rcases hp.2 ⟨d, hd, (Nat.mod_eq_of_lt (by omega)).symm, bytes, hb, ht⟩ with
      hA | hA
    · exact hA
    · cases hA

/-- C1 counterexample: the claim reads "the index has been rebuilt" as "a
search was executed after the last add", but a `search` with limit 0
returns before the rebuild.  After adding "abc" and searching with limit 0,
document 0's normalized text contains the window "abc", yet the posting
lists are still empty. -/
theorem c1_counterexample :
    ¬ AMem (toAssoc ((Lattice.new.add idLower [97, 98, 99]).2.search idLower
        [120, 121, 122] 0).2.blocks
      ((Lattice.new.add idLower [97, 98, 99]).2.search idLower
        [120, 121, 122] 0).2.postings) (packTri 97 98 99) 0 ∧
    ((Lattice.new.add idLower [97, 98, 99]).2.search idLower
        [120, 121, 122] 0).2.documents.get 0 = some [97, 98, 99] ∧
    packTri 97 98 99 ∈ windows3 [97, 98, 99] := by
  refine ⟨by decide, by decide, by decide⟩

/-- C1 witness: the amended characterization applied after add "abc" and a
rebuilding search, evaluated at the trigram of "abc" and doc 0. -/
theorem c1_witness :
    ValidLower idLower ∧
    Reachable idLower ((Lattice.new.add idLower [97, 98, 99]).2.search idLower
      [97, 98, 99] 10).2 ∧
    ((Lattice.new.add idLower [97, 98, 99]).2.search idLower
      [97, 98, 99] 10).2.needs_rebuild = false ∧
    ((Lattice.new.add idLower [97, 98, 99]).2.search idLower
      [97, 98, 99] 10).2.documents.spans.length ≤ 2 ^ 32 ∧
    ((Lattice.new.add idLower [97, 98, 99]).2.search idLower
      [97, 98, 99] 10).2.documents.buffer.length < 2 ^ 32 ∧
    (∀ t d, AMem (toAssoc ((Lattice.new.add idLower [97, 98, 99]).2.search
          idLower [97, 98, 99] 10).2.blocks
        ((Lattice.new.add idLower [97, 98, 99]).2.search idLower
          [97, 98, 99] 10).2.postings) t d ↔
      ∃ bytes, ((Lattice.new.add idLower [97, 98, 99]).2.search idLower
          [97, 98, 99] 10).2.documents.get d = some bytes ∧
        t ∈ windows3 bytes) :=
  ⟨idLower_valid, Reachable.search _ _ _ (Reachable.add _ _ Reachable.new),
    by decide, by decide, by decide,
    c1_amended idLower _ idLower_valid
      (Reachable.search _ _ _ (Reachable.add _ _ Reachable.new))
      (by decide) (by decide) (by decide)⟩

theorem rebuild_fields (st : Lattice) :
    st.rebuild_index.documents = st.documents ∧
    st.rebuild_index.needs_rebuild = false ∧
    st.rebuild_index.temp_trigrams = [] := by
  unfold Lattice.rebuild_index
  by_cases h1 : st.temp_trigrams = []
  · rw [if_pos h1]
    exact ⟨rfl, rfl, h1⟩
  · rw [if_neg h1]
    dsimp only
    by_cases h2 : st.blocks = []
    · rw [if_pos h2]
      exact ⟨rfl, rfl, rfl⟩
    · rw [if_neg h2]
      exact ⟨rfl, rfl, rfl⟩

theorem allEntries_mem (st : Lattice) (t d : Nat) :
    (⟨t, d⟩ : TempTrigramEntry) ∈ allEntries st ↔ DocTri st t d := by
  unfold allEntries DocTri
  rw [List.mem_flatMap]
  constructor
  · rintro ⟨i, hi, hm⟩
    rw [List.mem_range] at hi
    rw [List.mem_map] at hm
    obtain ⟨t', ht', heq⟩ := hm
    have h1 : t' = t := congrArg TempTrigramEntry.trigram heq
    have h2 : i % 2 ^ 32 = d := congrArg TempTrigramEntry.doc heq
    subst h1
    obtain ⟨bytes, hbg, -⟩ := get_some_of_lt st.documents i hi
    refine ⟨i, hi, h2.symm, bytes, hbg, ?_⟩
    rw [hbg] at ht'
    exact ht'
  · rintro ⟨i, hi, hdi, bytes, hbg, htw⟩
    refine ⟨i, List.mem_range.2 hi, ?_⟩
    rw [List.mem_map]
    refine ⟨t, ?_, ?_⟩
    · rw [hbg]
      exact htw
    · rw [hdi]

theorem allEntries_bounds (st : Lattice)
    (hA : ∀ b ∈ st.documents.buffer, b < 256) :
    ∀ e ∈ allEntries st, e.trigram < 2 ^ 24 ∧ e.doc < 2 ^ 32 := by
  intro e he
  unfold allEntries at he
  rw [List.mem_flatMap] at he
  obtain ⟨i, hi, hm⟩ := he
  rw [List.mem_range] at hi
  rw [List.mem_map] at hm
  obtain ⟨t, ht, heq⟩ := hm
  subst heq
  constructor
  · show t < 2 ^ 24
    obtain ⟨bytes, hbg, hsub⟩ := get_some_of_lt st.documents i hi
    rw [hbg] at ht
    exact windows3_lt bytes (fun b hb => hA b (hsub b hb)) t ht
  · show i % 2 ^ 32 < 2 ^ 32
    exact Nat.mod_lt _ (by norm_num)

theorem canonical_pair (bs1 : List PostingBlock) (ps1 : List Nat)
    (bs2 : List PostingBlock) (ps2 : List Nat)
    (hc1 : Contig bs1 0 ps1.length) (hc2 : Contig bs2 0 ps2.length)
    (hl1 : ∀ b ∈ bs1, (block_postings b ps1).length = b.len)
    (hl2 : ∀ b ∈ bs2, (block_postings b ps2).length = b.len)
    (h : toAssoc bs1 ps1 = toAssoc bs2 ps2) :
    bs1 = bs2 ∧ ps1 = ps2 := by
  refine ⟨canonical_eq bs1 ps1 bs2 ps2 0 hc1 hc2 hl1 hl2 h, ?_⟩
  have h1 := contig_join ps1 bs1 0 hc1 hl1
  have h2 := contig_join ps2 bs2 0 hc2 hl2
  rw [List.drop_zero] at h1 h2
  have hm1 : (bs1.map fun b => block_postings b ps1) =
      (toAssoc bs1 ps1).map Prod.snd := by
    unfold toAssoc
    rw [List.map_map]
    rfl
  have hm2 : (bs2.map fun b => block_postings b ps2) =
      (toAssoc bs2 ps2).map Prod.snd := by
    unfold toAssoc
    rw [List.map_map]
    rfl
  rw [h1, h2, hm1, hm2, h]

/-- C5: for every reachable state whose arena holds fewer than `2 ^ 32`
bytes and whose concatenated entry list has fewer than `2 ^ 32` entries —
the regime where every `u32` offset the builder and the merge write is
value-preserving — the incremental rebuild (delta build plus merge-join
with the committed index) produces exactly the blocks and postings of a
cold rebuild from the concatenated (trigram, doc id) entries of every
stored document. -/
theorem c5_cold_rebuild (lower : Nat → List Nat) (st : Lattice)
    (hlow : ValidLower lower) (hr : Reachable lower st)
    (hbuf : st.documents.buffer.length < 2 ^ 32)
    (hall : (allEntries st).length < 2 ^ 32) :
    st.rebuild_index.blocks =
      (build_blocks_from_sorted (sort_trigrams (allEntries st))).1 ∧
    st.rebuild_index.postings =
      (build_blocks_from_sorted (sort_trigrams (allEntries st))).2 := by
  have hok := reachable_ok lower hlow st hr
  have hok' := rebuild_ok st hok
  obtain ⟨hdoc, hflag, htempr⟩ := rebuild_fields st
  have hbuf' : st.rebuild_index.documents.buffer.length < 2 ^ 32 := by
    rw [hdoc]
    exact hbuf
  have hcond' := hok'.2.2.2 hbuf'
  have hincr : ∀ t d,
      AMem (toAssoc st.rebuild_index.blocks st.rebuild_index.postings) t d ↔
      DocTri st t d := by
    intro t d
    have hp := hcond'.2.2.2.2.2 t d
    rw [htempr] at hp
    have hDeq : DocTri st.rebuild_index t d ↔ DocTri st t d := by
      unfold DocTri
      rw [hdoc]
    rw [← hDeq]
    constructor
    · intro h
      exact hp.1 (Or.inl h)
    · intro h
      rcases hp.2 h with h1 | h1
      · exact h1
      · cases h1
  have hbounds := allEntries_bounds st hok.1
  rcases hC : build_blocks_from_sorted (sort_trigrams (allEntries st))
    with ⟨cb, cp⟩
  have hcp : cp.length < 2 ^ 32 := by
    have h := build_len_le (sort_trigrams (allEntries st))
    rw [hC] at h
    dsimp only at h
    have hlen : (sort_trigrams (allEntries st)).length =
        (allEntries st).length := (sort_trigrams_perm _ hbounds).length_eq
    omega
  have hcold := build_spec _ (sort_trigrams_sorted _ hbounds) cb cp hcp hC
  have hcoldmem : ∀ t d, AMem (toAssoc cb cp) t d ↔ DocTri st t d := by
    intro t d
    rw [hcold.2.2.2 t d, (sort_trigrams_perm _ hbounds).mem_iff]
    exact allEntries_mem st t d
  have hassoc : toAssoc st.rebuild_index.blocks st.rebuild_index.postings =
      toAssoc cb cp := by
    apply assoc_unique
    · exact assocok_of _ _ hcond'.2.1 hcond'.2.2.1
    · exact assocok_of _ _ hcold.2.1 hcold.2.2.1
    · intro t d
      rw [hincr t d, hcoldmem t d]
  have hpair := canonical_pair st.rebuild_index.blocks
    st.rebuild_index.postings cb cp hcond'.1 hcold.1
    (fun b hb => (hcond'.2.2.1 b hb).2.1)
    (fun b hb => (hcold.2.2.1 b hb).2.1) hassoc
  exact ⟨hpair.1, hpair.2⟩

/-! ### Order and stability of the result pipeline -/

theorem pairwise_orderedInsert {α : Type} (r : α → α → Prop) [DecidableRel r]
    (q : α → α → Prop) (x : α) : ∀ (l : List α),
    (∀ y ∈ l, q x y) → l.Pairwise (fun a b => r b a → q a b) →
    (List.orderedInsert r x l).Pairwise (fun a b => r b a → q a b) := by
  intro l
  induction l with
  | nil =>
    intro hx hl
    exact List.pairwise_singleton _ _
  | cons y ys ih =>
    intro hx hl
    rw [List.orderedInsert]
    by_cases hr : r x y
    · rw [if_pos hr, List.pairwise_cons]
      refine ⟨?_, hl⟩
      intro z hz _
      exact hx z hz
    · rw [if_neg hr, List.pairwise_cons]
      have hly := List.pairwise_cons.1 hl
      refine ⟨?_, ih (fun z hz => hx z (List.mem_cons_of_mem _ hz)) hly.2⟩
      intro z hz
      rcases (List.mem_orderedInsert r).1 hz with h1 | h1
      · subst h1
        intro hxy
        exact absurd hxy hr
      · intro hzy
        exact hly.1 z h1 hzy

theorem pairwise_insertionSort {α : Type} (r : α → α → Prop) [DecidableRel r]
    (q : α → α → Prop) : ∀ (l : List α), l.Pairwise q →
    (l.insertionSort r).Pairwise (fun a b => r b a → q a b) := by
  intro l
  induction l with
  | nil =>
    intro h
    exact List.Pairwise.nil
  | cons x xs ih =>
    intro hl
    rw [List.insertionSort]
    have hx := List.pairwise_cons.1 hl
    refine pairwise_orderedInsert r q x _ ?_ (ih hx.2)
    intro y hy
    exact hx.1 y ((List.perm_insertionSort r xs).mem_iff.1 hy)

theorem binSearchGo_lt (bs : List PostingBlock) (t : Nat) :
    ∀ (fuel left right idx : Nat), right ≤ bs.length →
    binSearchGo bs t left right fuel = some idx → idx < bs.length := by
  intro fuel
  induction fuel with
  | zero =>
    intro left right idx _ h
    cases h
  | succ n ih =>
    intro left right idx hr h
    rw [binSearchGo] at h
    dsimp only at h
    by_cases hlr : left < right
    · rw [if_pos hlr] at h
      have hmid : left + (right - left) / 2 < right := by omega
      by_cases hb1 : (bs.getD (left + (right - left) / 2) ⟨0, 0, 0⟩).trigram < t
      · rw [if_pos hb1] at h
        exact ih _ right idx hr h
      · rw [if_neg hb1] at h
        by_cases hb2 : t < (bs.getD (left + (right - left) / 2) ⟨0, 0, 0⟩).trigram
        · rw [if_pos hb2] at h
          exact ih left _ idx (by omega) h
        · rw [if_neg hb2] at h
          injection h with h1
          omega
    · rw [if_neg hlr] at h
      cases h

theorem find_block_lt (bs : List PostingBlock) (t idx : Nat)
    (h : find_block bs t = some idx) : idx < bs.length := by
  unfold find_block at h
  exact binSearchGo_lt bs t (bs.length + 1) 0 bs.length idx le_rfl h

theorem queryTrigrams_block (st : Lattice) (qb : List Nat) :
    ∀ qt ∈ queryTrigrams st qb,
      ∃ b ∈ st.blocks, qt.off = b.off ∧ qt.len = b.len := by
  intro qt hqt
  unfold queryTrigrams at hqt
  rw [List.mem_filterMap] at hqt
  obtain ⟨i, hi, hopt⟩ := hqt
  rcases hfb : find_block st.blocks
      (packTri (qb.getD i 0) (qb.getD (i + 1) 0) (qb.getD (i + 2) 0))
    with _ | idx
  · rw [hfb] at hopt
    cases hopt
  · rw [hfb] at hopt
    simp only [Option.map_some'] at hopt
    injection hopt with h1
    have hlt := find_block_lt _ _ _ hfb
    refine ⟨st.blocks.getD idx ⟨0, 0, 0⟩, ?_, ?_, ?_⟩
    · rw [List.getD_eq_getElem _ _ hlt]
      exact List.getElem_mem _
    · rw [← h1]
    · rw [← h1]

theorem hard_intersect_docs_sublist (bonus : Nat) :
    ∀ (cs : List Candidate) (ps : List Nat),
    ((hard_intersect bonus cs ps).map (fun c => c.doc)).Sublist
      (cs.map fun c => c.doc) := by
  intro cs
  induction cs with
  | nil =>
    intro ps
    exact List.Sublist.refl _
  | cons c cs ih =>
    intro ps
    rw [hard_intersect]
    cases hdw : ps.dropWhile (fun p => decide (p < c.doc)) with
    | nil =>
      simp only [List.map_cons]
      exact (ih []).cons _
    | cons p rest =>
      dsimp only
      by_cases hp : p = c.doc
      · rw [if_pos hp]
        simp only [List.map_cons]
        exact (ih rest).cons₂ _
      · rw [if_neg hp]
        simp only [List.map_cons]
        exact (ih (p :: rest)).cons _

theorem soft_merge_docs (bonus : Nat) : ∀ (cs : List Candidate) (ps : List Nat),
    (soft_merge bonus cs ps).map (fun c => c.doc) = cs.map fun c => c.doc := by
  intro cs
  induction cs with
  | nil =>
    intro ps
    rfl
  | cons c cs ih =>
    intro ps
    rw [soft_merge]
    cases hdw : ps.dropWhile (fun p => decide (p < c.doc)) with
    | nil =>
      simp only [List.map_cons]
      rw [ih []]
    | cons p rest =>
      dsimp only
      by_cases hp : p = c.doc
      · rw [if_pos hp]
        simp only [List.map_cons]
        rw [ih rest]
      · rw [if_neg hp]
        simp only [List.map_cons]
        rw [ih (p :: rest)]

theorem foldl_preserve {α β : Type} (P : α → Prop) (f : α → β → α)
    (h : ∀ a b, P a → P (f a b)) : ∀ (l : List β) (a : α), P a →
    P (l.foldl f a) := by
  intro l
  induction l with
  | nil =>
    intro a ha
    exact ha
  | cons b bs ih =>
    intro a ha
    rw [List.foldl_cons]
    exact ih _ (h a b ha)

theorem docasc_hard (bonus : Nat) (cs : List Candidate) (ps : List Nat)
    (h : DocAsc cs) : DocAsc (hard_intersect bonus cs ps) := by
  unfold DocAsc at *
  have h1 : ((hard_intersect bonus cs ps).map (fun c => c.doc)).Pairwise
      (fun x y => x < y) :=
    List.Pairwise.sublist (hard_intersect_docs_sublist bonus cs ps)
      (List.pairwise_map.2 h)
  rw [List.pairwise_map] at h1
  exact h1

theorem docasc_soft (bonus : Nat) (cs : List Candidate) (ps : List Nat)
    (h : DocAsc cs) : DocAsc (soft_merge bonus cs ps) := by
  unfold DocAsc at *
  have h1 : ((soft_merge bonus cs ps).map (fun c => c.doc)).Pairwise
      (fun x y => x < y) := by
    rw [soft_merge_docs]
    exact List.pairwise_map.2 h
  rw [List.pairwise_map] at h1
  exact h1

theorem getD_zero_mem {α : Type} (l : List α) (d : α) (h : l ≠ []) :
    l.getD 0 d ∈ l := by
  cases l with
  | nil => exact absurd rfl h
  | cons x xs => exact List.mem_cons_self _ _

theorem seed_docasc (bs : List PostingBlock) (ps : List Nat)
    (hbo : BlockOut bs ps) (qt0 : QueryTrigram)
    (hqt : ∃ b ∈ bs, qt0.off = b.off ∧ qt0.len = b.len) :
    DocAsc (seedCands ps qt0) := by
  obtain ⟨b, hb, hoff, hlen⟩ := hqt
  unfold DocAsc seedCands
  rw [List.pairwise_map]
  have hsl : sliceP ps qt0.off qt0.len = block_postings b ps := by
    unfold sliceP block_postings
    rw [hoff, hlen]
  rw [hsl]
  exact (hbo b hb).1

theorem hardPhase_docasc (ps : List Nat) (L : List QueryTrigram)
    (cs : List Candidate) (h : DocAsc cs) : DocAsc (hardPhase ps L cs) :=
  foldl_preserve DocAsc _ (fun a b ha => docasc_hard b.bonus a _ ha) L cs h

theorem softPhase_docasc (ps : List Nat) (L : List QueryTrigram)
    (cs : List Candidate) (h : DocAsc cs) : DocAsc (softPhase ps L cs) :=
  foldl_preserve DocAsc _ (fun a b ha => docasc_soft b.bonus a _ ha) L cs h

theorem scoreCands_docasc (dl : List Nat) (total : Nat) (cs : List Candidate)
    (h : DocAsc cs) :
    (scoreCands dl total cs).Pairwise (fun a b => a.doc < b.doc) := by
  unfold scoreCands
  rw [List.pairwise_map]
  exact h

theorem resord_sort (rs : List SearchResult)
    (h : rs.Pairwise (fun a b => a.doc < b.doc)) :
    ResOrd (rs.insertionSort resLe) := by
  unfold ResOrd
  have h1 := List.sorted_insertionSort resLe rs
  have h2 := pairwise_insertionSort resLe (fun a b => a.doc < b.doc) rs h
  have h3 := List.Pairwise.and h1 h2
  exact h3.imp (fun hab => ⟨hab.1, hab.2⟩)

theorem resord_sorted_le (rs : List SearchResult) (h : ResOrd rs) :
    rs.Sorted resLe := by
  unfold ResOrd at h
  exact h.imp (fun hab => hab.1)

theorem trunc_sort_ord (limit : Nat) (rs : List SearchResult)
    (h : rs.Pairwise (fun a b => a.doc < b.doc)) :
    ((truncTop limit rs).insertionSort resLe).length ≤ limit ∧
    ResOrd ((truncTop limit rs).insertionSort resLe) := by
  unfold truncTop
  by_cases htr : rs.length > limit
  · rw [if_pos htr]
    have hsorted : ((rs.insertionSort resLe).take limit).Sorted resLe :=
      List.Pairwise.sublist (List.take_sublist _ _)
        (List.sorted_insertionSort resLe rs)
    have hord : ResOrd ((rs.insertionSort resLe).take limit) :=
      List.Pairwise.sublist (List.take_sublist _ _) (resord_sort rs h)
    rw [List.Sorted.insertionSort_eq hsorted]
    refine ⟨?_, hord⟩
    rw [List.length_take]
    exact Nat.min_le_left _ _
  · rw [if_neg htr]
    refine ⟨?_, resord_sort rs h⟩
    rw [(List.perm_insertionSort resLe rs).length_eq]
    omega

theorem searchCore_ord (bs : List PostingBlock) (ps dl : List Nat)
    (ratio : ℚ) (hbo : BlockOut bs ps) (qts : List QueryTrigram)
    (hqts : ∀ qt ∈ qts, ∃ b ∈ bs, qt.off = b.off ∧ qt.len = b.len)
    (limit : Nat) :
    (searchCore ps dl ratio qts limit).length ≤ limit ∧
    ResOrd (searchCore ps dl ratio qts limit) := by
  unfold searchCore
  dsimp only
  split
  · exact ⟨Nat.zero_le _, List.Pairwise.nil⟩
  · split
    · exact ⟨Nat.zero_le _, List.Pairwise.nil⟩
    · have hseed : DocAsc (seedCands ps
          ((qts.insertionSort qtLe).getD 0 ⟨0, 0, 0⟩)) := by
        by_cases hne : qts.insertionSort qtLe = []
        · rw [hne]
          unfold DocAsc seedCands sliceP
          simp
        · refine seed_docasc bs ps hbo _ ?_
          refine hqts _ ((List.perm_insertionSort qtLe qts).mem_iff.1 ?_)
          exact getD_zero_mem _ ⟨0, 0, 0⟩ hne
      exact trunc_sort_ord limit _ (scoreCands_docasc dl _ _
        (softPhase_docasc ps _ _ (hardPhase_docasc ps _ _ hseed)))

theorem searchResults_order (lower : Nat → List Nat) (st : Lattice)
    (hbo : BlockOut st.blocks st.postings) (q : List Nat) (lim : Nat) :
    (searchResults lower st q lim).length ≤ lim ∧
    ResOrd (searchResults lower st q lim) := by
  unfold searchResults
  dsimp only
  split
  · exact ⟨Nat.zero_le _, List.Pairwise.nil⟩
  · split
    · exact ⟨Nat.zero_le _, List.Pairwise.nil⟩
    · split
      · exact ⟨Nat.zero_le _, List.Pairwise.nil⟩
      · exact searchCore_ord st.blocks st.postings st.doc_lengths
          st.config.minOverlap hbo _ (queryTrigrams_block st _) lim

/-! ### Counting the hard-intersection phase -/

theorem dropWhile_head_not {α : Type} (p : α → Bool) : ∀ (l : List α)
    (x : α) (xs : List α), l.dropWhile p = x :: xs → p x = false := by
  intro l
  induction l with
  | nil =>
    intro x xs h
    cases h
  | cons a as ih =>
    intro x xs h
    rw [List.dropWhile_cons] at h
    by_cases hp : p a = true
    · rw [if_pos hp] at h
      exact ih x xs h
    · rw [if_neg hp] at h
      injection h with h1 h2
      subst h1
      cases hpa : p a with
      | false => rfl
      | true => exact absurd hpa hp

theorem hard_intersect_docs (bonus : Nat) : ∀ (cs : List Candidate)
    (ps : List Nat), DocAsc cs → ps.Pairwise (fun x y => x < y) →
    (hard_intersect bonus cs ps).map (fun c => c.doc) =
      (cs.map fun c => c.doc).filter (fun d => decide (d ∈ ps)) := by
  intro cs
  induction cs with
  | nil =>
    intro ps _ _
    rfl
  | cons c cs ih =>
    intro ps hca hps
    have hcs := List.pairwise_cons.1 hca
    rw [hard_intersect]
    cases hdw : ps.dropWhile (fun p => decide (p < c.doc)) with
    | nil =>
      dsimp only
      have hall : ∀ x ∈ ps, x < c.doc := by
        intro x hx
        exact of_decide_eq_true (List.dropWhile_eq_nil_iff.1 hdw x hx)
      rw [ih [] hcs.2 List.Pairwise.nil]
      have hc0 : decide (c.doc ∈ ps) = false := by
        rw [decide_eq_false_iff_not]
        intro hmem
        exact absurd (hall _ hmem) (lt_irrefl _)
      rw [List.map_cons, List.filter_cons, hc0]
      simp only [Bool.false_eq_true, if_false]
      have h1 : (cs.map fun c => c.doc).filter
          (fun d => decide (d ∈ ([] : List Nat))) = [] := by
        simp
      have h2 : (cs.map fun c => c.doc).filter
          (fun d => decide (d ∈ ps)) = [] := by
        rw [List.filter_eq_nil_iff]
        intro d hd
        obtain ⟨cc, hcc, hccd⟩ := List.mem_map.1 hd
        subst hccd
        simp only [decide_eq_true_eq]
        intro hmem
        have h3 := hall _ hmem
        have h4 := hcs.1 cc hcc
        omega
      rw [h1, h2]
    | cons p rest =>
      dsimp only
      have hpre : ∀ x ∈ ps.takeWhile (fun p => decide (p < c.doc)),
          x < c.doc := by
        intro x hx
        have h := List.mem_takeWhile_imp hx
        exact of_decide_eq_true h
      have hpnot : ¬ p < c.doc := by
        have h := dropWhile_head_not _ ps p rest hdw
        simpa using h
      have hpsplit : ps.takeWhile (fun p => decide (p < c.doc)) ++
          (p :: rest) = ps := by
        rw [← hdw]
        exact List.takeWhile_append_dropWhile _ _
      have hsuffix : (p :: rest).Pairwise (fun x y => x < y) := by
        have hsub := List.dropWhile_sublist (fun p => decide (p < c.doc))
          (l := ps)
        rw [hdw] at hsub
        exact List.Pairwise.sublist hsub hps
      have hrest := List.pairwise_cons.1 hsuffix
      have hmemiff : ∀ d, c.doc < d → (d ∈ ps ↔ d ∈ p :: rest) := by
        intro d hd
        rw [← hpsplit, List.mem_append]
        constructor
        · rintro (h | h)
          · have := hpre d h
            omega
          · exact h
        · exact Or.inr
      by_cases hp : p = c.doc
      · subst hp
        rw [if_pos rfl]
        simp only [List.map_cons]
        rw [ih rest hcs.2 hrest.2]
        rw [List.filter_cons]
        have hcdoc : decide (c.doc ∈ ps) = true := by
          rw [decide_eq_true_eq, ← hpsplit]
          exact List.mem_append_right _ (List.mem_cons_self _ _)
        rw [hcdoc, if_pos rfl]
        congr 1
        apply List.filter_congr
        intro d hd
        obtain ⟨cc, hcc, hccd⟩ := List.mem_map.1 hd
        subst hccd
        have hgt : c.doc < cc.doc := hcs.1 cc hcc
        refine decide_eq_decide.2 (Iff.symm ?_)
        rw [hmemiff _ hgt]
        constructor
        · intro h
          rcases List.mem_cons.1 h with h1 | h1
          · omega
          · exact h1
        · exact List.mem_cons_of_mem _
      · rw [if_neg hp]
        rw [ih (p :: rest) hcs.2 hsuffix]
        rw [List.map_cons, List.filter_cons]
        have hcdoc : decide (c.doc ∈ ps) = false := by
          rw [decide_eq_false_iff_not]
          intro hmem
          rw [← hpsplit, List.mem_append] at hmem
          rcases hmem with h | h
          · exact absurd (hpre _ h) (lt_irrefl _)
          · rcases List.mem_cons.1 h with h1 | h1
            · exact hp h1.symm
            · exact absurd (hrest.1 _ h1) hpnot
        rw [hcdoc]
        simp only [Bool.false_eq_true, if_false]
        apply List.filter_congr
        intro d hd
        obtain ⟨cc, hcc, hccd⟩ := List.mem_map.1 hd
        subst hccd
        exact decide_eq_decide.2 (hmemiff _ (hcs.1 cc hcc)).symm

theorem hardPhase_docs (ps : List Nat) : ∀ (L : List QueryTrigram)
    (cs : List Candidate),
    (∀ qt ∈ L, (sliceP ps qt.off qt.len).Pairwise
      (fun x y => x < y)) →
    DocAsc cs →
    (hardPhase ps L cs).map (fun c => c.doc) =
      (cs.map fun c => c.doc).filter
        (fun d => L.all fun qt =>
          decide (d ∈ sliceP ps qt.off qt.len)) := by
  intro L
  induction L with
  | nil =>
    intro cs _ _
    unfold hardPhase
    rw [List.foldl_nil]
    simp
  | cons qt L ih =>
    intro cs hL hca
    show (hardPhase ps (qt :: L) cs).map (fun c => c.doc) = _
    unfold hardPhase
    rw [List.foldl_cons]
    have h1 := ih (hard_intersect qt.bonus cs
        (sliceP ps qt.off qt.len))
      (fun x hx => hL x (List.mem_cons_of_mem _ hx))
      (docasc_hard _ _ _ hca)
    unfold hardPhase at h1
    rw [h1]
    rw [hard_intersect_docs qt.bonus cs _ hca (hL qt (List.mem_cons_self _ _))]
    rw [List.filter_filter]
    apply List.filter_congr
    intro d hd
    rw [List.all_cons]
    exact Bool.and_comm _ _

theorem softPhase_docs (ps : List Nat) : ∀ (L : List QueryTrigram)
    (cs : List Candidate),
    (softPhase ps L cs).map (fun c => c.doc) = cs.map fun c => c.doc := by
  intro L
  induction L with
  | nil =>
    intro cs
    rfl
  | cons qt L ih =>
    intro cs
    show (softPhase ps (qt :: L) cs).map (fun c => c.doc) = _
    unfold softPhase
    rw [List.foldl_cons]
    have h1 := ih (soft_merge qt.bonus cs (sliceP ps qt.off qt.len))
    unfold softPhase at h1
    rw [h1, soft_merge_docs]

theorem seed_docasc_sorted (bs : List PostingBlock) (ps : List Nat)
    (hbo : BlockOut bs ps) (qts : List QueryTrigram)
    (hqts : ∀ qt ∈ qts, ∃ b ∈ bs, qt.off = b.off ∧ qt.len = b.len) :
    DocAsc (seedCands ps ((qts.insertionSort qtLe).getD 0 ⟨0, 0, 0⟩)) := by
  by_cases hne : qts.insertionSort qtLe = []
  · rw [hne]
    unfold DocAsc seedCands sliceP
    simp
  · refine seed_docasc bs ps hbo _ ?_
    refine hqts _ ((List.perm_insertionSort qtLe qts).mem_iff.1 ?_)
    exact getD_zero_mem _ ⟨0, 0, 0⟩ hne

theorem slice_sorted (bs : List PostingBlock) (ps : List Nat)
    (hbo : BlockOut bs ps) (qts : List QueryTrigram)
    (hqts : ∀ qt ∈ qts, ∃ b ∈ bs, qt.off = b.off ∧ qt.len = b.len) :
    ∀ qt ∈ qts.insertionSort qtLe,
      (sliceP ps qt.off qt.len).Pairwise (fun x y => x < y) := by
  intro qt hqt
  obtain ⟨b, hb, hoff, hlen⟩ := hqts qt
    ((List.perm_insertionSort qtLe qts).mem_iff.1 hqt)
  have hs : sliceP ps qt.off qt.len = block_postings b ps := by
    unfold sliceP block_postings
    rw [hoff, hlen]
  rw [hs]
  exact (hbo b hb).1

theorem searchCore_count (bs : List PostingBlock) (ps dl : List Nat)
    (ratio : ℚ) (hbo : BlockOut bs ps) (qts : List QueryTrigram)
    (hqts : ∀ qt ∈ qts, ∃ b ∈ bs, qt.off = b.off ∧ qt.len = b.len)
    (lim : Nat)
    (hg1 : ¬ ((qts.insertionSort qtLe).getD 0 ⟨0, 0, 0⟩).len >
      MAX_SEED_POSTING_LIST)
    (hg2 : ¬ ((qts.insertionSort qtLe).getD 0 ⟨0, 0, 0⟩).len > MAX_CANDIDATES)
    (hfit : selectiveCount ps ratio qts ≤ lim) :
    (searchCore ps dl ratio qts lim).length = selectiveCount ps ratio qts := by
  have hseed := seed_docasc_sorted bs ps hbo qts hqts
  have hslice := slice_sorted bs ps hbo qts hqts
  have hseeddocs : (seedCands ps ((qts.insertionSort qtLe).getD 0 ⟨0, 0, 0⟩)).map
      (fun c => c.doc) =
      sliceP ps ((qts.insertionSort qtLe).getD 0 ⟨0, 0, 0⟩).off
        ((qts.insertionSort qtLe).getD 0 ⟨0, 0, 0⟩).len := by
    unfold seedCands
    rw [List.map_map]
    have hco : ((fun c => c.doc) ∘ (fun d =>
        ({ doc := d, matches' :=
          ((qts.insertionSort qtLe).getD 0 ⟨0, 0, 0⟩).bonus } : Candidate))) =
        fun d => d := rfl
    rw [hco]
    exact List.map_id' _
  have hc1docs := hardPhase_docs ps
    (((qts.insertionSort qtLe).drop 1).take
      (required_end (qts.insertionSort qtLe).length ratio - 1))
    (seedCands ps ((qts.insertionSort qtLe).getD 0 ⟨0, 0, 0⟩))
    (fun qt hqt => hslice qt
      (List.drop_subset 1 _ (List.take_subset _ _ hqt)))
    hseed
  rw [hseeddocs] at hc1docs
  have hcount : selectiveCount ps ratio qts =
      (hardPhase ps
        (((qts.insertionSort qtLe).drop 1).take
          (required_end (qts.insertionSort qtLe).length ratio - 1))
        (seedCands ps ((qts.insertionSort qtLe).getD 0 ⟨0, 0, 0⟩))).length := by
    unfold selectiveCount
    dsimp only
    rw [← hc1docs, List.length_map]
  have hlen2 : (softPhase ps
      ((qts.insertionSort qtLe).drop
        (required_end (qts.insertionSort qtLe).length ratio))
      (hardPhase ps
        (((qts.insertionSort qtLe).drop 1).take
          (required_end (qts.insertionSort qtLe).length ratio - 1))
        (seedCands ps ((qts.insertionSort qtLe).getD 0 ⟨0, 0, 0⟩)))).length =
      (hardPhase ps
        (((qts.insertionSort qtLe).drop 1).take
          (required_end (qts.insertionSort qtLe).length ratio - 1))
        (seedCands ps ((qts.insertionSort qtLe).getD 0 ⟨0, 0, 0⟩))).length := by
    have h := congrArg List.length (softPhase_docs ps
      ((qts.insertionSort qtLe).drop
        (required_end (qts.insertionSort qtLe).length ratio))
      (hardPhase ps
        (((qts.insertionSort qtLe).drop 1).take
          (required_end (qts.insertionSort qtLe).length ratio - 1))
        (seedCands ps ((qts.insertionSort qtLe).getD 0 ⟨0, 0, 0⟩))))
    rw [List.length_map, List.length_map] at h
    exact h
  unfold searchCore
  dsimp only
  rw [if_neg hg1, if_neg hg2]
  rw [(List.perm_insertionSort resLe _).length_eq]
  unfold truncTop
  unfold scoreCands
  rw [List.length_map, hlen2]
  rw [if_neg (by omega)]
  rw [List.length_map, hlen2]
  omega

theorem queryTrigrams_blocks (st st' : Lattice) (h : st.blocks = st'.blocks)
    (qb : List Nat) : queryTrigrams st qb = queryTrigrams st' qb := by
  unfold queryTrigrams
  rw [h]

/-! ### Ground evaluation of the f32 overlap threshold at `total = 4` -/

theorem nat_size_eq (m k : Nat) (h1 : 2 ^ (k - 1) ≤ m) (h2 : m < 2 ^ k)
    (hk : 1 ≤ k) : m.size = k := by
  have ha : m.size ≤ k := Nat.size_le.2 h2
  have hb : k - 1 < m.size := Nat.lt_size.2 h1
  omega

theorem qnum : ((5033165 : ℚ) / 2 ^ 22).num = 5033165 := by
  have hco22 : Nat.Coprime 5033165 (2 ^ 22) :=
    Nat.Coprime.pow_right _ (Nat.coprime_two_right.2 (Nat.odd_iff.2 (by decide)))
  have hco2 : Nat.Coprime (Int.natAbs 5033165) (Int.natAbs ((2 : ℤ) ^ 22)) := by
    simp only [Int.natAbs_pow, Int.natAbs_ofNat]
    exact hco22
  have h := Rat.num_div_eq_of_coprime (show (0 : ℤ) < 2 ^ 22 by norm_num) hco2
  push_cast at h
  exact h

theorem qden : ((5033165 : ℚ) / 2 ^ 22).den = 2 ^ 22 := by
  have hco22 : Nat.Coprime 5033165 (2 ^ 22) :=
    Nat.Coprime.pow_right _ (Nat.coprime_two_right.2 (Nat.odd_iff.2 (by decide)))
  have hco2 : Nat.Coprime (Int.natAbs 5033165) (Int.natAbs ((2 : ℤ) ^ 22)) := by
    simp only [Int.natAbs_pow, Int.natAbs_ofNat]
    exact hco22
  have h := Rat.den_div_eq_of_coprime (show (0 : ℤ) < 2 ^ 22 by norm_num) hco2
  push_cast at h
  exact_mod_cast h

theorem clog2_q : clog2 ((5033165 : ℚ) / 2 ^ 22) = 1 := by
  unfold clog2
  rw [qnum, qden]
  have h1 : (Int.natAbs 5033165).size = 23 :=
    nat_size_eq _ 23 (by norm_num) (by norm_num) (by norm_num)
  have h2 : (2 ^ 22 : Nat).size = 23 :=
    nat_size_eq _ 23 (by norm_num) (by norm_num) (by norm_num)
  rw [h1, h2, abs_of_pos (show (0:ℚ) < (5033165 : ℚ) / 2 ^ 22 by norm_num)]
  norm_num

theorem round_q : roundF32 ((5033165 : ℚ) / 2 ^ 22) = (5033165 : ℚ) / 2 ^ 22 := by
  unfold roundF32
  rw [if_neg (by norm_num : ¬ (5033165 : ℚ) / 2 ^ 22 = 0)]
  dsimp only
  rw [clog2_q]
  rw [if_neg (by norm_num : ¬ (5033165 : ℚ) / 2 ^ 22 < 0)]
  have he : max ((1 : ℤ) - 24) (-149) = -23 := by decide
  rw [he]
  rw [abs_of_pos (by norm_num : (0:ℚ) < (5033165 : ℚ) / 2 ^ 22)]
  have hdiv : (5033165 : ℚ) / 2 ^ 22 / 2 ^ (-23 : ℤ) = ((10066330 : ℤ) : ℚ) := by
    rw [zpow_neg]
    norm_num
  rw [hdiv]
  have hrhe : rhe ((10066330 : ℤ) : ℚ) = 10066330 := by
    unfold rhe
    rw [Int.floor_intCast]
    dsimp only
    rw [if_pos (by norm_num)]
  rw [hrhe]
  rw [zpow_neg]
  push_cast
  norm_num

theorem required_end_four : required_end 4 ratioDefault = 2 := by
  unfold required_end ratioDefault
  have hq : ((4 : Nat) : ℚ) * (5033165 / 2 ^ 24) = (5033165 : ℚ) / 2 ^ 22 := by
    push_cast
    norm_num
  rw [hq, round_q]
  have hc : ⌈(5033165 : ℚ) / 2 ^ 22⌉ = 2 := by
    rw [Int.ceil_eq_iff]
    constructor <;> norm_num
  rw [hc]
  decide

/-- Strictly length-sorted lists of query trigrams are determined by their
multiset of elements. -/
theorem qt_strict_ext : ∀ (l1 l2 : List QueryTrigram), l1.Perm l2 →
    l1.Pairwise (fun a b => a.len < b.len) →
    l2.Pairwise (fun a b => a.len < b.len) → l1 = l2 := by
  intro l1
  induction l1 with
  | nil =>
    intro l2 hperm _ _
    exact (hperm.nil_eq).symm ▸ rfl
  | cons a t1 ih =>
    intro l2 hperm h1 h2
    cases l2 with
    | nil => exact absurd hperm.symm (by simp)
    | cons b t2 =>
      have hab : a = b := by
        have ha2 : a ∈ b :: t2 := hperm.mem_iff.1 (List.mem_cons_self _ _)
        have hb1 : b ∈ a :: t1 := hperm.mem_iff.2 (List.mem_cons_self _ _)
        rcases List.mem_cons.1 ha2 with h | h
        · exact h
        · rcases List.mem_cons.1 hb1 with h' | h'
          · exact h'.symm
          · have hba := (List.pairwise_cons.1 h2).1 a h
            have hab := (List.pairwise_cons.1 h1).1 b h'
            omega
      subst hab
      have hperm' : t1.Perm t2 := hperm.cons_inv
      rw [ih t2 hperm' (List.pairwise_cons.1 h1).2 (List.pairwise_cons.1 h2).2]

/-- When the lengths of the query trigrams are pairwise distinct, every
`qtLe`-sorted permutation of them — in particular whatever permutation the
source's `sort_unstable_by_key(|qt| qt.len)` produces — equals the model's
stable insertion sort, so the rendering of the unstable sort is exact on
such inputs. -/
theorem qt_sorted_unique (qts out : List QueryTrigram) (hperm : out.Perm qts)
    (hsort : out.Pairwise qtLe)
    (hdist : qts.Pairwise (fun a b => a.len ≠ b.len)) :
    out = qts.insertionSort qtLe := by
  have hdo : out.Pairwise (fun a b => a.len ≠ b.len) :=
    (hperm.pairwise_iff (fun h => h.symm)).2 hdist
  have hds : (qts.insertionSort qtLe).Pairwise (fun a b => a.len ≠ b.len) :=
    ((List.perm_insertionSort qtLe qts).pairwise_iff (fun h => h.symm)).2 hdist
  have hstrict1 : out.Pairwise (fun a b => a.len < b.len) := by
    have := hsort.and hdo
    exact this.imp (fun hab => by
      have h1 := hab.1
      have h2 := hab.2
      unfold qtLe at h1
      omega)
  have hstrict2 : (qts.insertionSort qtLe).Pairwise
      (fun a b => a.len < b.len) := by
    have := (List.sorted_insertionSort qtLe qts).and hds
    exact this.imp (fun hab => by
      have h1 := hab.1
      have h2 := hab.2
      unfold qtLe at h1
      omega)
  exact qt_strict_ext out (qts.insertionSort qtLe)
    (hperm.trans (List.perm_insertionSort qtLe qts).symm) hstrict1 hstrict2

/-- C2 amended: when `search` reaches its candidate pipeline (clean index,
nonempty index, nonzero limit, well-sized query, at least one retained
trigram, seed guards passed), the arena is below `2 ^ 32` bytes, the
retained posting lists have pairwise distinct lengths (so the source's
unstable length-sort has a unique sorted output and the pipeline is
independent of how that sort breaks ties) and the result set fits in
`limit`, the number of returned results equals the number of documents of
the most selective retained posting list that occur in every one of the
`required_end = min(max(1, ceil(k·ratio)), k)` most selective retained
lists — not the number of documents sharing `required` trigrams with the
query. -/
theorem c2_amended (lower : Nat → List Nat) (st0 : Lattice) (q : List Nat)
    (lim : Nat) (hlow : ValidLower lower) (hr : Reachable lower st0)
    (hnr : st0.needs_rebuild = false)
    (hne : st0.documents.spans.length ≠ 0) (hlim0 : lim ≠ 0)
    (hbuf : st0.documents.buffer.length < 2 ^ 32)
    (hql : ¬ (utf8 q).length > MAX_QUERY_LENGTH)
    (hqb : ¬ (utf8 (normalize_into st0.normStrip lower q)).length < 3)
    (hqts : queryTrigrams st0 (utf8 (normalize_into st0.normStrip lower q)) ≠ [])
    (hdist : (queryTrigrams st0 (utf8 (normalize_into st0.normStrip lower
        q))).Pairwise (fun a b => a.len ≠ b.len))
    (hg1 : ¬ (((queryTrigrams st0 (utf8 (normalize_into st0.normStrip lower
        q))).insertionSort qtLe).getD 0 ⟨0, 0, 0⟩).len > MAX_SEED_POSTING_LIST)
    (hg2 : ¬ (((queryTrigrams st0 (utf8 (normalize_into st0.normStrip lower
        q))).insertionSort qtLe).getD 0 ⟨0, 0, 0⟩).len > MAX_CANDIDATES)
    (hfit : selectiveCount st0.postings st0.config.minOverlap
      (queryTrigrams st0 (utf8 (normalize_into st0.normStrip lower q))) ≤ lim) :
    (st0.search lower q lim).1.length =
      selectiveCount st0.postings st0.config.minOverlap
        (queryTrigrams st0 (utf8 (normalize_into st0.normStrip lower q))) := by
  have hok := reachable_ok lower hlow st0 hr
  have hbo : BlockOut st0.blocks st0.postings := (hok.2.2.2 hbuf).2.2.1
  unfold Lattice.search
  dsimp only
  rw [if_neg (fun hc => hc.elim hne hlim0)]
  dsimp only
  rw [if_neg (show ¬ st0.needs_rebuild = true by rw [hnr]; simp)]
  unfold searchResults
  dsimp only
  rw [if_neg hql]
  rw [if_neg hqb]
  rw [queryTrigrams_blocks
    { st0 with query_count := (st0.query_count + 1) % 2 ^ 64 } st0 rfl]
  rw [if_neg hqts]
  exact searchCore_count st0.blocks st0.postings st0.doc_lengths
    st0.config.minOverlap hbo _ (queryTrigrams_block st0 _) lim
    hg1 hg2 hfit

theorem exClean_reachable : Reachable idLower exClean :=
  Reachable.search _ _ _ (Reachable.add _ _ (Reachable.add _ _
    (Reachable.add _ _ (Reachable.add _ _
      (Reachable.add _ _ Reachable.new)))))

theorem exClean_minOverlap : exClean.config.minOverlap = ratioDefault := rfl

theorem exClean_qts_len :
    ((queryTrigrams exClean (utf8 (normalize_into exClean.normStrip idLower
      [97, 98, 99, 100, 101, 102]))).insertionSort qtLe).length = 4 := by
  decide

theorem exClean_selCount :
    selectiveCount exClean.postings exClean.config.minOverlap
      (queryTrigrams exClean (utf8 (normalize_into exClean.normStrip idLower
        [97, 98, 99, 100, 101, 102]))) = 1 := by
  rw [exClean_minOverlap]
  unfold selectiveCount
  dsimp only
  rw [exClean_qts_len, required_end_four]
  decide

theorem exClean_search_len :
    (exClean.search idLower [97, 98, 99, 100, 101, 102] 10).1.length = 1 := by
  have hok := reachable_ok idLower idLower_valid exClean exClean_reachable
  have hbo : BlockOut exClean.blocks exClean.postings :=
    (hok.2.2.2 (by decide)).2.2.1
  unfold Lattice.search
  dsimp only
  rw [if_neg (show ¬ (exClean.documents.spans.length = 0 ∨ (10 : Nat) = 0)
    by decide)]
  dsimp only
  rw [if_neg (show ¬ exClean.needs_rebuild = true by decide)]
  unfold searchResults
  dsimp only
  rw [if_neg (show ¬ (utf8 [97, 98, 99, 100, 101, 102]).length >
    MAX_QUERY_LENGTH by decide)]
  rw [if_neg (show ¬ (utf8 (normalize_into exClean.normStrip idLower
    [97, 98, 99, 100, 101, 102])).length < 3 by decide)]
  rw [queryTrigrams_blocks
    { exClean with query_count := (exClean.query_count + 1) % 2 ^ 64 }
    exClean rfl]
  rw [if_neg (show queryTrigrams exClean (utf8 (normalize_into
    exClean.normStrip idLower [97, 98, 99, 100, 101, 102])) ≠ [] by decide)]
  rw [searchCore_count exClean.blocks exClean.postings exClean.doc_lengths
    exClean.config.minOverlap hbo _ (queryTrigrams_block exClean _) 10
    (by decide) (by decide) (by rw [exClean_selCount]; omega)]
  exact exClean_selCount

theorem exClean2_reachable : Reachable idLower exClean2 :=
  Reachable.search _ _ _ (Reachable.add _ _ (Reachable.add _ _
    (Reachable.add _ _ (Reachable.add _ _ Reachable.new))))

theorem exClean2_minOverlap : exClean2.config.minOverlap = ratioDefault := rfl

theorem exClean2_qts_len :
    ((queryTrigrams exClean2 (utf8 (normalize_into exClean2.normStrip idLower
      [97, 98, 99, 100, 101, 102]))).insertionSort qtLe).length = 4 := by
  decide

theorem exClean2_selCount :
    selectiveCount exClean2.postings exClean2.config.minOverlap
      (queryTrigrams exClean2 (utf8 (normalize_into exClean2.normStrip idLower
        [97, 98, 99, 100, 101, 102]))) = 1 := by
  rw [exClean2_minOverlap]
  unfold selectiveCount
  dsimp only
  rw [exClean2_qts_len, required_end_four]
  decide

/-- C2 counterexample: on the five-document corpus, the query "abcdef" has
all four of its trigram windows in the index (`k = 4`,
`required = max(1, ceil(4 · 0.3)) = 2`), and two documents ("abcdef" and
"cdef") share at least 2 trigrams with the query — yet `search` with a
limit of 10 returns exactly one result, because the hard-intersection runs
over the `required_end` most selective posting lists ("abc" appears only in
document 0), not over any combination of shared trigrams. -/
theorem c2_counterexample :
    (exClean.search idLower [97, 98, 99, 100, 101, 102] 10).1.length = 1 ∧
    (queryTrigrams exClean (utf8 [97, 98, 99, 100, 101, 102])).length = 4 ∧
    required_end 4 ratioDefault = 2 ∧
    ((List.range 5).filter (fun i =>
      2 ≤ ((windows3 (utf8 (exDocs.getD i []))).filter
        (fun t => decide (t ∈ windows3
          (utf8 [97, 98, 99, 100, 101, 102])))).dedup.length)).length = 2 :=
  ⟨exClean_search_len, by decide, required_end_four, by decide⟩

/-- C2 witness: the amended count applied at the rebuilt four-document
state `exClean2`, whose retained posting lists for the query "abcdef" have
the pairwise distinct lengths 1, 2, 3 and 4 (so the unstable length-sort
has a unique sorted output), with limit 10 — one result, the single
document of the seed list "abc" surviving the intersection. -/
theorem c2_witness :
    ValidLower idLower ∧
    Reachable idLower exClean2 ∧
    exClean2.needs_rebuild = false ∧
    exClean2.documents.spans.length ≠ 0 ∧
    (10 : Nat) ≠ 0 ∧
    exClean2.documents.buffer.length < 2 ^ 32 ∧
    (¬ (utf8 [97, 98, 99, 100, 101, 102]).length > MAX_QUERY_LENGTH) ∧
    (¬ (utf8 (normalize_into exClean2.normStrip idLower
      [97, 98, 99, 100, 101, 102])).length < 3) ∧
    queryTrigrams exClean2 (utf8 (normalize_into exClean2.normStrip idLower
      [97, 98, 99, 100, 101, 102])) ≠ [] ∧
    (queryTrigrams exClean2 (utf8 (normalize_into exClean2.normStrip idLower
      [97, 98, 99, 100, 101, 102]))).Pairwise (fun a b => a.len ≠ b.len) ∧
    (¬ (((queryTrigrams exClean2 (utf8 (normalize_into exClean2.normStrip
        idLower [97, 98, 99, 100, 101, 102]))).insertionSort qtLe).getD 0
      ⟨0, 0, 0⟩).len > MAX_SEED_POSTING_LIST) ∧
    (¬ (((queryTrigrams exClean2 (utf8 (normalize_into exClean2.normStrip
        idLower [97, 98, 99, 100, 101, 102]))).insertionSort qtLe).getD 0
      ⟨0, 0, 0⟩).len > MAX_CANDIDATES) ∧
    selectiveCount exClean2.postings exClean2.config.minOverlap
      (queryTrigrams exClean2 (utf8 (normalize_into exClean2.normStrip idLower
        [97, 98, 99, 100, 101, 102]))) ≤ 10 ∧
    (exClean2.search idLower [97, 98, 99, 100, 101, 102] 10).1.length =
      selectiveCount exClean2.postings exClean2.config.minOverlap
        (queryTrigrams exClean2 (utf8 (normalize_into exClean2.normStrip
          idLower [97, 98, 99, 100, 101, 102]))) :=
  ⟨idLower_valid, exClean2_reachable, by decide, by decide, by decide,
    by decide, by decide, by decide, by decide, by decide, by decide,
    by decide,
    by rw [exClean2_selCount]; omega,
    c2_amended idLower exClean2 [97, 98, 99, 100, 101, 102] 10 idLower_valid
      exClean2_reachable (by decide) (by decide) (by decide) (by decide)
      (by decide) (by decide) (by decide) (by decide) (by decide) (by decide)
      (by rw [exClean2_selCount]; omega)⟩

/-- C5 witness: the equivalence applied at the concrete state reached by
adding one document to a fresh engine (3 bytes stored, 1 entry — both
bounds hold). -/
theorem c5_witness :
    ValidLower idLower ∧
    Reachable idLower (Lattice.new.add idLower [97, 98, 99]).2 ∧
    (Lattice.new.add idLower [97, 98, 99]).2.documents.buffer.length <
      2 ^ 32 ∧
    (allEntries (Lattice.new.add idLower [97, 98, 99]).2).length < 2 ^ 32 ∧
    ((Lattice.new.add idLower [97, 98, 99]).2.rebuild_index.blocks =
      (build_blocks_from_sorted (sort_trigrams
        (allEntries (Lattice.new.add idLower [97, 98, 99]).2))).1 ∧
     (Lattice.new.add idLower [97, 98, 99]).2.rebuild_index.postings =
      (build_blocks_from_sorted (sort_trigrams
        (allEntries (Lattice.new.add idLower [97, 98, 99]).2))).2) :=
  ⟨idLower_valid, Reachable.add _ _ Reachable.new, by decide, by decide,
    c5_cold_rebuild idLower _ idLower_valid (Reachable.add _ _ Reachable.new)
      (by decide) (by decide)⟩

end Eng
